import Mathlib

/-!
# EditorEd: line buffer with undo/redo history

Shallow embedding of `src/main.c` (history log, line buffer, undo/redo replay,
deferred replay coalescer) and theorems about it.

Conventions of the embedding.

* A C function that mutates `editor_t* editor` becomes a function from the old
  editor to the new one.  Results live in `Except Fault`: `.error f` means that
  the C execution has no defined behaviour (an access outside an allocated
  block, a signed counter overflow, the use of an uninitialised history node).
* `size_t` values are naturals below `2^64`; `size_t` arithmetic reduces modulo
  `2^64` (`size_add`, `size_sub`, `size_mul`).  `ssize_t` and `int` values are
  integers; the conversions between the types are `to_size`, `to_int`,
  `to_ssize`.
* A `char*` is an abstract address; the bytes it points to live in the input
  arena, which the editor never writes, so a line is identified by its content
  reference and its length.  A memory cell is `some v` once written and `none`
  while it still holds whatever `malloc`/`realloc` returned.
* An allocated array is the list of its cells; a `NULL` pointer to a block is
  `none`.  Allocation is assumed to succeed, except that `malloc` refuses a
  snapshot block of `2^63` bytes or more (`malloc_cells`).
-/

namespace EditorEd

/-! ## Machine integers -/

/-- Largest value of a C `int`. -/
def INT_MAX : Int := 2147483647

/-- Largest value of `ssize_t`; an `ssize_t` at or beyond it cannot be incremented. -/
def SSIZE_MAX : Int := 9223372036854775807

/-- Conversion of an integer value to `size_t`: reduction modulo `2^64`. -/
def to_size (x : Int) : Nat := (x % 18446744073709551616).toNat

/-- Conversion of an integer value to `int`: the low 32 bits, two's complement. -/
def to_int (x : Int) : Int := (x + 2147483648) % 4294967296 - 2147483648

/-- Conversion of an integer value to `ssize_t`: the low 64 bits, two's complement. -/
def to_ssize (x : Int) : Int :=
  (x + 9223372036854775808) % 18446744073709551616 - 9223372036854775808

/-- Addition of two `size_t` values. -/
def size_add (a b : Nat) : Nat := (a + b) % 18446744073709551616

/-- Subtraction of two `size_t` values. -/
def size_sub (a b : Nat) : Nat := to_size ((a : Int) - (b : Int))

/-- Multiplication of two `size_t` values. -/
def size_mul (a b : Nat) : Nat := (a * b) % 18446744073709551616

/-! ## Faults and memory blocks -/

/-- Ways in which the C execution leaves defined behaviour: `oob` is an access
outside an allocated block (or through `NULL`), `overflow` a signed integer
overflow, `uninit` the use of a history node that was never written.  `fuel` only
makes the loop functions total; a loop over an `int` counter never reports it
(`for_up_fuel`, `for_down_fuel`). -/
inductive Fault where
  | oob
  | overflow
  | uninit
  | fuel
deriving DecidableEq

/-- A memory cell holding a `char*` or a `size_t`: `none` until first written. -/
abbrev Cell := Option Nat

/-- Read `a[i]` of an allocated array. -/
def rd {α : Type} (a : List α) (i : Nat) : Except Fault α :=
  match a[i]? with
  | some v => .ok v
  | none => .error .oob

/-- Write `a[i] = v` of an allocated array. -/
def wr {α : Type} (a : List α) (i : Nat) (v : α) : Except Fault (List α) :=
  if i < a.length then .ok (a.set i v) else .error .oob

/-- Read `p[i]` through a pointer that may be `NULL`. -/
def rdp {α : Type} (p : Option (List α)) (i : Nat) : Except Fault α :=
  match p with
  | some a => rd a i
  | none => .error .oob

/-- Write `p[i] = v` through a pointer that may be `NULL`. -/
def wrp {α : Type} (p : Option (List α)) (i : Nat) (v : α) :
    Except Fault (Option (List α)) :=
  match p with
  | some a => if i < a.length then .ok (some (a.set i v)) else .error .oob
  | none => .error .oob

/-- An `int` used as an array index: a negative one points before the block. -/
def idx (i : Int) : Except Fault Nat :=
  if 0 ≤ i then .ok i.toNat else .error .oob

/-- The block `realloc` returns: the old cells up to the new size, then fresh ones. -/
def realloc {α : Type} (a : List (Option α)) (n : Nat) : List (Option α) :=
  a.take n ++ List.replicate (n - a.length) none

/-- The block `malloc(8 * n)` returns for `n` cells of eight bytes
(`sizeof(size_t)`, `sizeof(char*)`).  The byte count is computed in `size_t`.  No
object of `2^63` bytes or more exists (the limit is `PTRDIFF_MAX`), so such a
request returns `NULL`; every other request is assumed to succeed. -/
def malloc_cells (n : Nat) : Option (List Cell) :=
  if size_mul 8 n ≥ 9223372036854775808 then none
  else some (List.replicate (size_mul 8 n / 8) none)

/-- Iterations an `int` counter can make at most. -/
def LOOP_FUEL : Nat := 4294967296

/-- The loop `for (int i = i0; cond(i); ++i) body(i)`.  Incrementing `i` past
`INT_MAX` is a signed overflow. -/
def for_up {σ : Type} (cond : Int → Bool) (body : Int → σ → Except Fault σ) :
    Nat → Int → σ → Except Fault σ
  | 0, i, st => if cond i then .error .fuel else .ok st
  | fuel + 1, i, st =>
    if cond i then
      match body i st with
      | .error f => .error f
      | .ok st' =>
        if i = INT_MAX then .error .overflow else for_up cond body fuel (i + 1) st'
    else .ok st

/-- The loop `for (int i = i0; i >= 0; --i) body(i)`. -/
def for_down {σ : Type} (body : Int → σ → Except Fault σ) :
    Nat → Int → σ → Except Fault σ
  | 0, i, st => if 0 ≤ i then .error .fuel else .ok st
  | fuel + 1, i, st =>
    if 0 ≤ i then
      match body i st with
      | .error f => .error f
      | .ok st' => for_down body fuel (i - 1) st'
    else .ok st

/-! ## COMMAND_HISTORY -/

def ERROR_MEMORY_ALLOCATION : Int := -1000
def ERROR_HISTORY_EMPTY : Int := -1001
def ERROR_INDEX_OUT_OF_BOUNDS : Int := -1002

inductive command_type_t where
  | CHANGE
  | DELETE
deriving DecidableEq

structure history_node_t where
  type : command_type_t
  old_data : Option (List Cell)
  old_data_sizes : Option (List Cell)
  data : Option (List Cell)
  data_sizes : Option (List Cell)
  line_start : Nat
  line_count : Nat
  row_count : Nat
deriving DecidableEq

structure history_t where
  nodes : List (Option history_node_t)
  index : Int
  count : Nat
  capacity : Nat
deriving DecidableEq

def HISTORY_INITIAL_CAPACITY : Nat := 20

/-- The node `memset(node, 0, sizeof(history_node_t))` produces. -/
def zero_node : history_node_t :=
  { type := .CHANGE, old_data := none, old_data_sizes := none, data := none,
    data_sizes := none, line_start := 0, line_count := 0, row_count := 0 }

def free_node_contents (node : history_node_t) : history_node_t :=
  { node with data := none, data_sizes := none, old_data := none, old_data_sizes := none }

def command_history_init : history_t :=
  { nodes := List.replicate HISTORY_INITIAL_CAPACITY none,
    index := -1, count := 0, capacity := HISTORY_INITIAL_CAPACITY }

/-- Apply `free_node_contents(history->nodes + i)`. -/
def free_node_at (nodes : List (Option history_node_t)) (i : Int) :
    Except Fault (List (Option history_node_t)) := do
  let j ← idx i
  let cell ← rd nodes j
  match cell with
  | none => .error .uninit
  | some node => wr nodes j (some (free_node_contents node))

def command_history_append (history : history_t) (node : history_node_t) :
    Except Fault (Int × history_t) :=
  if history.index ≥ SSIZE_MAX then .error .overflow
  else do
    let history :=
      if to_size (history.index + 1) ≥ history.capacity then
        let new_capacity := size_mul history.capacity 2
        { history with nodes := realloc history.nodes new_capacity, capacity := new_capacity }
      else history
    let history := { history with index := history.index + 1 }
    let nodes ←
      (if to_size history.index < history.count then
        for_up (fun i => to_size i < history.count) (fun i ns => free_node_at ns i)
          LOOP_FUEL (to_int history.index) history.nodes
      else pure history.nodes)
    let j ← idx history.index
    let nodes ← wr nodes j (some node)
    pure (0, { history with nodes := nodes, count := to_size (history.index + 1) })

def command_history_forward (history : history_t) :
    Except Fault (Int × history_t × Option history_node_t) :=
  if history.index ≥ SSIZE_MAX then .error .overflow
  else if to_size (history.index + 1) ≥ history.count then
    pure (ERROR_HISTORY_EMPTY, history, none)
  else do
    let history := { history with index := history.index + 1 }
    let j ← idx history.index
    let cell ← rd history.nodes j
    match cell with
    | none => .error .uninit
    | some node => pure (0, history, some node)

def command_history_back (history : history_t) :
    Except Fault (Int × history_t × Option history_node_t) :=
  if history.index < -1 then
    pure (ERROR_HISTORY_EMPTY, history, none)
  else if history.index = -1 then
    pure (0, history, some zero_node)
  else do
    let j ← idx history.index
    let cell ← rd history.nodes j
    match cell with
    | none => .error .uninit
    | some node => pure (0, { history with index := history.index - 1 }, some node)

def command_history_update (history : history_t) (node : history_node_t) :
    Except Fault history_t := do
  let j ← idx (history.index + 1)
  let nodes ← wr history.nodes j (some node)
  pure { history with nodes := nodes }

/-! ## EDITOR -/

structure editor_t where
  rows : List Cell
  sizes : List Cell
  row_count : Nat
  row_capacity : Nat
  delayed_history_change_count : Int
  history : history_t
deriving DecidableEq

def EDITOR_INITIAL_CAPACITY : Nat := 20

def expand_buffers (editor : editor_t) (needed_size : Nat) : Except Fault editor_t := do
  let new_capacity := size_mul needed_size 2
  let rows := realloc editor.rows new_capacity
  let sizes := realloc editor.sizes new_capacity
  let sizes ← for_up (fun i => to_size i < new_capacity)
    (fun i sizes => do
      let j ← idx i
      wr sizes j (some 0))
    LOOP_FUEL (to_int editor.row_capacity) sizes
  pure { editor with rows := rows, sizes := sizes, row_capacity := new_capacity }

/-- The two blocks `copy_lines` hands back through `buffer` and `sizes`. -/
def copy_lines (editor : editor_t) (line_start lines_count : Nat) :
    Except Fault (Option (List Cell) × Option (List Cell)) :=
  if lines_count = 0 then
    pure (none, none)
  else do
    let data_sizes := malloc_cells lines_count
    let data := malloc_cells lines_count
    let st ←
      for_up (fun i => to_size i < size_add line_start lines_count)
        (fun i (st : Option (List Cell) × Option (List Cell)) => do
          let v ← rd editor.sizes (size_add line_start (to_size i))
          let j ← idx i
          let data_sizes ← wrp st.2 j v
          let r ← rd editor.rows j
          let data ← wrp st.1 j r
          pure (data, data_sizes))
        LOOP_FUEL (to_int line_start) (data, data_sizes)
    pure (st.1, st.2)

def change_lines (editor : editor_t) (line_start lines_count : Nat)
    (data sizes : Option (List Cell)) : Except Fault editor_t := do
  let editor ← for_up (fun i => to_size i < lines_count)
    (fun i (editor : editor_t) => do
      let j ← idx i
      let v ← rdp sizes j
      let new_sizes ← wr editor.sizes (size_add line_start (to_size i)) v
      let r ← rdp data j
      let new_rows ← wr editor.rows (size_add line_start (to_size i)) r
      pure { editor with sizes := new_sizes, rows := new_rows })
    LOOP_FUEL 0 editor
  if size_add line_start lines_count > editor.row_count then
    pure { editor with row_count := size_add line_start lines_count }
  else pure editor

/-- Here `data` is the address of the first input byte and `sizes` the array of
line lengths the caller filled in. -/
def change_lines2 (editor : editor_t) (line_start lines_count : Nat)
    (data : Nat) (sizes : List Nat) : Except Fault editor_t := do
  let st ← for_up (fun i => to_size i < lines_count)
    (fun i (st : editor_t × Nat) => do
      let j ← idx i
      let v ← rd sizes j
      let new_sizes ← wr st.1.sizes (size_add line_start (to_size i)) (some v)
      let new_rows ← wr st.1.rows (size_add line_start (to_size i)) (some (data + st.2))
      let w ← rd sizes j
      pure ({ st.1 with sizes := new_sizes, rows := new_rows }, size_add st.2 (size_add w 1)))
    LOOP_FUEL 0 (editor, 0)
  let editor := st.1
  if size_add line_start lines_count > editor.row_count then
    pure { editor with row_count := size_add line_start lines_count }
  else pure editor

def delete_lines (editor : editor_t) (line_start lines_count : Nat) :
    Except Fault editor_t := do
  let line_end := size_add line_start lines_count
  let editor ← for_up (fun i => to_size i < size_sub editor.row_count line_start)
    (fun i (ed : editor_t) =>
      if size_add line_end (to_size i) < ed.row_count then do
        let v ← rd ed.sizes (size_add line_end (to_size i))
        let new_sizes ← wr ed.sizes (size_add line_start (to_size i)) v
        let r ← rd ed.rows (size_add line_end (to_size i))
        let new_rows ← wr ed.rows (size_add line_start (to_size i)) r
        pure { ed with sizes := new_sizes, rows := new_rows }
      else pure ed)
    LOOP_FUEL 0 editor
  if lines_count ≥ editor.row_count then
    pure { editor with row_count := 0 }
  else pure { editor with row_count := size_sub editor.row_count lines_count }

def editor_init : editor_t :=
  { rows := List.replicate EDITOR_INITIAL_CAPACITY none,
    sizes := List.replicate EDITOR_INITIAL_CAPACITY (some 0),
    row_count := 0,
    row_capacity := EDITOR_INITIAL_CAPACITY,
    delayed_history_change_count := 0,
    history := command_history_init }

/-- The parameter `input_size` of the C function is never read and is left out. -/
def editor_change (editor : editor_t) (line_start lines_count : Nat)
    (input : Nat) (input_sizes : List Nat) : Except Fault (Int × editor_t) := do
  if line_start > editor.row_count then
    pure (ERROR_INDEX_OUT_OF_BOUNDS, editor)
  else
    let editor ←
      (if size_add line_start lines_count ≥ editor.row_capacity then
        expand_buffers editor (size_add line_start lines_count)
      else pure editor)
    let history : history_node_t :=
      { type := .CHANGE, line_start := line_start, line_count := lines_count,
        row_count := editor.row_count, old_data := none, old_data_sizes := none,
        data := none, data_sizes := none }
    let buffer_lines_count :=
      if size_add line_start lines_count > editor.row_count then
        size_sub editor.row_count line_start
      else lines_count
    let old ← copy_lines editor line_start buffer_lines_count
    let editor ← change_lines2 editor line_start lines_count input input_sizes
    let history := { history with old_data := old.1, old_data_sizes := old.2 }
    let appended ← command_history_append editor.history history
    pure (0, { editor with history := appended.2 })

def editor_delete (editor : editor_t) (line_start lines_count : Nat) :
    Except Fault (Int × editor_t) := do
  if editor.row_count = 0 then
    let history : history_node_t :=
      { type := .DELETE, line_start := line_start, line_count := lines_count,
        row_count := 0, old_data := none, old_data_sizes := none,
        data := none, data_sizes := none }
    let appended ← command_history_append editor.history history
    pure (appended.1, { editor with history := appended.2 })
  else
    let lines_count :=
      if size_add line_start lines_count ≥ editor.row_count then
        size_sub editor.row_count line_start
      else lines_count
    let history : history_node_t :=
      { type := .DELETE, line_start := line_start, line_count := lines_count,
        row_count := editor.row_count, old_data := none, old_data_sizes := none,
        data := none, data_sizes := none }
    let old ← copy_lines editor line_start lines_count
    let editor ← delete_lines editor line_start lines_count
    let history := { history with old_data := old.1, old_data_sizes := old.2 }
    let appended ← command_history_append editor.history history
    pure (0, { editor with history := appended.2 })

/-- One turn of the `while (count-- > 0)` loop of `editor_undo`, after
`command_history_back` has returned 0 and filled `node`. -/
def undo_step (editor : editor_t) (node : history_node_t) : Except Fault editor_t :=
  match node.type with
  | .CHANGE => do
    let st ←
      (if node.data = none then do
        let old ← copy_lines editor node.line_start node.line_count
        let node := { node with data := old.1, data_sizes := old.2 }
        let h ← command_history_update editor.history node
        pure ({ editor with history := h }, node)
      else pure (editor, node))
    let editor := st.1
    let node := st.2
    if node.old_data = none then
      pure { editor with row_count := node.row_count }
    else do
      let editor ←
        (if size_add node.line_start node.line_count ≥ node.row_count then
          change_lines editor node.line_start (size_sub node.row_count node.line_start)
            node.old_data node.old_data_sizes
        else
          change_lines editor node.line_start node.line_count
            node.old_data node.old_data_sizes)
      pure { editor with row_count := node.row_count }
  | .DELETE => do
    let line_end := size_add node.line_start node.line_count
    let editor ← for_down
      (fun i (ed : editor_t) => do
        let v ← rd ed.sizes (size_add node.line_start (to_size i))
        let new_sizes ← wr ed.sizes (size_add line_end (to_size i)) v
        let r ← rd ed.rows (size_add node.line_start (to_size i))
        let new_rows ← wr ed.rows (size_add line_end (to_size i)) r
        pure { ed with sizes := new_sizes, rows := new_rows })
      LOOP_FUEL
      (to_int (size_sub (size_sub editor.row_count node.line_start) 1)) editor
    if node.old_data = none then
      pure { editor with row_count := node.row_count }
    else do
      let editor ← change_lines editor node.line_start node.line_count
        node.old_data node.old_data_sizes
      pure { editor with row_count := node.row_count }

def editor_undo (editor : editor_t) : Nat → Except Fault (Int × editor_t)
  | 0 => pure (0, editor)
  | count + 1 => do
    let back ← command_history_back editor.history
    let editor := { editor with history := back.2.1 }
    if back.1 ≠ 0 then
      pure (0, editor)
    else
      match back.2.2 with
      | none => .error .uninit
      | some node => do
        let editor ← undo_step editor node
        editor_undo editor count

/-- One turn of the `while (count-- > 0)` loop of `editor_redo`, after
`command_history_forward` has returned 0 and filled `node`. -/
def redo_step (editor : editor_t) (node : history_node_t) : Except Fault editor_t :=
  match node.type with
  | .CHANGE =>
    change_lines editor node.line_start node.line_count node.data node.data_sizes
  | .DELETE =>
    if editor.row_count > 0 then
      delete_lines editor node.line_start node.line_count
    else pure editor

def editor_redo (editor : editor_t) : Nat → Except Fault (Int × editor_t)
  | 0 => pure (0, editor)
  | count + 1 => do
    let forward ← command_history_forward editor.history
    let editor := { editor with history := forward.2.1 }
    if forward.1 ≠ 0 then
      pure (0, editor)
    else
      match forward.2.2 with
      | none => .error .uninit
      | some node => do
        let editor ← redo_step editor node
        editor_redo editor count

/-- One `fwrite` call: a buffer line (the content reference and the length
found in the two arrays), the constant `EMPTY_LINE_BUFFER` (`.\n`) or the
constant `NEW_LINE_BUFFER` (`\n`). -/
inductive Chunk where
  | line (row : Cell) (size : Cell)
  | empty_line
  | new_line
deriving DecidableEq

def editor_print (editor : editor_t) (line_start lines_count : Nat) :
    Except Fault (Int × List Chunk) := do
  let out ← for_up (fun i => to_size i < size_add line_start lines_count)
    (fun i (out : List Chunk) =>
      if to_size i ≥ editor.row_count then
        pure (out ++ [Chunk.empty_line])
      else do
        let j ← idx i
        let r ← rd editor.rows j
        let s ← rd editor.sizes j
        pure (out ++ [Chunk.line r s, Chunk.new_line]))
    LOOP_FUEL (to_int line_start) []
  pure (0, out)

def editor_change_history (editor : editor_t) : Except Fault (Int × editor_t) := do
  let replayed ←
    (if editor.delayed_history_change_count > 0 then
      editor_redo editor (to_size editor.delayed_history_change_count)
    else if editor.delayed_history_change_count < 0 then
      editor_undo editor (to_size (-editor.delayed_history_change_count))
    else pure (0, editor))
  pure (replayed.1, { replayed.2 with delayed_history_change_count := 0 })

/-! ## Command dispatch -/

def COMMAND_CHANGE : Char := 'c'
def COMMAND_DELETE : Char := 'd'
def COMMAND_UNDO : Char := 'u'
def COMMAND_REDO : Char := 'r'
def COMMAND_PRINT : Char := 'p'

/-- The result is the return value, the editor and what was written to `stdout`.
`first_index` and `second_index` are C `int`s. -/
def do_command (editor : editor_t) (input : Nat) (lines_count : Nat) (command_char : Char)
    (first_index second_index : Int) (input_sizes : List Nat) :
    Except Fault (Int × editor_t × List Chunk) :=
  if command_char = COMMAND_CHANGE then do
    let flushed ← editor_change_history editor
    let changed ←
      editor_change flushed.2 (to_size (first_index - 1)) lines_count input input_sizes
    pure (changed.1, changed.2, [])
  else if command_char = COMMAND_DELETE then do
    let flushed ← editor_change_history editor
    let lines_count := to_size (second_index - first_index + 1)
    let deleted ← editor_delete flushed.2 (to_size (first_index - 1)) lines_count
    pure (deleted.1, deleted.2, [])
  else if command_char = COMMAND_UNDO then
    let new_index :=
      editor.history.index + editor.delayed_history_change_count - first_index
    if new_index ≥ -1 then
      pure (0, { editor with delayed_history_change_count :=
        editor.delayed_history_change_count - first_index }, [])
    else
      pure (0, { editor with delayed_history_change_count :=
        -editor.history.index - 1 }, [])
  else if command_char = COMMAND_REDO then
    let new_index :=
      editor.history.index + editor.delayed_history_change_count + first_index
    if to_size new_index < editor.history.count then
      pure (0, { editor with delayed_history_change_count :=
        editor.delayed_history_change_count + first_index }, [])
    else
      let tail := to_ssize ((editor.history.count : Int) - editor.history.index - 1)
      pure (0, { editor with delayed_history_change_count := tail }, [])
  else if command_char = COMMAND_PRINT then
    if first_index = 0 ∨ second_index = 0 then
      pure (0, editor, [Chunk.empty_line])
    else do
      let flushed ← editor_change_history editor
      let lines_count := to_size (second_index - first_index + 1)
      let printed ← editor_print flushed.2 (to_size (first_index - 1)) lines_count
      pure (printed.1, flushed.2, printed.2)
  else pure (1, editor, [])

/-! ## Vocabulary of the statements -/

/-- Offset of the `i`-th input line from the first input byte, as `main` lays the
lines out: every earlier line takes its length plus one byte for the newline. -/
def line_offset (sizes : List Nat) (i : Nat) : Nat :=
  ((sizes.take i).map (fun w => w + 1)).sum

/-- Well-formed line buffer: both arrays have `row_capacity` cells, the rows in
use fit in them, and the capacity fits the `int` counters of the loops. -/
def buffer_wf (e : editor_t) : Prop :=
  e.rows.length = e.row_capacity ∧ e.sizes.length = e.row_capacity ∧
  e.row_count ≤ e.row_capacity ∧ e.row_capacity ≤ 2147483647

instance (e : editor_t) : Decidable (buffer_wf e) := by
  unfold buffer_wf
  infer_instance

/-- The cursor invariant of the history log: `-1 <= index <= count - 1`. -/
def cursor_inv (h : history_t) : Prop :=
  -1 ≤ h.index ∧ h.index ≤ (h.count : Int) - 1

instance (h : history_t) : Decidable (cursor_inv h) := by
  unfold cursor_inv
  infer_instance

/-- States the dispatch loop of `main` can bring the editor into: it starts from
`editor_init` and only calls `do_command`; a flush (`editor_change_history`) is
listed on its own as well. -/
inductive Reachable : editor_t → Prop where
  | init : Reachable editor_init
  | command (e e' : editor_t) (input lines_count : Nat) (command_char : Char)
      (first_index second_index : Int) (input_sizes : List Nat) (r : Int)
      (out : List Chunk) :
      Reachable e →
      do_command e input lines_count command_char first_index second_index input_sizes
        = .ok (r, e', out) →
      Reachable e'
  | flush (e e' : editor_t) (r : Int) :
      Reachable e → editor_change_history e = .ok (r, e') → Reachable e'

/-! ## Example states

The input arena holds `hello\nworld\nfoo\nbar\n` from address 100 on: `hello`
at 100, `world` at 106, `foo` at 112, `bar` at 116. -/

/-- The node a change of `line_count` lines at `line_start` records when it
overwrites nothing. -/
def append_node (line_start line_count row_count : Nat) : history_node_t :=
  { type := .CHANGE, old_data := none, old_data_sizes := none, data := none,
    data_sizes := none, line_start := line_start, line_count := line_count,
    row_count := row_count }

/-- The editor after `1,1c hello .` on a fresh editor. -/
def ed_hello : editor_t :=
  { rows := some 100 :: List.replicate 19 none,
    sizes := some 5 :: List.replicate 19 (some 0),
    row_count := 1, row_capacity := 20, delayed_history_change_count := 0,
    history :=
      { nodes := some (append_node 0 1 0) :: List.replicate 19 none,
        index := 0, count := 1, capacity := 20 } }

/-- The editor after `1,1c hello .` and `2,2c world .`. -/
def ed_hello_world : editor_t :=
  { rows := some 100 :: some 106 :: List.replicate 18 none,
    sizes := some 5 :: some 5 :: List.replicate 18 (some 0),
    row_count := 2, row_capacity := 20, delayed_history_change_count := 0,
    history :=
      { nodes := some (append_node 0 1 0) :: some (append_node 1 1 1) ::
          List.replicate 18 none,
        index := 1, count := 2, capacity := 20 } }

/-- The editor after `1,2c hello world .` on a fresh editor. -/
def ed_two_lines : editor_t :=
  { rows := some 100 :: some 106 :: List.replicate 18 none,
    sizes := some 5 :: some 5 :: List.replicate 18 (some 0),
    row_count := 2, row_capacity := 20, delayed_history_change_count := 0,
    history :=
      { nodes := some (append_node 0 2 0) :: List.replicate 19 none,
        index := 0, count := 1, capacity := 20 } }

/-- Loop invariant of `change_lines2` before turn `n`: the first `n` input lines
are in place from `line_start` on, the running offset is that of line `n`, and
nothing else has changed. -/
structure change2_inv (e : editor_t) (s k input : Nat) (sizes : List Nat)
    (n : Nat) (st : editor_t × Nat) : Prop where
  le : n ≤ k
  small : n ≤ 2147483647
  off : st.2 = line_offset sizes n
  rows_len : st.1.rows.length = e.rows.length
  sizes_len : st.1.sizes.length = e.sizes.length
  frame : st.1.row_count = e.row_count ∧ st.1.row_capacity = e.row_capacity ∧
    st.1.delayed_history_change_count = e.delayed_history_change_count ∧
    st.1.history = e.history
  written : ∀ m, m < n → ∃ w, sizes[m]? = some w ∧
    st.1.rows[s + m]? = some (some (input + line_offset sizes m)) ∧
    st.1.sizes[s + m]? = some (some w)
  kept : ∀ j, (j < s ∨ s + n ≤ j) → st.1.rows[j]? = e.rows[j]? ∧ st.1.sizes[j]? = e.sizes[j]?

/-- Histories the log operations alone can produce from `command_history_init`. -/
inductive HistoryReachable : history_t → Prop where
  | init : HistoryReachable command_history_init
  | append (h h' : history_t) (node : history_node_t) (r : Int) :
      HistoryReachable h → command_history_append h node = .ok (r, h') → HistoryReachable h'
  | forward (h h' : history_t) (r : Int) (node : Option history_node_t) :
      HistoryReachable h → command_history_forward h = .ok (r, h', node) → HistoryReachable h'
  | back (h h' : history_t) (r : Int) (node : Option history_node_t) :
      HistoryReachable h → command_history_back h = .ok (r, h', node) → HistoryReachable h'
  | update (h h' : history_t) (node : history_node_t) :
      HistoryReachable h → command_history_update h node = .ok h' → HistoryReachable h'

/-- The counters of the history stay clear of the limits of `ssize_t`: fewer
than `2^62` nodes, cursor within `[-2^62, 2^62)`.  The sums and differences
`do_command` forms from them and an `int` then do not overflow. -/
def history_range (h : history_t) : Prop :=
  -4611686018427387904 ≤ h.index ∧ h.index < 4611686018427387904 ∧
  h.count < 4611686018427387904

instance (h : history_t) : Decidable (history_range h) := by
  unfold history_range
  infer_instance

/-- The editor after `1,1c hello .`, `2,2c world .` and `3,3c foo .`. -/
def ed_three : editor_t :=
  { rows := some 100 :: some 106 :: some 112 :: List.replicate 17 none,
    sizes := some 5 :: some 5 :: some 3 :: List.replicate 17 (some 0),
    row_count := 3, row_capacity := 20, delayed_history_change_count := 0,
    history :=
      { nodes := some (append_node 0 1 0) :: some (append_node 1 1 1) ::
          some (append_node 2 1 2) :: List.replicate 17 none,
        index := 2, count := 3, capacity := 20 } }

/-- The node of `1,1c hello .` once it has been undone: the undo has stored the
lines it found in the buffer as `data`. -/
def undone_node : history_node_t :=
  { append_node 0 1 0 with data := some [some 100], data_sizes := some [some 5] }

/-- The editor after `1,1c hello .`, `1u` and a flush. -/
def ed_undone : editor_t :=
  { ed_hello with
    row_count := 0,
    history :=
      { nodes := some undone_node :: List.replicate 19 none,
        index := -1, count := 1, capacity := 20 } }

/-- The editor after `1,1c hello .`, `1u`, a flush, `1r` and a flush. -/
def ed_redone : editor_t :=
  { ed_hello with
    history :=
      { nodes := some undone_node :: List.replicate 19 none,
        index := 0, count := 1, capacity := 20 } }

/-- The editor after `1,1c hello .`, `1u` and `1,1c world .`: the new change has
taken the place of the undone one. -/
def ed_world : editor_t :=
  { ed_hello with rows := some 106 :: List.replicate 19 none }

/-- The editor `ed_world` after `2,2c foo .`. -/
def ed_world_foo : editor_t :=
  { rows := some 106 :: some 112 :: List.replicate 18 none,
    sizes := some 5 :: some 3 :: List.replicate 18 (some 0),
    row_count := 2, row_capacity := 20, delayed_history_change_count := 0,
    history :=
      { nodes := some (append_node 0 1 0) :: some (append_node 1 1 1) ::
          List.replicate 18 none,
        index := 1, count := 2, capacity := 20 } }

/-- The lines of the document: the first `row_count` cells of the two arrays,
paired as (content reference, length). -/
def buffer (e : editor_t) : List (Cell × Cell) :=
  (e.rows.zip e.sizes).take e.row_count

/-- The node of `1,1d` on the two-line buffer `hello`, `world`. -/
def delete_node : history_node_t :=
  { type := .DELETE, old_data := some [some 100], old_data_sizes := some [some 5],
    data := none, data_sizes := none, line_start := 0, line_count := 1, row_count := 2 }

/-- The node of `1,2c hello world .` once it has been undone. -/
def undone_node2 : history_node_t :=
  { append_node 0 2 0 with
    data := some [some 100, some 106], data_sizes := some [some 5, some 5] }

/-- The editor after `1,2c hello world .` and `1,1d`. -/
def ed_deleted : editor_t :=
  { ed_two_lines with
    rows := some 106 :: some 106 :: List.replicate 18 none,
    row_count := 1,
    history :=
      { nodes := some (append_node 0 2 0) :: some delete_node :: List.replicate 18 none,
        index := 1, count := 2, capacity := 20 } }

/-- The editor `ed_deleted` after `2u` and a flush. -/
def ed_pristine : editor_t :=
  { ed_two_lines with
    row_count := 0,
    history :=
      { nodes := some undone_node2 :: some delete_node :: List.replicate 18 none,
        index := -1, count := 2, capacity := 20 } }

/-- The editor `ed_pristine` after `2r` and a flush. -/
def ed_replayed : editor_t :=
  { ed_deleted with
    history :=
      { nodes := some undone_node2 :: some delete_node :: List.replicate 18 none,
        index := 1, count := 2, capacity := 20 } }

/-- The editor `ed_hello` after `editor_undo(editor, 2)`: the second turn has put
the zeroed node in the place of the node of `1,1c hello .`. -/
def ed_clobbered : editor_t :=
  { ed_undone with
    history :=
      { nodes := some zero_node :: List.replicate 19 none,
        index := -1, count := 1, capacity := 20 } }

/-- Well-formed history log: the node array has `capacity` cells (at least one,
and no more than an `int` counter can index), the nodes in use fit in it, and
every node in use has been written. -/
def history_wf (h : history_t) : Prop :=
  h.nodes.length = h.capacity ∧ h.count ≤ h.capacity ∧ 1 ≤ h.capacity ∧
  h.capacity ≤ 2147483647 ∧
  ∀ i, i < h.count → (h.nodes[i]?).join.isSome = true

instance (h : history_t) : Decidable (history_wf h) := by
  unfold history_wf
  infer_instance

/-- The node `editor_delete` records on an empty buffer. -/
def empty_delete_node (line_start line_count : Nat) : history_node_t :=
  { type := .DELETE, old_data := none, old_data_sizes := none, data := none,
    data_sizes := none, line_start := line_start, line_count := line_count,
    row_count := 0 }

/-- The entry the print request owes for index `i`: the bytes of buffer line `i`
and a newline when `i < row_count`, the empty-line marker otherwise. -/
def print_entry (e : editor_t) (i : Nat) : List Chunk :=
  if i ≥ e.row_count then [Chunk.empty_line]
  else [Chunk.line (e.rows[i]?).join (e.sizes[i]?).join, Chunk.new_line]

/-- The history of `ed_deleted` after one step back: cursor 0, the delete node
ahead of it. -/
def hist_stepped_back : history_t :=
  { ed_deleted.history with index := 0 }

/-- The history `hist_stepped_back` after the append of `empty_delete_node 3 4`. -/
def hist_appended : history_t :=
  { ed_deleted.history with
    nodes := some (append_node 0 2 0) :: some (empty_delete_node 3 4) ::
      List.replicate 18 none }

/-- Indices of the two buffer arrays the loop of `change_lines` (and of
`change_lines2`) writes: `line_start + i` for `0 <= i < lines_count`. -/
def change_lines_writes (line_start lines_count : Nat) : List Nat :=
  (List.range lines_count).map (fun (i : Nat) => size_add line_start (to_size i))

/-- Indices of the two buffer arrays the loop of `delete_lines` writes:
`line_start + i` for every `0 <= i < row_count - line_start` with
`line_end + i < row_count`. -/
def delete_lines_writes (editor : editor_t) (line_start lines_count : Nat) : List Nat :=
  ((List.range (size_sub editor.row_count line_start)).filter
    (fun (i : Nat) =>
      size_add (size_add line_start lines_count) (to_size i) < editor.row_count)).map
    (fun (i : Nat) => size_add line_start (to_size i))

/-- Indices of the two buffer arrays one turn of `editor_undo` on `node` writes.
`CHANGE`: those of the `change_lines` call that puts `old_data` back, if there
is any.  `DELETE`: `line_end + i` for `i` from `row_count - line_start - 1` (an
`int`) down to 0, then those of the `change_lines` call, if `old_data` is there. -/
def undo_step_writes (editor : editor_t) (node : history_node_t) : List Nat :=
  match node.type with
  | .CHANGE =>
    if node.old_data = none then []
    else if size_add node.line_start node.line_count ≥ node.row_count then
      change_lines_writes node.line_start (size_sub node.row_count node.line_start)
    else change_lines_writes node.line_start node.line_count
  | .DELETE =>
    (List.range
      (to_int (size_sub (size_sub editor.row_count node.line_start) 1) + 1).toNat).map
      (fun (i : Nat) => size_add (size_add node.line_start node.line_count) (to_size i)) ++
    (if node.old_data = none then []
      else change_lines_writes node.line_start node.line_count)

/-- Indices of the two buffer arrays one turn of `editor_redo` on `node` writes. -/
def redo_step_writes (editor : editor_t) (node : history_node_t) : List Nat :=
  match node.type with
  | .CHANGE => change_lines_writes node.line_start node.line_count
  | .DELETE =>
    if editor.row_count > 0 then
      delete_lines_writes editor node.line_start node.line_count
    else []

/-- Bounds of a history node against a buffer of `row_capacity` cells: the row
count it recorded fits, its start is within that row count, a change ends
within the capacity, and a delete either ends within the recorded row count or
took no snapshot and has a count that empties the buffer (a delete on an empty
buffer, or a count that is a negative `int` converted to `size_t`). -/
def node_bounded (node : history_node_t) (row_capacity : Nat) : Prop :=
  node.row_count ≤ row_capacity ∧ node.line_start ≤ node.row_count ∧
  (node.type = .CHANGE → node.line_start + node.line_count ≤ row_capacity) ∧
  (node.type = .DELETE →
    node.line_start + node.line_count ≤ node.row_count ∨
    (node.old_data = none ∧ node.line_count ≥ node.row_count))

instance (node : history_node_t) (row_capacity : Nat) :
    Decidable (node_bounded node row_capacity) := by
  unfold node_bounded
  infer_instance

/-- Row count of the buffer once `node` has been applied to a buffer of
`node.row_count` rows. -/
def row_count_after (node : history_node_t) : Nat :=
  match node.type with
  | .CHANGE => max node.row_count (node.line_start + node.line_count)
  | .DELETE => node.row_count - node.line_count

/-- Row count of the buffer when the cursor is at `i`: 0 in the pristine state,
else what the node at `i` leaves. -/
def rows_at (nodes : List (Option history_node_t)) (i : Int) : Nat :=
  if i < 0 then 0
  else
    match (nodes[i.toNat]?).join with
    | some node => row_count_after node
    | none => 0

/-- Every node in use is written and bounded, and the row count it recorded is
the one the node before it leaves. -/
def nodes_inv (h : history_t) (row_capacity : Nat) : Prop :=
  ∀ i : Nat, i < h.count → ∃ node, h.nodes[i]? = some (some node) ∧
    node_bounded node row_capacity ∧ node.row_count = rows_at h.nodes ((i : Int) - 1)

/-- Invariant of the editor between two turns of a replay: the buffer is
well-formed, the history array holds its nodes (fewer than `2^63`), the cursor
is in range, the nodes are bounded and chained, and `row_count` is what the node
under the cursor leaves. -/
structure log_inv (e : editor_t) : Prop where
  wf : buffer_wf e
  cursor : cursor_inv e.history
  hist_len : e.history.nodes.length = e.history.capacity
  hist_count : e.history.count ≤ e.history.capacity
  hist_small : e.history.count < 9223372036854775808
  nodes : nodes_inv e.history e.row_capacity
  current : e.row_count = rows_at e.history.nodes e.history.index

/-- States the commands of `main` bring the editor into when every delete
command has its `line_start` within `row_count` (after the flush that precedes
it), the count of an undo or redo request is an `int`, and the history holds
fewer than `2^63` nodes (its count fits the `ssize_t` cursor). -/
inductive ReachableGuarded : editor_t → Prop where
  | init : ReachableGuarded editor_init
  | change (e e' : editor_t) (input lines_count : Nat)
      (first_index second_index : Int) (input_sizes : List Nat) (r : Int)
      (out : List Chunk) :
      ReachableGuarded e →
      do_command e input lines_count COMMAND_CHANGE first_index second_index input_sizes
        = .ok (r, e', out) →
      e'.history.count < 9223372036854775808 →
      ReachableGuarded e'
  | delete (e flushed e' : editor_t) (input lines_count : Nat)
      (first_index second_index : Int) (input_sizes : List Nat) (r0 r : Int)
      (out : List Chunk) :
      ReachableGuarded e →
      editor_change_history e = .ok (r0, flushed) →
      to_size (first_index - 1) ≤ flushed.row_count →
      do_command e input lines_count COMMAND_DELETE first_index second_index input_sizes
        = .ok (r, e', out) →
      e'.history.count < 9223372036854775808 →
      ReachableGuarded e'
  | undo (e e' : editor_t) (input lines_count : Nat)
      (first_index second_index : Int) (input_sizes : List Nat) (r : Int)
      (out : List Chunk) :
      ReachableGuarded e →
      -2147483648 ≤ first_index → first_index ≤ 2147483647 →
      do_command e input lines_count COMMAND_UNDO first_index second_index input_sizes
        = .ok (r, e', out) →
      ReachableGuarded e'
  | redo (e e' : editor_t) (input lines_count : Nat)
      (first_index second_index : Int) (input_sizes : List Nat) (r : Int)
      (out : List Chunk) :
      ReachableGuarded e →
      -2147483648 ≤ first_index → first_index ≤ 2147483647 →
      do_command e input lines_count COMMAND_REDO first_index second_index input_sizes
        = .ok (r, e', out) →
      ReachableGuarded e'
  | flush (e e' : editor_t) (r : Int) :
      ReachableGuarded e → editor_change_history e = .ok (r, e') → ReachableGuarded e'

/-- The capacity bounds of an editor state: `row_count` fits, both arrays have
`row_capacity` cells, and every index the next `editor_change` (after its
capacity check), the next undo turn and the next redo turn write is below the
capacity the arrays have at that moment. -/
def capacity_bounds (e : editor_t) : Prop :=
  e.row_count ≤ e.row_capacity ∧
  e.rows.length = e.row_capacity ∧ e.sizes.length = e.row_capacity ∧
  (∀ (s k : Nat) (e1 : editor_t), s ≤ e.row_count → k ≤ 2147483647 →
    (if size_add s k ≥ e.row_capacity then expand_buffers e (size_add s k)
      else pure e) = .ok e1 →
    e1.rows.length = e1.row_capacity ∧ e1.sizes.length = e1.row_capacity ∧
    ∀ j, j ∈ change_lines_writes s k → j < e1.row_capacity) ∧
  (∀ node, 0 ≤ e.history.index →
    e.history.nodes[e.history.index.toNat]? = some (some node) →
    ∀ j, j ∈ undo_step_writes e node → j < e.row_capacity) ∧
  (∀ node, e.history.index + 1 < e.history.count →
    e.history.nodes[(e.history.index + 1).toNat]? = some (some node) →
    ∀ j, j ∈ redo_step_writes e node → j < e.row_capacity)

/-! ## Lemmas on the result type and on memory blocks -/

theorem bind_eq_ok {ε α β : Type} (x : Except ε α) (f : α → Except ε β) (b : β) :
    (x >>= f) = .ok b ↔ ∃ a, x = .ok a ∧ f a = .ok b := by
  cases x <;> simp [bind, Except.bind]

theorem map_eq_ok {ε α β : Type} (x : Except ε α) (f : α → β) (b : β) :
    (f <$> x) = .ok b ↔ ∃ a, x = .ok a ∧ f a = b := by
  cases x <;> simp [Functor.map, Except.map]

theorem pure_eq_ok {ε α : Type} (a b : α) :
    (pure a : Except ε α) = .ok b ↔ a = b := by
  simp [pure, Except.pure]

theorem rd_eq_ok {α : Type} (a : List α) (i : Nat) (v : α) :
    rd a i = .ok v ↔ a[i]? = some v := by
  unfold rd
  cases h : a[i]? <;> simp

theorem wr_eq_ok {α : Type} (a b : List α) (i : Nat) (v : α) :
    wr a i v = .ok b ↔ i < a.length ∧ b = a.set i v := by
  unfold wr
  split <;> simp_all [eq_comm]

theorem wrp_eq_ok {α : Type} (p q : Option (List α)) (i : Nat) (v : α) :
    wrp p i v = .ok q ↔ ∃ a, p = some a ∧ i < a.length ∧ q = some (a.set i v) := by
  unfold wrp
  cases p with
  | none => simp
  | some a =>
    dsimp only
    split <;> simp_all [eq_comm]

/-- A request for at most `INT_MAX` cells is served with that many fresh cells. -/
theorem malloc_cells_small (n : Nat) (h : n ≤ 2147483647) :
    malloc_cells n = some (List.replicate n none) := by
  unfold malloc_cells size_mul
  rw [if_neg (by omega)]
  congr 2
  omega

/-- A request whose cell count is a small negative number converted to `size_t`
is refused. -/
theorem malloc_cells_huge (n : Nat) (h : 18446744071562067968 ≤ n)
    (h2 : n < 18446744073709551616) : malloc_cells n = none := by
  unfold malloc_cells size_mul
  rw [if_pos (by omega)]

theorem idx_eq_ok (i : Int) (j : Nat) : idx i = .ok j ↔ 0 ≤ i ∧ j = i.toNat := by
  unfold idx
  split <;> simp_all [eq_comm]

theorem to_size_natCast (n : Nat) (h : n < 18446744073709551616) : to_size (n : Int) = n := by
  unfold to_size
  omega

theorem to_size_of_nonneg (x : Int) (h0 : 0 ≤ x) (h : x < 18446744073709551616) :
    (to_size x : Int) = x := by
  unfold to_size
  omega

/-! ## Loop rules -/

/-- Hoare rule for `for_up`: an invariant kept by every turn that does not
overflow the counter holds at the exit, where the condition is false. -/
theorem for_up_ok {σ : Type} (cond : Int → Bool) (body : Int → σ → Except Fault σ)
    (P : Int → σ → Prop)
    (hstep : ∀ i st st', cond i = true → body i st = .ok st' → i ≠ INT_MAX →
      P i st → P (i + 1) st') :
    ∀ (fuel : Nat) (i : Int) (st st' : σ),
      for_up cond body fuel i st = .ok st' → P i st → ∃ j, cond j = false ∧ P j st' := by
  intro fuel
  induction fuel with
  | zero =>
    intro i st st' h hP
    unfold for_up at h
    split at h
    · cases h
    · cases h
      exact ⟨i, by simpa using ‹¬ cond i = true›, hP⟩
  | succ fuel ih =>
    intro i st st' h hP
    unfold for_up at h
    split at h
    · rename_i hc
      split at h
      · cases h
      · rename_i st1 hb
        split at h
        · cases h
        · rename_i hi
          exact ih (i + 1) st1 st' h (hstep i st st1 hc hb hi hP)
    · cases h
      exact ⟨i, by simpa using ‹¬ cond i = true›, hP⟩

/-- The rule `for_up_ok` for a counter that starts at a natural number. -/
theorem for_up_ok_nat {σ : Type} (cond : Int → Bool) (body : Int → σ → Except Fault σ)
    (P : Nat → σ → Prop)
    (hstep : ∀ (n : Nat) st st', cond n = true → body n st = .ok st' → (n : Int) ≠ INT_MAX →
      P n st → P (n + 1) st')
    (fuel : Nat) (n : Nat) (st st' : σ)
    (h : for_up cond body fuel n st = .ok st') (hP : P n st) :
    ∃ m : Nat, cond m = false ∧ P m st' := by
  have := for_up_ok cond body (fun i st => ∃ m : Nat, i = m ∧ P m st)
    (by
      rintro i st st' hc hb hi ⟨m, rfl, hm⟩
      exact ⟨m + 1, by push_cast; rfl, hstep m st st' hc hb hi hm⟩)
    fuel n st st' h ⟨n, rfl, hP⟩
  obtain ⟨j, hj, m, rfl, hm⟩ := this
  exact ⟨m, hj, hm⟩

/-- A property every turn keeps holds after the loop. -/
theorem for_up_inv {σ : Type} (cond : Int → Bool) (body : Int → σ → Except Fault σ)
    (P : σ → Prop) (hstep : ∀ i st st', body i st = .ok st' → P st → P st')
    (fuel : Nat) (i : Int) (st st' : σ)
    (h : for_up cond body fuel i st = .ok st') (hP : P st) : P st' := by
  obtain ⟨_, _, hj⟩ := for_up_ok cond body (fun _ st => P st)
    (fun i st st' _ hb _ hp => hstep i st st' hb hp) fuel i st st' h hP
  exact hj

/-- A property every turn keeps holds after the loop. -/
theorem for_down_inv {σ : Type} (body : Int → σ → Except Fault σ)
    (P : σ → Prop) (hstep : ∀ i st st', body i st = .ok st' → P st → P st') :
    ∀ (fuel : Nat) (i : Int) (st st' : σ),
      for_down body fuel i st = .ok st' → P st → P st' := by
  intro fuel
  induction fuel with
  | zero =>
    intro i st st' h hP
    unfold for_down at h
    split at h
    · cases h
    · cases h
      exact hP
  | succ fuel ih =>
    intro i st st' h hP
    unfold for_down at h
    split at h
    · split at h
      · cases h
      · rename_i st1 hb
        exact ih (i - 1) st1 st' h (hstep i st st1 hb hP)
    · cases h
      exact hP

/-- A loop whose condition is false at the start does nothing. -/
theorem for_up_exit {σ : Type} (cond : Int → Bool) (body : Int → σ → Except Fault σ)
    (fuel : Nat) (i : Int) (st : σ) (h : cond i = false) :
    for_up cond body fuel i st = .ok st := by
  cases fuel <;> simp [for_up, h]

/-- A loop whose condition stays true up to `INT_MAX` and whose turns change
nothing ends in the signed overflow of its counter. -/
theorem for_up_overflow {σ : Type} (cond : Int → Bool) (body : Int → σ → Except Fault σ)
    (st : σ) (hc : ∀ j, 0 ≤ j → j ≤ INT_MAX → cond j = true)
    (hb : ∀ j, 0 ≤ j → j ≤ INT_MAX → body j st = .ok st) :
    ∀ (fuel : Nat) (i : Int), 0 ≤ i → i ≤ INT_MAX → INT_MAX - i < fuel →
      for_up cond body fuel i st = .error .overflow := by
  intro fuel
  induction fuel with
  | zero =>
    intro i _ hi hf
    simp only [INT_MAX] at hi hf
    omega
  | succ fuel ih =>
    intro i h0 hi hf
    unfold for_up
    rw [if_pos (hc i h0 hi), hb i h0 hi]
    by_cases hmax : i = INT_MAX
    · simp [hmax]
    · simp only [hmax, if_false]
      simp only [INT_MAX] at hi hf hmax
      exact ih (i + 1) (by omega) (by simp only [INT_MAX]; omega)
        (by simp only [INT_MAX]; push_cast at hf ⊢; omega)

/-! ## The fuel of the loops is never used up -/

/-- An `int` counter that starts at or below `INT_MAX` reaches `INT_MAX` before
`LOOP_FUEL` turns are over: `for_up` never reports `Fault.fuel` of its own. -/
theorem for_up_fuel {σ : Type} (cond : Int → Bool) (body : Int → σ → Except Fault σ)
    (hbody : ∀ i st, body i st ≠ .error .fuel) :
    ∀ (fuel : Nat) (i : Int) (st : σ), i ≤ INT_MAX → INT_MAX - i < fuel →
      for_up cond body fuel i st ≠ .error .fuel := by
  intro fuel
  induction fuel with
  | zero =>
    intro i st hi hf
    simp only [INT_MAX] at hi hf
    omega
  | succ fuel ih =>
    intro i st hi hf
    unfold for_up
    split
    · split
      · rename_i f hb
        intro hf'
        cases hf'
        exact hbody i st hb
      · split
        · simp
        · rename_i hne
          simp only [INT_MAX] at hi hf hne
          exact ih (i + 1) _ (by simp only [INT_MAX]; omega)
            (by simp only [INT_MAX]; push_cast at hf ⊢; omega)
    · simp

/-- A counter that counts down from `i` stops after `i + 1` turns: `for_down`
never reports `Fault.fuel` of its own. -/
theorem for_down_fuel {σ : Type} (body : Int → σ → Except Fault σ)
    (hbody : ∀ i st, body i st ≠ .error .fuel) :
    ∀ (fuel : Nat) (i : Int) (st : σ), i < fuel →
      for_down body fuel i st ≠ .error .fuel := by
  intro fuel
  induction fuel with
  | zero =>
    intro i st hf
    unfold for_down
    rw [if_neg (by simpa using hf)]
    simp
  | succ fuel ih =>
    intro i st hf
    unfold for_down
    split
    · split
      · rename_i f hb
        intro hf'
        cases hf'
        exact hbody i st hb
      · exact ih (i - 1) _ (by push_cast at hf; omega)
    · simp

/-! ## The example states are the ones the commands produce -/

theorem ed_hello_eq : editor_change editor_init 0 1 100 [5] = .ok (0, ed_hello) := rfl

theorem ed_hello_world_eq : editor_change ed_hello 1 1 106 [5] = .ok (0, ed_hello_world) := rfl

theorem ed_two_lines_eq : editor_change editor_init 0 2 100 [5, 5] = .ok (0, ed_two_lines) := rfl

theorem reachable_ed_hello : Reachable ed_hello :=
  Reachable.command editor_init ed_hello 100 1 COMMAND_CHANGE 1 1 [5] 0 [] Reachable.init rfl

theorem ed_three_eq : editor_change ed_hello_world 2 1 112 [3] = .ok (0, ed_three) := rfl

theorem reachable_ed_hello_world : Reachable ed_hello_world :=
  Reachable.command ed_hello ed_hello_world 106 1 COMMAND_CHANGE 2 2 [5] 0 []
    reachable_ed_hello rfl

theorem reachable_ed_two_lines : Reachable ed_two_lines :=
  Reachable.command editor_init ed_two_lines 100 2 COMMAND_CHANGE 1 2 [5, 5] 0 []
    Reachable.init rfl

theorem reachable_ed_three : Reachable ed_three :=
  Reachable.command ed_hello_world ed_three 112 1 COMMAND_CHANGE 3 3 [3] 0 []
    reachable_ed_hello_world rfl

theorem reachable_ed_world : Reachable ed_world :=
  Reachable.command { ed_hello with delayed_history_change_count := -1 } ed_world 106 1
    COMMAND_CHANGE 1 1 [5] 0 []
    (Reachable.command ed_hello { ed_hello with delayed_history_change_count := -1 } 0 0
      COMMAND_UNDO 1 0 [] 0 [] reachable_ed_hello rfl) rfl

theorem reachable_ed_world_foo : Reachable ed_world_foo :=
  Reachable.command ed_world ed_world_foo 112 1 COMMAND_CHANGE 2 2 [3] 0 []
    reachable_ed_world rfl

/-! ## Round trips (C1, C2) -/

/-- C1, evaluated where it fails.  On the one-line buffer `ed_hello` the change
`2,2c world .` (line_start 1 = row_count, one line) succeeds and gives
`ed_hello_world`; the undo request for 1 step only sets the pending delta to -1;
the flush then leaves defined behaviour: undoing the node runs
`copy_lines(editor, 1, 1, ..)`, whose loop starts at `i = line_start = 1` and
writes `data_sizes[1]` in a block of one cell.  The same happens at once in
`editor_change` when the change overwrites a line at an index above 0
(`2,2c` on the two-line buffer `ed_two_lines`). -/
theorem change_undo_round_trip_faults :
    buffer_wf ed_hello ∧ cursor_inv ed_hello.history ∧
    ed_hello.delayed_history_change_count = 0 ∧ 1 ≤ ed_hello.row_count ∧
    editor_change ed_hello 1 1 106 [5] = .ok (0, ed_hello_world) ∧
    do_command ed_hello_world 0 0 COMMAND_UNDO 1 0 [] =
      .ok (0, { ed_hello_world with delayed_history_change_count := -1 }, []) ∧
    editor_change_history { ed_hello_world with delayed_history_change_count := -1 } =
      .error .oob ∧
    editor_change ed_two_lines 1 1 112 [3] = .error .oob :=
  ⟨by decide, by decide, rfl, by decide, rfl, rfl, rfl, rfl⟩

/-- C2, evaluated where it fails.  On the two-line buffer `ed_two_lines` the
delete `2,2d` (line_start 1 < row_count, one line) leaves defined behaviour
before anything is deleted: `copy_lines(editor, 1, 1, ..)` starts its loop at
`i = line_start = 1` and writes `data_sizes[1]` in a block of one cell. -/
theorem delete_undo_round_trip_faults :
    buffer_wf ed_two_lines ∧ cursor_inv ed_two_lines.history ∧
    ed_two_lines.delayed_history_change_count = 0 ∧ 1 ≤ ed_two_lines.row_count ∧
    editor_delete ed_two_lines 1 1 = .error .oob ∧
    copy_lines ed_two_lines 1 1 = .error .oob :=
  ⟨by decide, by decide, rfl, by decide, rfl, rfl⟩

/-! ## Out-of-range change (C5) -/

/-- Return value of `editor_change`: the error code exactly on the guarded path,
where the editor is handed back untouched, and 0 on every other path that
returns. -/
theorem editor_change_code (e e' : editor_t) (s k input : Nat) (sizes : List Nat) (r : Int)
    (h : editor_change e s k input sizes = .ok (r, e')) :
    (s > e.row_count ∧ r = ERROR_INDEX_OUT_OF_BOUNDS ∧ e' = e) ∨
    (s ≤ e.row_count ∧ r = 0) := by
  unfold editor_change at h
  split at h
  · simp only [pure_eq_ok, Prod.mk.injEq] at h
    left
    exact ⟨by assumption, h.1.symm, h.2.symm⟩
  · right
    simp only [bind_eq_ok, pure_eq_ok, Prod.mk.injEq] at h
    obtain ⟨e1, h1, old, h2, e2, h3, app, h4, h5, h6⟩ := h
    exact ⟨by omega, h5.symm⟩

/-- C5: `editor_change` returns `ERROR_INDEX_OUT_OF_BOUNDS` if and only if
`line_start > row_count`, and then the editor it hands back is the editor it
was given: lines, row_count, capacity, pending delta and the whole history are
unchanged, no node is appended. -/
theorem editor_change_out_of_bounds (e : editor_t) (s k input : Nat) (sizes : List Nat) :
    ((∃ e', editor_change e s k input sizes = .ok (ERROR_INDEX_OUT_OF_BOUNDS, e')) ↔
      s > e.row_count) ∧
    (∀ e', editor_change e s k input sizes = .ok (ERROR_INDEX_OUT_OF_BOUNDS, e') → e' = e) ∧
    (s > e.row_count →
      editor_change e s k input sizes = .ok (ERROR_INDEX_OUT_OF_BOUNDS, e)) := by
  have hgo : s > e.row_count →
      editor_change e s k input sizes = .ok (ERROR_INDEX_OUT_OF_BOUNDS, e) := by
    intro hs
    unfold editor_change
    rw [if_pos hs]
    rfl
  refine ⟨⟨?_, fun hs => ⟨e, hgo hs⟩⟩, ?_, hgo⟩
  · rintro ⟨e', h⟩
    rcases editor_change_code e e' s k input sizes _ h with ⟨hs, _, _⟩ | ⟨_, hr⟩
    · exact hs
    · simp [ERROR_INDEX_OUT_OF_BOUNDS] at hr
  · intro e' h
    rcases editor_change_code e e' s k input sizes _ h with ⟨_, _, he⟩ | ⟨_, hr⟩
    · exact he
    · simp [ERROR_INDEX_OUT_OF_BOUNDS] at hr

/-! ## Postcondition of a change (C3) -/

theorem line_offset_succ (sizes : List Nat) (i w : Nat) (h : sizes[i]? = some w) :
    line_offset sizes (i + 1) = line_offset sizes i + (w + 1) := by
  unfold line_offset
  rw [List.take_succ, h]
  simp

theorem line_offset_le (sizes : List Nat) (i : Nat) :
    line_offset sizes i ≤ line_offset sizes sizes.length := by
  unfold line_offset
  rw [List.take_length]
  have := List.sum_take_add_sum_drop (sizes.map (fun w => w + 1)) i
  rw [List.map_take]
  omega

theorem change_lines2_loop (e : editor_t) (s k input : Nat) (sizes : List Nat)
    (hs : s < 9223372036854775808)
    (hsum : line_offset sizes sizes.length < 18446744073709551616)
    (st' : editor_t × Nat)
    (h : for_up (fun i => to_size i < k)
      (fun i (st : editor_t × Nat) => do
        let j ← idx i
        let v ← rd sizes j
        let new_sizes ← wr st.1.sizes (size_add s (to_size i)) (some v)
        let new_rows ← wr st.1.rows (size_add s (to_size i)) (some (input + st.2))
        let w ← rd sizes j
        pure ({ st.1 with sizes := new_sizes, rows := new_rows }, size_add st.2 (size_add w 1)))
      LOOP_FUEL 0 (e, 0) = .ok st') :
    change2_inv e s k input sizes k st' := by
  have key := for_up_ok_nat _ _ (change2_inv e s k input sizes) ?_ LOOP_FUEL 0 (e, 0) st'
    (by simpa using h) ?_
  · obtain ⟨m, hm, hinv⟩ := key
    have h1 := hinv.le
    have h2 := hinv.small
    have : to_size (m : Int) = m := to_size_natCast m (by omega)
    simp [this] at hm
    have : m = k := by omega
    subst this
    exact hinv
  · intro n st st1 hc hb hn hinv
    simp only [bind_eq_ok, map_eq_ok, idx_eq_ok, rd_eq_ok, wr_eq_ok, pure_eq_ok] at hb
    obtain ⟨j, ⟨-, hj⟩, v, hv, ns, ⟨hns, rfl⟩, nr, ⟨hnr, rfl⟩, w, hw, rfl⟩ := hb
    have hjn : n = j := by simpa using hj.symm
    subst hjn
    have hsm := hinv.small
    simp only [INT_MAX] at hn
    have hts : to_size (n : Int) = n := to_size_natCast n (by omega)
    simp only [hts, decide_eq_true_eq] at hc
    have hvw : v = w := by rw [hv] at hw; exact Option.some.inj hw
    subst hvw
    have hoff := line_offset_succ sizes n v hv
    have hle := line_offset_le sizes (n + 1)
    have hadd : size_add s (to_size (n : Int)) = s + n := by
      rw [hts]; unfold size_add; omega
    rw [hadd] at hns hnr ⊢
    refine ⟨by omega, by omega, ?_, ?_, ?_, ?_, ?_, ?_⟩
    · simp only [hinv.off]
      unfold size_add
      omega
    · simpa using hinv.rows_len
    · simpa using hinv.sizes_len
    · exact hinv.frame
    · intro m hm
      by_cases hmn : m = n
      · subst hmn
        refine ⟨v, hv, ?_, ?_⟩
        · simp [List.getElem?_set_self, hnr, hinv.off]
        · simp [List.getElem?_set_self, hns]
      · obtain ⟨w', hw', hr', hs'⟩ := hinv.written m (by omega)
        refine ⟨w', hw', ?_, ?_⟩
        · simp only
          rw [List.getElem?_set_ne (by omega)]
          exact hr'
        · simp only
          rw [List.getElem?_set_ne (by omega)]
          exact hs'
    · intro j hj
      have := hinv.kept j (by omega)
      simp only
      rw [List.getElem?_set_ne (by omega), List.getElem?_set_ne (by omega)]
      exact this
  · exact ⟨by omega, by omega, by simp [line_offset], rfl, rfl, ⟨rfl, rfl, rfl, rfl⟩,
      by intro m hm; omega, by intro j _; exact ⟨rfl, rfl⟩⟩

/-- What `change_lines2` leaves behind when it returns. -/
theorem change_lines2_spec (e e' : editor_t) (s k input : Nat) (sizes : List Nat)
    (hs : s < 9223372036854775808)
    (hsum : line_offset sizes sizes.length < 18446744073709551616)
    (h : change_lines2 e s k input sizes = .ok e') :
    k ≤ 2147483647 ∧ e'.row_count = max e.row_count (s + k) ∧
    e'.rows.length = e.rows.length ∧ e'.sizes.length = e.sizes.length ∧
    e'.row_capacity = e.row_capacity ∧
    e'.delayed_history_change_count = e.delayed_history_change_count ∧
    e'.history = e.history ∧
    (∀ m, m < k → ∃ w, sizes[m]? = some w ∧
      e'.rows[s + m]? = some (some (input + line_offset sizes m)) ∧
      e'.sizes[s + m]? = some (some w)) ∧
    (∀ j, (j < s ∨ s + k ≤ j) → e'.rows[j]? = e.rows[j]? ∧ e'.sizes[j]? = e.sizes[j]?) := by
  unfold change_lines2 at h
  simp only [bind_eq_ok] at h
  obtain ⟨st, hloop, hfin⟩ := h
  have inv := change_lines2_loop e s k input sizes hs hsum st hloop
  have hk := inv.small
  have hadd : size_add s k = s + k := by unfold size_add; omega
  obtain ⟨hrc, hcap, hdelta, hhist⟩ := inv.frame
  rw [hadd] at hfin
  split at hfin
  · rename_i hgt
    simp only [pure_eq_ok] at hfin
    subst hfin
    refine ⟨hk, ?_, inv.rows_len, inv.sizes_len, hcap, hdelta, hhist, inv.written, inv.kept⟩
    simp only
    omega
  · rename_i hgt
    simp only [pure_eq_ok] at hfin
    subst hfin
    refine ⟨hk, ?_, inv.rows_len, inv.sizes_len, hcap, hdelta, hhist, inv.written, inv.kept⟩
    omega

theorem to_int_natCast (n : Nat) (h : n ≤ 2147483647) : to_int (n : Int) = n := by
  unfold to_int
  omega

theorem realloc_getElem? {α : Type} (a : List (Option α)) (n j : Nat)
    (hn : a.length ≤ n) (hj : j < a.length) : (realloc a n)[j]? = a[j]? := by
  unfold realloc
  rw [List.take_of_length_le hn, List.getElem?_append_left hj]

/-- Growing the buffer keeps every cell below the old capacity and touches
nothing but the two arrays and the capacity. -/
theorem expand_buffers_spec (e e' : editor_t) (n : Nat) (hwf : buffer_wf e)
    (hn : e.row_capacity ≤ n) (hsmall : n < 4294967296)
    (h : expand_buffers e n = .ok e') :
    e'.row_count = e.row_count ∧
    e'.delayed_history_change_count = e.delayed_history_change_count ∧
    e'.history = e.history ∧
    (∀ j, j < e.row_capacity → e'.rows[j]? = e.rows[j]? ∧ e'.sizes[j]? = e.sizes[j]?) := by
  obtain ⟨hrl, hsl, hrc, hcap⟩ := hwf
  unfold expand_buffers at h
  simp only [bind_eq_ok, pure_eq_ok] at h
  obtain ⟨sizes', hloop, rfl⟩ := h
  have hmul : size_mul n 2 = 2 * n := by unfold size_mul; omega
  rw [hmul] at hloop ⊢
  rw [to_int_natCast _ hcap] at hloop
  have key := for_up_ok_nat _ _
    (fun (m : Nat) (sz : List Cell) => e.row_capacity ≤ m ∧
      ∀ j, j < e.row_capacity → sz[j]? = e.sizes[j]?)
    ?_ LOOP_FUEL e.row_capacity _ sizes' hloop ?_
  · obtain ⟨m, _, _, hkept⟩ := key
    refine ⟨rfl, rfl, rfl, fun j hj => ⟨?_, hkept j hj⟩⟩
    exact realloc_getElem? e.rows (2 * n) j (by omega) (by omega)
  · rintro m sz sz1 _ hb _ ⟨hm, hkept⟩
    simp only [bind_eq_ok, idx_eq_ok, wr_eq_ok] at hb
    obtain ⟨j, ⟨-, hj⟩, hlt, rfl⟩ := hb
    have hjm : j = m := by simpa using hj
    subst hjm
    refine ⟨by omega, fun i hi => ?_⟩
    rw [List.getElem?_set_ne (by omega)]
    exact hkept i hi
  · exact ⟨le_refl _, fun j hj => realloc_getElem? e.sizes (2 * n) j (by omega) (by omega)⟩

/-- What the buffer looks like after a change that has returned 0: on a
well-formed buffer with `s <= row_count`, the buffer line at index `s + i` is
the `i`-th given line (content reference `input + line_offset i` and length
`sizes[i]`) for every `i < k`, every line at an index below `s` or in
`[s + k, old row_count)` is unchanged, and `row_count = max(old row_count, s + k)`.
The call returns for `s = 0`, for `s = row_count` (a pure append) and for
`k = 0` only: see `editor_change_overwrite_no_return`. -/
theorem editor_change_postcondition (e e' : editor_t) (s k input : Nat) (sizes : List Nat)
    (hwf : buffer_wf e) (hs : s ≤ e.row_count)
    (hsum : line_offset sizes sizes.length < 18446744073709551616)
    (h : editor_change e s k input sizes = .ok (0, e')) :
    (∀ i, i < k → ∃ w, sizes[i]? = some w ∧
      e'.rows[s + i]? = some (some (input + line_offset sizes i)) ∧
      e'.sizes[s + i]? = some (some w)) ∧
    (∀ j, (j < s ∨ (s + k ≤ j ∧ j < e.row_count)) →
      e'.rows[j]? = e.rows[j]? ∧ e'.sizes[j]? = e.sizes[j]?) ∧
    e'.row_count = max e.row_count (s + k) := by
  have hwf' := hwf
  obtain ⟨hrl, hsl, hrc, hcap⟩ := hwf'
  unfold editor_change at h
  rw [if_neg (by omega)] at h
  simp only [bind_eq_ok, pure_eq_ok, Prod.mk.injEq, true_and] at h
  obtain ⟨e1, h1, old, -, e2, h3, app, -, rfl⟩ := h
  have hs63 : s < 9223372036854775808 := by omega
  obtain ⟨hk, hrc2, -, -, -, -, -, hwritten, hkept⟩ :=
    change_lines2_spec e1 e2 s k input sizes hs63 hsum h3
  have hadd : size_add s k = s + k := by unfold size_add; omega
  rw [hadd] at h1
  have h1' : e1.row_count = e.row_count ∧
      (∀ j, j < e.row_capacity → e1.rows[j]? = e.rows[j]? ∧ e1.sizes[j]? = e.sizes[j]?) := by
    split at h1
    · rename_i hge
      obtain ⟨ha, -, -, hb⟩ := expand_buffers_spec e e1 (s + k) hwf hge (by omega) h1
      exact ⟨ha, hb⟩
    · simp only [pure_eq_ok] at h1
      subst h1
      exact ⟨rfl, fun _ _ => ⟨rfl, rfl⟩⟩
  obtain ⟨hrc1, hsame⟩ := h1'
  refine ⟨hwritten, ?_, ?_⟩
  · intro j hj
    have hj1 := hkept j (by omega)
    have hj2 := hsame j (by omega)
    exact ⟨hj1.1.trans hj2.1, hj1.2.trans hj2.2⟩
  · simp only
    rw [hrc2, hrc1]

/-- The postcondition at a pure append: `2,3c` with two lines of lengths 3 and 4
at address 200 on the one-line buffer `ed_hello`. -/
theorem editor_change_postcondition_witness :
    buffer_wf ed_hello ∧ 1 ≤ ed_hello.row_count ∧
    line_offset [3, 4] [3, 4].length < 18446744073709551616 ∧
    editor_change ed_hello 1 2 200 [3, 4] = .ok (0,
      { ed_hello with
        rows := some 100 :: some 200 :: some 204 :: List.replicate 17 none,
        sizes := some 5 :: some 3 :: some 4 :: List.replicate 17 (some 0),
        row_count := 3,
        history :=
          { nodes := some (append_node 0 1 0) :: some (append_node 1 2 1) ::
              List.replicate 18 none,
            index := 1, count := 2, capacity := 20 } }) ∧
    ((∀ i, i < 2 → ∃ w, [3, 4][i]? = some w ∧
      (some 100 :: some 200 :: some 204 :: List.replicate 17 none)[1 + i]? =
        some (some (200 + line_offset [3, 4] i)) ∧
      (some 5 :: some 3 :: some 4 :: List.replicate 17 (some 0))[1 + i]? = some (some w)) ∧
    (∀ j, (j < 1 ∨ (1 + 2 ≤ j ∧ j < ed_hello.row_count)) →
      (some 100 :: some 200 :: some 204 :: List.replicate 17 none)[j]? = ed_hello.rows[j]? ∧
      (some 5 :: some 3 :: some 4 :: List.replicate 17 (some 0))[j]? = ed_hello.sizes[j]?) ∧
    3 = max ed_hello.row_count (1 + 2)) :=
  ⟨by decide, by decide, by decide, rfl,
    editor_change_postcondition ed_hello _ 1 2 200 [3, 4] (by decide) (by decide)
      (by decide) rfl⟩

/-- C3, evaluated where it fails.  The three-line buffer `ed_three` is reachable
(`1,1c hello .`, `2,2c world .`, `3,3c foo .`) and well-formed.  The change
`3,3c bar .` (line_start 2 <= row_count 3, one line of length 3 at address 116)
passes the guard of `editor_change`, but the call never gets to overwrite line
2: it first snapshots the line it is about to replace with
`copy_lines(editor, 2, 1, ..)`, whose loop starts at `i = line_start = 2` and
writes `data_sizes[2]` in a block of one cell.  Neither `editor_change` nor the
command returns, so there is no buffer in which line 2 is the given line. -/
theorem editor_change_overwrite_faults :
    Reachable ed_three ∧ buffer_wf ed_three ∧ 2 ≤ ed_three.row_count ∧
    line_offset [3] [3].length < 18446744073709551616 ∧
    editor_change ed_three 2 1 116 [3] = .error .oob ∧
    do_command ed_three 116 1 COMMAND_CHANGE 3 3 [3] = .error .oob :=
  ⟨reachable_ed_three, by decide, by decide, by decide, rfl, rfl⟩

/-! ## Delete past the end of the buffer (C4) -/

/-- C4, evaluated where it fails.  On the two-line buffer `ed_two_lines` the
delete `5,5d` (line_start 4 > row_count 2, line_count 1) is clamped to
`row_count - line_start`, which wraps to `2^64 - 2`; with it `delete_lines` runs
`for (int i = 0; i < row_count - line_start; ++i)` with a bound of `2^64 - 2`:
no turn moves a line, and the counter overflows after `INT_MAX`.  Had the loop
ended, `lines_count >= row_count` would set `row_count` to 0.  The claim says
that nothing changes. -/
theorem editor_delete_past_end_overflows :
    4 ≥ ed_two_lines.row_count ∧
    size_sub ed_two_lines.row_count 4 = 18446744073709551614 ∧
    editor_delete ed_two_lines 4 1 = .error .overflow := by
  refine ⟨by decide, by decide, ?_⟩
  have hcopy : ∃ old, copy_lines ed_two_lines 4 18446744073709551614 = .ok old := by
    unfold copy_lines
    rw [if_neg (by decide)]
    dsimp only
    rw [for_up_exit _ _ _ _ _ (by decide)]
    exact ⟨_, rfl⟩
  obtain ⟨old, hold⟩ := hcopy
  have hloop : delete_lines ed_two_lines 4 18446744073709551614 = .error .overflow := by
    unfold delete_lines
    dsimp only
    rw [for_up_overflow _ _ ed_two_lines ?_ ?_ LOOP_FUEL 0 (by decide) (by decide) (by decide)]
    · rfl
    · intro j h0 hj
      simp only [INT_MAX] at hj
      have : to_size j = j.toNat := by unfold to_size; omega
      simp only [this, decide_eq_true_eq]
      have : size_sub ed_two_lines.row_count 4 = 18446744073709551614 := by decide
      rw [this]
      omega
    · intro j h0 hj
      simp only [INT_MAX] at hj
      have hts : to_size j = j.toNat := by unfold to_size; omega
      have hadd : size_add (size_add 4 18446744073709551614) (to_size j) = 2 + j.toNat := by
        rw [hts]
        have : size_add 4 18446744073709551614 = 2 := by decide
        rw [this]
        unfold size_add
        omega
      rw [hadd]
      have : ed_two_lines.row_count = 2 := rfl
      rw [if_neg (by omega)]
      rfl
  unfold editor_delete
  rw [if_neg (by decide)]
  have hclamp : (if size_add 4 1 ≥ ed_two_lines.row_count then
      size_sub ed_two_lines.row_count 4 else 1) = 18446744073709551614 := by decide
  simp only [hclamp, hold, hloop]
  rfl

/-! ## The history log keeps its cursor in range -/

theorem command_history_append_spec (h h' : history_t) (node : history_node_t) (r : Int)
    (hge : -1 ≤ h.index) (hok : command_history_append h node = .ok (r, h')) :
    r = 0 ∧ h'.index = h.index + 1 ∧ (h'.count : Int) = h.index + 2 ∧
    h.index < 9223372036854775807 := by
  unfold command_history_append at hok
  split at hok
  · cases hok
  · rename_i hmax
    simp only [bind_eq_ok, pure_eq_ok, Prod.mk.injEq] at hok
    obtain ⟨nodes, -, j, -, nodes', -, hr, rfl⟩ := hok
    simp only [SSIZE_MAX] at hmax
    refine ⟨hr.symm, ?_, ?_, by omega⟩
    · split <;> rfl
    · have : ∀ x : history_t, x.index = h.index → (to_size (x.index + 1 + 1) : Int) = h.index + 2 := by
        intro x hx
        rw [hx, to_size_of_nonneg _ (by omega) (by omega)]
        omega
      split
      · exact this _ rfl
      · exact this _ rfl

theorem command_history_append_inv (h h' : history_t) (node : history_node_t) (r : Int)
    (hinv : cursor_inv h) (hok : command_history_append h node = .ok (r, h')) :
    cursor_inv h' := by
  obtain ⟨-, hi, hc, -⟩ := command_history_append_spec h h' node r hinv.1 hok
  have := hinv.1
  unfold cursor_inv
  omega

theorem command_history_back_inv (h h' : history_t) (r : Int) (node : Option history_node_t)
    (hinv : cursor_inv h) (hok : command_history_back h = .ok (r, h', node)) :
    cursor_inv h' := by
  obtain ⟨h1, h2⟩ := hinv
  unfold command_history_back at hok
  split at hok
  · omega
  · split at hok
    · simp only [pure_eq_ok, Prod.mk.injEq] at hok
      obtain ⟨-, rfl, -⟩ := hok
      exact ⟨h1, h2⟩
    · simp only [bind_eq_ok] at hok
      obtain ⟨j, -, cell, -, hm⟩ := hok
      split at hm
      · cases hm
      · simp only [pure_eq_ok, Prod.mk.injEq] at hm
        obtain ⟨-, rfl, -⟩ := hm
        unfold cursor_inv
        simp only
        omega

theorem command_history_forward_inv (h h' : history_t) (r : Int)
    (node : Option history_node_t)
    (hinv : cursor_inv h) (hok : command_history_forward h = .ok (r, h', node)) :
    cursor_inv h' := by
  obtain ⟨h1, h2⟩ := hinv
  unfold command_history_forward at hok
  split at hok
  · cases hok
  · rename_i hmax
    simp only [SSIZE_MAX] at hmax
    split at hok
    · simp only [pure_eq_ok, Prod.mk.injEq] at hok
      obtain ⟨-, rfl, -⟩ := hok
      exact ⟨h1, h2⟩
    · rename_i hlt
      have hts := to_size_of_nonneg (h.index + 1) (by omega) (by omega)
      simp only [bind_eq_ok] at hok
      obtain ⟨j, -, cell, -, hm⟩ := hok
      split at hm
      · cases hm
      · simp only [pure_eq_ok, Prod.mk.injEq] at hm
        obtain ⟨-, rfl, -⟩ := hm
        unfold cursor_inv
        simp only
        omega

theorem command_history_update_frame (h h' : history_t) (node : history_node_t)
    (hok : command_history_update h node = .ok h') :
    h'.index = h.index ∧ h'.count = h.count := by
  unfold command_history_update at hok
  simp only [bind_eq_ok, pure_eq_ok] at hok
  obtain ⟨j, -, nodes, -, rfl⟩ := hok
  exact ⟨rfl, rfl⟩

/-! ## The buffer operations leave the history and the pending delta alone -/

/-- The part of the editor the line-buffer operations never write. -/
theorem change_lines_frame (e e' : editor_t) (s k : Nat) (data sizes : Option (List Cell))
    (hok : change_lines e s k data sizes = .ok e') :
    e'.history = e.history ∧
    e'.delayed_history_change_count = e.delayed_history_change_count := by
  unfold change_lines at hok
  simp only [bind_eq_ok] at hok
  obtain ⟨e1, hloop, hfin⟩ := hok
  have h1 := for_up_inv _ _
    (fun st : editor_t => st.history = e.history ∧
      st.delayed_history_change_count = e.delayed_history_change_count)
    (by
      intro i st st' hb hP
      simp only [bind_eq_ok, pure_eq_ok] at hb
      obtain ⟨_, _, _, _, _, _, _, _, _, _, rfl⟩ := hb
      exact hP) _ _ _ _ hloop ⟨rfl, rfl⟩
  split at hfin <;> simp only [pure_eq_ok] at hfin <;> subst hfin <;> exact h1

theorem delete_lines_frame (e e' : editor_t) (s k : Nat)
    (hok : delete_lines e s k = .ok e') :
    e'.history = e.history ∧
    e'.delayed_history_change_count = e.delayed_history_change_count := by
  unfold delete_lines at hok
  simp only [bind_eq_ok] at hok
  obtain ⟨e1, hloop, hfin⟩ := hok
  have h1 := for_up_inv _ _
    (fun st : editor_t => st.history = e.history ∧
      st.delayed_history_change_count = e.delayed_history_change_count)
    (by
      intro i st st' hb hP
      split at hb
      · simp only [bind_eq_ok, pure_eq_ok] at hb
        obtain ⟨_, _, _, _, _, _, _, _, rfl⟩ := hb
        exact hP
      · simp only [pure_eq_ok] at hb
        subst hb
        exact hP) _ _ _ _ hloop ⟨rfl, rfl⟩
  split at hfin <;> simp only [pure_eq_ok] at hfin <;> subst hfin <;> exact h1

theorem change_lines2_frame (e e' : editor_t) (s k input : Nat) (sizes : List Nat)
    (hok : change_lines2 e s k input sizes = .ok e') :
    e'.history = e.history ∧
    e'.delayed_history_change_count = e.delayed_history_change_count := by
  unfold change_lines2 at hok
  simp only [bind_eq_ok] at hok
  obtain ⟨st1, hloop, hfin⟩ := hok
  have h1 := for_up_inv _ _
    (fun st : editor_t × Nat => st.1.history = e.history ∧
      st.1.delayed_history_change_count = e.delayed_history_change_count)
    (by
      intro i st st' hb hP
      simp only [bind_eq_ok, map_eq_ok, pure_eq_ok] at hb
      obtain ⟨_, _, _, _, _, _, _, _, _, _, rfl⟩ := hb
      exact hP) _ _ _ _ hloop ⟨rfl, rfl⟩
  split at hfin <;> simp only [pure_eq_ok] at hfin <;> subst hfin <;> exact h1

theorem expand_buffers_frame (e e' : editor_t) (n : Nat)
    (hok : expand_buffers e n = .ok e') :
    e'.history = e.history ∧
    e'.delayed_history_change_count = e.delayed_history_change_count := by
  unfold expand_buffers at hok
  simp only [bind_eq_ok, pure_eq_ok] at hok
  obtain ⟨_, _, rfl⟩ := hok
  exact ⟨rfl, rfl⟩

/-! ## Replay keeps the cursor in range -/

/-- One undo turn moves neither the cursor nor the node count nor the pending
delta (the cursor was moved by `command_history_back` before). -/
theorem undo_step_frame (e e' : editor_t) (node : history_node_t)
    (hok : undo_step e node = .ok e') :
    e'.history.index = e.history.index ∧ e'.history.count = e.history.count ∧
    e'.delayed_history_change_count = e.delayed_history_change_count := by
  unfold undo_step at hok
  split at hok
  · simp only [bind_eq_ok] at hok
    obtain ⟨st, hst, hfin⟩ := hok
    have h1 : st.1.history.index = e.history.index ∧ st.1.history.count = e.history.count ∧
        st.1.delayed_history_change_count = e.delayed_history_change_count := by
      split at hst
      · simp only [bind_eq_ok, pure_eq_ok] at hst
        obtain ⟨old, -, h, hupd, rfl⟩ := hst
        obtain ⟨ha, hb⟩ := command_history_update_frame _ _ _ hupd
        exact ⟨ha, hb, rfl⟩
      · simp only [pure_eq_ok] at hst
        subst hst
        exact ⟨rfl, rfl, rfl⟩
    split at hfin
    · simp only [pure_eq_ok] at hfin
      subst hfin
      exact h1
    · simp only [bind_eq_ok, pure_eq_ok] at hfin
      obtain ⟨e2, hcl, rfl⟩ := hfin
      have h2 : e2.history = st.1.history ∧
          e2.delayed_history_change_count = st.1.delayed_history_change_count := by
        split at hcl
        · exact change_lines_frame _ _ _ _ _ _ hcl
        · exact change_lines_frame _ _ _ _ _ _ hcl
      simp only
      rw [h2.1, h2.2]
      exact h1
  · simp only [bind_eq_ok] at hok
    obtain ⟨e1, hloop, hfin⟩ := hok
    have h1 := for_down_inv _
      (fun st : editor_t => st.history = e.history ∧
        st.delayed_history_change_count = e.delayed_history_change_count)
      (by
        intro i st st' hb hP
        simp only [bind_eq_ok, pure_eq_ok] at hb
        obtain ⟨_, _, _, _, _, _, _, _, rfl⟩ := hb
        exact hP) _ _ _ _ hloop ⟨rfl, rfl⟩
    split at hfin
    · simp only [pure_eq_ok] at hfin
      subst hfin
      simp only
      rw [h1.1, h1.2]
      exact ⟨rfl, rfl, rfl⟩
    · simp only [bind_eq_ok, pure_eq_ok] at hfin
      obtain ⟨e2, hcl, rfl⟩ := hfin
      obtain ⟨ha, hb⟩ := change_lines_frame _ _ _ _ _ _ hcl
      simp only
      rw [ha, hb, h1.1, h1.2]
      exact ⟨rfl, rfl, rfl⟩

/-- One redo turn leaves the history and the pending delta alone. -/
theorem redo_step_frame (e e' : editor_t) (node : history_node_t)
    (hok : redo_step e node = .ok e') :
    e'.history = e.history ∧
    e'.delayed_history_change_count = e.delayed_history_change_count := by
  unfold redo_step at hok
  split at hok
  · exact change_lines_frame _ _ _ _ _ _ hok
  · split at hok
    · exact delete_lines_frame _ _ _ _ hok
    · simp only [pure_eq_ok] at hok
      subst hok
      exact ⟨rfl, rfl⟩

theorem editor_undo_inv (n : Nat) : ∀ (e e' : editor_t) (r : Int),
    cursor_inv e.history → editor_undo e n = .ok (r, e') →
    r = 0 ∧ cursor_inv e'.history ∧
    e'.delayed_history_change_count = e.delayed_history_change_count := by
  induction n with
  | zero =>
    intro e e' r hinv hok
    unfold editor_undo at hok
    simp only [pure_eq_ok, Prod.mk.injEq] at hok
    obtain ⟨rfl, rfl⟩ := hok
    exact ⟨rfl, hinv, rfl⟩
  | succ n ih =>
    intro e e' r hinv hok
    unfold editor_undo at hok
    simp only [bind_eq_ok] at hok
    obtain ⟨back, hback, hrest⟩ := hok
    have hb := command_history_back_inv e.history back.2.1 back.1 back.2.2 hinv hback
    split at hrest
    · simp only [pure_eq_ok, Prod.mk.injEq] at hrest
      obtain ⟨rfl, rfl⟩ := hrest
      exact ⟨rfl, hb, rfl⟩
    · split at hrest
      · cases hrest
      · rename_i node hnode
        simp only [bind_eq_ok] at hrest
        obtain ⟨e1, hstep, hrec⟩ := hrest
        obtain ⟨hi, hc, hd⟩ := undo_step_frame _ _ _ hstep
        have hinv1 : cursor_inv e1.history := by
          unfold cursor_inv at hb ⊢
          rw [hi, hc]
          exact hb
        obtain ⟨h1, h2, h3⟩ := ih e1 e' r hinv1 hrec
        exact ⟨h1, h2, h3.trans hd⟩

theorem editor_redo_inv (n : Nat) : ∀ (e e' : editor_t) (r : Int),
    cursor_inv e.history → editor_redo e n = .ok (r, e') →
    r = 0 ∧ cursor_inv e'.history ∧
    e'.delayed_history_change_count = e.delayed_history_change_count := by
  induction n with
  | zero =>
    intro e e' r hinv hok
    unfold editor_redo at hok
    simp only [pure_eq_ok, Prod.mk.injEq] at hok
    obtain ⟨rfl, rfl⟩ := hok
    exact ⟨rfl, hinv, rfl⟩
  | succ n ih =>
    intro e e' r hinv hok
    unfold editor_redo at hok
    simp only [bind_eq_ok] at hok
    obtain ⟨fw, hfw, hrest⟩ := hok
    have hb := command_history_forward_inv e.history fw.2.1 fw.1 fw.2.2 hinv hfw
    split at hrest
    · simp only [pure_eq_ok, Prod.mk.injEq] at hrest
      obtain ⟨rfl, rfl⟩ := hrest
      exact ⟨rfl, hb, rfl⟩
    · split at hrest
      · cases hrest
      · rename_i node hnode
        simp only [bind_eq_ok] at hrest
        obtain ⟨e1, hstep, hrec⟩ := hrest
        obtain ⟨hh, hd⟩ := redo_step_frame _ _ _ hstep
        have hinv1 : cursor_inv e1.history := by
          rw [hh]
          exact hb
        obtain ⟨h1, h2, h3⟩ := ih e1 e' r hinv1 hrec
        exact ⟨h1, h2, h3.trans hd⟩

/-- A flush returns 0, keeps the cursor in range and leaves no pending delta. -/
theorem editor_change_history_inv (e e' : editor_t) (r : Int)
    (hinv : cursor_inv e.history) (hok : editor_change_history e = .ok (r, e')) :
    r = 0 ∧ cursor_inv e'.history ∧ e'.delayed_history_change_count = 0 := by
  unfold editor_change_history at hok
  simp only [bind_eq_ok, pure_eq_ok, Prod.mk.injEq] at hok
  obtain ⟨rep, hrep, rfl, rfl⟩ := hok
  refine ⟨?_, ?_, rfl⟩
  · split at hrep
    · exact (editor_redo_inv _ _ _ _ hinv hrep).1
    · split at hrep
      · exact (editor_undo_inv _ _ _ _ hinv hrep).1
      · simp only [pure_eq_ok] at hrep
        rw [← hrep]
  · split at hrep
    · exact (editor_redo_inv _ _ _ _ hinv hrep).2.1
    · split at hrep
      · exact (editor_undo_inv _ _ _ _ hinv hrep).2.1
      · simp only [pure_eq_ok] at hrep
        rw [← hrep]
        exact hinv

/-- A flush with no pending delta hands the editor back as it is. -/
theorem editor_change_history_zero (e : editor_t) (h0 : e.delayed_history_change_count = 0) :
    editor_change_history e = .ok (0, e) := by
  unfold editor_change_history
  rw [if_neg (by omega), if_neg (by omega)]
  show Except.ok (0, { e with delayed_history_change_count := 0 }) = Except.ok (0, e)
  rw [← h0]

/-- A change that returns 0 has appended its node at the tail: the cursor is
on the last node. -/
theorem editor_change_tail (e e' : editor_t) (s k input : Nat) (sizes : List Nat)
    (hge : -1 ≤ e.history.index)
    (hok : editor_change e s k input sizes = .ok (0, e')) :
    e'.history.index = (e'.history.count : Int) - 1 ∧
    e'.history.index = e.history.index + 1 ∧
    e'.delayed_history_change_count = e.delayed_history_change_count ∧
    e'.history.count < 18446744073709551616 := by
  unfold editor_change at hok
  split at hok
  · simp [pure_eq_ok, ERROR_INDEX_OUT_OF_BOUNDS] at hok
  · simp only [bind_eq_ok, pure_eq_ok, Prod.mk.injEq, true_and] at hok
    obtain ⟨e1, h1, old, -, e2, h3, app, happ, rfl⟩ := hok
    have h1' : e1.history = e.history ∧
        e1.delayed_history_change_count = e.delayed_history_change_count := by
      split at h1
      · exact expand_buffers_frame _ _ _ h1
      · simp only [pure_eq_ok] at h1
        subst h1
        exact ⟨rfl, rfl⟩
    obtain ⟨h2a, h2b⟩ := change_lines2_frame _ _ _ _ _ _ h3
    have hge2 : -1 ≤ e2.history.index := by rw [h2a, h1'.1]; exact hge
    obtain ⟨-, hi, hc, hlt⟩ := command_history_append_spec _ app.2 _ app.1 hge2 happ
    simp only
    rw [h2a, h1'.1] at hi hc hlt
    refine ⟨by omega, hi, by rw [h2b, h1'.2], by omega⟩

theorem editor_change_inv (e e' : editor_t) (s k input : Nat) (sizes : List Nat) (r : Int)
    (hinv : cursor_inv e.history)
    (hok : editor_change e s k input sizes = .ok (r, e')) :
    cursor_inv e'.history := by
  rcases editor_change_code e e' s k input sizes r hok with ⟨-, -, rfl⟩ | ⟨-, rfl⟩
  · exact hinv
  · obtain ⟨h1, h2, -, -⟩ := editor_change_tail e e' s k input sizes hinv.1 hok
    have := hinv.1
    unfold cursor_inv
    omega

theorem editor_delete_inv (e e' : editor_t) (s k : Nat) (r : Int)
    (hinv : cursor_inv e.history)
    (hok : editor_delete e s k = .ok (r, e')) :
    cursor_inv e'.history ∧
    e'.delayed_history_change_count = e.delayed_history_change_count := by
  unfold editor_delete at hok
  split at hok
  · simp only [bind_eq_ok, pure_eq_ok, Prod.mk.injEq] at hok
    obtain ⟨app, happ, -, rfl⟩ := hok
    exact ⟨command_history_append_inv _ _ _ _ hinv happ, rfl⟩
  · simp only [bind_eq_ok, pure_eq_ok, Prod.mk.injEq] at hok
    obtain ⟨old, -, e2, hdel, app, happ, -, rfl⟩ := hok
    obtain ⟨ha, hb⟩ := delete_lines_frame _ _ _ _ hdel
    refine ⟨command_history_append_inv _ _ _ _ (by rw [ha]; exact hinv) happ, hb⟩

theorem do_command_inv (e e' : editor_t) (input lines_count : Nat) (command_char : Char)
    (first_index second_index : Int) (input_sizes : List Nat) (r : Int) (out : List Chunk)
    (hinv : cursor_inv e.history)
    (hok : do_command e input lines_count command_char first_index second_index input_sizes
      = .ok (r, e', out)) :
    cursor_inv e'.history := by
  unfold do_command at hok
  split at hok
  · simp only [bind_eq_ok, pure_eq_ok, Prod.mk.injEq] at hok
    obtain ⟨fl, hfl, ch, hch, -, rfl, -⟩ := hok
    have h1 := (editor_change_history_inv e fl.2 fl.1 hinv hfl).2.1
    exact editor_change_inv _ _ _ _ _ _ _ h1 hch
  · split at hok
    · simp only [bind_eq_ok, pure_eq_ok, Prod.mk.injEq] at hok
      obtain ⟨fl, hfl, de, hde, -, rfl, -⟩ := hok
      have h1 := (editor_change_history_inv e fl.2 fl.1 hinv hfl).2.1
      exact (editor_delete_inv _ _ _ _ _ h1 hde).1
    · split at hok
      · dsimp only at hok
        split at hok <;> simp only [pure_eq_ok, Prod.mk.injEq] at hok <;>
          obtain ⟨-, rfl, -⟩ := hok <;> exact hinv
      · split at hok
        · dsimp only at hok
          split at hok <;> simp only [pure_eq_ok, Prod.mk.injEq] at hok <;>
            obtain ⟨-, rfl, -⟩ := hok <;> exact hinv
        · split at hok
          · split at hok
            · simp only [pure_eq_ok, Prod.mk.injEq] at hok
              obtain ⟨-, rfl, -⟩ := hok
              exact hinv
            · simp only [bind_eq_ok, pure_eq_ok, Prod.mk.injEq] at hok
              obtain ⟨fl, hfl, pr, -, -, rfl, -⟩ := hok
              exact (editor_change_history_inv e fl.2 fl.1 hinv hfl).2.1
          · simp only [pure_eq_ok, Prod.mk.injEq] at hok
            obtain ⟨-, rfl, -⟩ := hok
            exact hinv

/-! ## Cursor invariant (C9) -/

theorem reachable_cursor_inv (e : editor_t) (h : Reachable e) : cursor_inv e.history := by
  induction h with
  | init => decide
  | command e e' input lines_count command_char first_index second_index input_sizes r out
      _ hok ih =>
    exact do_command_inv e e' input lines_count command_char first_index second_index
      input_sizes r out ih hok
  | flush e e' r _ hok ih =>
    exact (editor_change_history_inv e e' r ih hok).2.1

theorem history_reachable_cursor_inv (h : history_t) (hr : HistoryReachable h) :
    cursor_inv h := by
  induction hr with
  | init => decide
  | append h h' node r _ hok ih => exact command_history_append_inv h h' node r ih hok
  | forward h h' r node _ hok ih => exact command_history_forward_inv h h' r node ih hok
  | back h h' r node _ hok ih => exact command_history_back_inv h h' r node ih hok
  | update h h' node _ hok ih =>
    obtain ⟨hi, hc⟩ := command_history_update_frame h h' node hok
    unfold cursor_inv at ih ⊢
    rw [hi, hc]
    exact ih

/-- C9: `-1 <= history.index <= history.count - 1` in every state reachable
from `editor_init` by change commands, delete commands, undo requests, redo
requests, prints and flushes, and in every history reachable from
`command_history_init` by `command_history_append`, `command_history_forward`,
`command_history_back` and `command_history_update` calls. -/
theorem cursor_invariant :
    (∀ e, Reachable e →
      -1 ≤ e.history.index ∧ e.history.index ≤ (e.history.count : Int) - 1) ∧
    (∀ h, HistoryReachable h → -1 ≤ h.index ∧ h.index ≤ (h.count : Int) - 1) :=
  ⟨reachable_cursor_inv, history_reachable_cursor_inv⟩

/-- C9 at the reachable state `ed_hello_world` and at the history after one
append and one step back. -/
theorem cursor_invariant_witness :
    (-1 ≤ ed_hello_world.history.index ∧
      ed_hello_world.history.index ≤ (ed_hello_world.history.count : Int) - 1) ∧
    (-1 ≤ ed_undone.history.index ∧
      ed_undone.history.index ≤ (ed_undone.history.count : Int) - 1) :=
  ⟨cursor_invariant.1 ed_hello_world
      (Reachable.command ed_hello ed_hello_world 106 1 COMMAND_CHANGE 2 2 [5] 0 []
        (Reachable.command editor_init ed_hello 100 1 COMMAND_CHANGE 1 1 [5] 0 []
          Reachable.init rfl) rfl),
    cursor_invariant.2 ed_undone.history
      (HistoryReachable.update { ed_undone.history with nodes := ed_hello.history.nodes }
        ed_undone.history undone_node
        (HistoryReachable.back ed_hello.history _ 0 (some (append_node 0 1 0))
          (HistoryReachable.append command_history_init ed_hello.history (append_node 0 1 0) 0
            HistoryReachable.init rfl) rfl) rfl)⟩

/-! ## Pending delta (C10, C7) -/

/-- C10: if `-1 <= cursor + delta <= count - 1` before an undo request or a
redo request for `n >= 0` steps, it still holds after it; both requests
return 0.  (`n` is a C `int`, the counters are within `history_range`.) -/
theorem pending_delta_inv (e : editor_t) (input lines_count : Nat)
    (n second_index : Int) (input_sizes : List Nat)
    (hn : 0 ≤ n) (hint : n ≤ INT_MAX) (hrange : history_range e.history)
    (hlo : -1 ≤ e.history.index + e.delayed_history_change_count)
    (hhi : e.history.index + e.delayed_history_change_count ≤ (e.history.count : Int) - 1) :
    (∃ e', do_command e input lines_count COMMAND_UNDO n second_index input_sizes
        = .ok (0, e', []) ∧
      -1 ≤ e'.history.index + e'.delayed_history_change_count ∧
      e'.history.index + e'.delayed_history_change_count ≤ (e'.history.count : Int) - 1) ∧
    (∃ e', do_command e input lines_count COMMAND_REDO n second_index input_sizes
        = .ok (0, e', []) ∧
      -1 ≤ e'.history.index + e'.delayed_history_change_count ∧
      e'.history.index + e'.delayed_history_change_count ≤ (e'.history.count : Int) - 1) := by
  obtain ⟨hr1, hr2, hr3⟩ := hrange
  simp only [INT_MAX] at hint
  constructor
  · unfold do_command
    rw [if_neg (by decide), if_neg (by decide), if_pos rfl]
    dsimp only
    split
    · exact ⟨_, rfl, by simp only; omega, by simp only; omega⟩
    · exact ⟨_, rfl, by simp only; omega, by simp only; omega⟩
  · unfold do_command
    rw [if_neg (by decide), if_neg (by decide), if_neg (by decide), if_pos rfl]
    dsimp only
    split
    · rename_i hlt
      refine ⟨_, rfl, by simp only; omega, ?_⟩
      simp only
      unfold to_size at hlt
      omega
    · refine ⟨_, rfl, ?_, ?_⟩ <;> simp only <;> unfold to_ssize <;> omega

/-- C10 at a concrete input: two undoable steps, `1u` pending, then `5u` and `5r`. -/
theorem pending_delta_inv_witness :
    (∃ e', do_command { ed_hello_world with delayed_history_change_count := -1 } 0 0
        COMMAND_UNDO 5 0 [] = .ok (0, e', []) ∧
      -1 ≤ e'.history.index + e'.delayed_history_change_count ∧
      e'.history.index + e'.delayed_history_change_count ≤ (e'.history.count : Int) - 1) ∧
    (∃ e', do_command { ed_hello_world with delayed_history_change_count := -1 } 0 0
        COMMAND_REDO 5 0 [] = .ok (0, e', []) ∧
      -1 ≤ e'.history.index + e'.delayed_history_change_count ∧
      e'.history.index + e'.delayed_history_change_count ≤ (e'.history.count : Int) - 1) :=
  pending_delta_inv { ed_hello_world with delayed_history_change_count := -1 } 0 0 5 0 []
    (by decide) (by decide) (by decide) (by decide) (by decide)

/-- C7: with no pending delta and at least `n >= 1` undoable steps
(`cursor >= n - 1`, cursor within the history), an undo request for `n` sets the
delta to `-n`, the redo request for `n` that follows brings the editor back to
exactly the state before the two requests (delta 0), and the flush then returns 0
and changes nothing. -/
theorem coalescing_idempotence (e : editor_t) (n : Int)
    (input lines_count : Nat) (second_index : Int) (input_sizes : List Nat)
    (hdelta : e.delayed_history_change_count = 0) (hn : 1 ≤ n)
    (hsteps : n - 1 ≤ e.history.index)
    (hcursor : e.history.index ≤ (e.history.count : Int) - 1)
    (hcount : e.history.count < 18446744073709551616) :
    do_command e input lines_count COMMAND_UNDO n second_index input_sizes
      = .ok (0, { e with delayed_history_change_count := -n }, []) ∧
    do_command { e with delayed_history_change_count := -n } input lines_count
      COMMAND_REDO n second_index input_sizes = .ok (0, e, []) ∧
    editor_change_history e = .ok (0, e) := by
  refine ⟨?_, ?_, editor_change_history_zero e hdelta⟩
  · unfold do_command
    rw [if_neg (by decide), if_neg (by decide), if_pos rfl]
    dsimp only
    rw [if_pos (by omega), hdelta]
    simp only [zero_sub]
    rfl
  · unfold do_command
    rw [if_neg (by decide), if_neg (by decide), if_neg (by decide), if_pos rfl]
    dsimp only
    have hlt : to_size (e.history.index + -n + n) < e.history.count := by
      unfold to_size
      omega
    rw [if_pos hlt]
    have : -n + n = e.delayed_history_change_count := by omega
    rw [this]
    rfl

/-- C7 at the spec's instance `n = 3`, on the three-step history of `ed_three`. -/
theorem coalescing_idempotence_witness :
    do_command ed_three 0 0 COMMAND_UNDO 3 0 []
      = .ok (0, { ed_three with delayed_history_change_count := -3 }, []) ∧
    do_command { ed_three with delayed_history_change_count := -3 } 0 0 COMMAND_REDO 3 0 []
      = .ok (0, ed_three, []) ∧
    editor_change_history ed_three = .ok (0, ed_three) :=
  coalescing_idempotence ed_three 3 0 0 0 [] rfl (by decide) (by decide) (by decide)
    (by decide)

/-! ## Branch truncation (C6) -/

theorem command_history_append_node (h h' : history_t) (node : history_node_t) (r : Int)
    (hok : command_history_append h node = .ok (r, h')) :
    h'.nodes[(h.index + 1).toNat]? = some (some node) := by
  unfold command_history_append at hok
  split at hok
  · cases hok
  · simp only [bind_eq_ok, pure_eq_ok, Prod.mk.injEq, idx_eq_ok, wr_eq_ok] at hok
    obtain ⟨nodes, -, j, ⟨-, hj⟩, nodes', ⟨hlt, rfl⟩, -, rfl⟩ := hok
    have hj' : j = (h.index + 1).toNat := by
      rw [hj]
      split <;> rfl
    subst hj'
    simp only
    rw [List.getElem?_set_self hlt]

/-- The node a change that returns 0 leaves under the cursor is its own. -/
theorem editor_change_node (e e' : editor_t) (s k input : Nat) (sizes : List Nat)
    (hge : -1 ≤ e.history.index)
    (hok : editor_change e s k input sizes = .ok (0, e')) :
    ∃ node, e'.history.nodes[e'.history.index.toNat]? = some (some node) ∧
      node.type = .CHANGE ∧ node.line_start = s ∧ node.line_count = k := by
  obtain ⟨-, hidx, -, -⟩ := editor_change_tail e e' s k input sizes hge hok
  unfold editor_change at hok
  split at hok
  · simp [pure_eq_ok, ERROR_INDEX_OUT_OF_BOUNDS] at hok
  · simp only [bind_eq_ok, pure_eq_ok, Prod.mk.injEq, true_and] at hok
    obtain ⟨e1, h1, old, -, e2, h3, app, happ, rfl⟩ := hok
    have h1' : e1.history = e.history := by
      split at h1
      · exact (expand_buffers_frame _ _ _ h1).1
      · simp only [pure_eq_ok] at h1
        subst h1
        rfl
    obtain ⟨h2a, -⟩ := change_lines2_frame _ _ _ _ _ _ h3
    have hnode := command_history_append_node _ _ _ _ happ
    rw [h2a, h1'] at hnode
    simp only at hidx ⊢
    rw [hidx]
    exact ⟨_, hnode, rfl, rfl, rfl⟩

/-- Undoing one step from a cursor at or above 0 moves the cursor back by one. -/
theorem editor_undo_one_index (e e' : editor_t) (r : Int) (hge : 0 ≤ e.history.index)
    (hok : editor_undo e 1 = .ok (r, e')) :
    e'.history.index = e.history.index - 1 := by
  unfold editor_undo at hok
  simp only [bind_eq_ok] at hok
  obtain ⟨back, hback, hrest⟩ := hok
  have hb : back.1 = 0 ∧ back.2.1.index = e.history.index - 1 := by
    unfold command_history_back at hback
    rw [if_neg (by omega), if_neg (by omega)] at hback
    simp only [bind_eq_ok] at hback
    obtain ⟨j, -, cell, -, hm⟩ := hback
    split at hm
    · cases hm
    · simp only [pure_eq_ok] at hm
      subst hm
      exact ⟨rfl, rfl⟩
  rw [if_neg (by simp [hb.1])] at hrest
  split at hrest
  · cases hrest
  · simp only [bind_eq_ok] at hrest
    obtain ⟨e1, hstep, hrec⟩ := hrest
    obtain ⟨hi, -, -⟩ := undo_step_frame _ _ _ hstep
    unfold editor_undo at hrec
    simp only [pure_eq_ok, Prod.mk.injEq] at hrec
    obtain ⟨-, rfl⟩ := hrec
    rw [hi]
    exact hb.2

/-- C6, evaluated where it fails.  On the reachable one-line buffer `ed_hello`
(no delta pending) the change command A, `2,2c world .` (line_start 1, one
line), returns 0 and gives `ed_hello_world`; the undo request for 1 step
returns 0 and sets the pending delta to -1.  The change command B,
`1,1c foo .`, then has to flush that undo before it runs `editor_change(B)`,
and the flush leaves defined behaviour: undoing the node of A runs
`copy_lines(editor, 1, 1, ..)`, whose loop starts at `i = line_start = 1` and
writes `data_sizes[1]` in a block of one cell.  B never returns, the node of A
is never discarded, and no state "right after B" exists for the redo to
preserve. -/
theorem branch_truncation_faults :
    Reachable ed_hello ∧ buffer_wf ed_hello ∧ cursor_inv ed_hello.history ∧
    ed_hello.delayed_history_change_count = 0 ∧
    do_command ed_hello 106 1 COMMAND_CHANGE 2 2 [5] = .ok (0, ed_hello_world, []) ∧
    do_command ed_hello_world 0 0 COMMAND_UNDO 1 0 [] =
      .ok (0, { ed_hello_world with delayed_history_change_count := -1 }, []) ∧
    editor_change_history { ed_hello_world with delayed_history_change_count := -1 } =
      .error .oob ∧
    do_command { ed_hello_world with delayed_history_change_count := -1 } 112 1
      COMMAND_CHANGE 1 1 [3] = .error .oob :=
  ⟨reachable_ed_hello, by decide, by decide, rfl, rfl, rfl, rfl, rfl⟩

/-- A change command B that is refused truncates nothing: after `1,1c hello .`
(A) and an undo request for 1, the change command `6,6c` (B, line_start 5)
flushes the undo (row_count is 0 again) and then returns
`ERROR_INDEX_OUT_OF_BOUNDS` without appending a node; the node of A is still
ahead of the cursor (`cursor = -1`, `count = 1`), and a redo request for 1 with
a flush replays A. -/
theorem refused_change_keeps_redo_future :
    buffer_wf editor_init ∧ cursor_inv editor_init.history ∧
    editor_change editor_init 0 1 100 [5] = .ok (0, ed_hello) ∧
    do_command ed_hello 0 0 COMMAND_UNDO 1 0 [] =
      .ok (0, { ed_hello with delayed_history_change_count := -1 }, []) ∧
    do_command { ed_hello with delayed_history_change_count := -1 } 106 1
      COMMAND_CHANGE 6 6 [5] = .ok (ERROR_INDEX_OUT_OF_BOUNDS, ed_undone, []) ∧
    ed_undone.history.index ≠ (ed_undone.history.count : Int) - 1 ∧
    do_command ed_undone 0 0 COMMAND_REDO 1 0 [] =
      .ok (0, { ed_undone with delayed_history_change_count := 1 }, []) ∧
    editor_change_history { ed_undone with delayed_history_change_count := 1 } =
      .ok (0, ed_redone) ∧
    ed_redone.row_count ≠ ed_undone.row_count ∧
    ed_redone.history.index ≠ ed_undone.history.index :=
  ⟨by decide, by decide, rfl, rfl, rfl, by decide, rfl, rfl, by decide, by decide⟩

/-- Branch truncation where the three calls return.  After `editor_change(A)`
returns 0 on an editor whose cursor is at least -1, an undo request for 1 step
and a change command B that returns 0, the history has no redo future
(`cursor == count - 1`, nothing pending), a redo request for 1 step leaves the
editor exactly as it was right after B, and so does the flush that follows.
When no delta was pending before A, the node of A is discarded: the cursor is
where it was right after A and the node there is the node of B.  When A has
`line_start >= 1` and at least one line and no delta was pending before it, B
does not return: its flush undoes A through `copy_lines` at a start above 0
(`editor_undo_change_above_zero_faults`). -/
theorem branch_truncation (e e1 e2 e3 : editor_t) (sA kA inA : Nat) (szA : List Nat)
    (inB kB : Nat) (firstB secondB : Int) (szB : List Nat) (out : List Chunk)
    (in1 k1 : Nat) (second1 : Int) (sz1 : List Nat)
    (in2 k2 : Nat) (second2 : Int) (sz2 : List Nat)
    (hwf : -1 ≤ e.history.index)
    (hA : editor_change e sA kA inA szA = .ok (0, e1))
    (hU : do_command e1 in1 k1 COMMAND_UNDO 1 second1 sz1 = .ok (0, e2, []))
    (hB : do_command e2 inB kB COMMAND_CHANGE firstB secondB szB = .ok (0, e3, out)) :
    (e3.history.index = (e3.history.count : Int) - 1 ∧
      e3.delayed_history_change_count = 0 ∧
      do_command e3 in2 k2 COMMAND_REDO 1 second2 sz2 = .ok (0, e3, []) ∧
      editor_change_history e3 = .ok (0, e3)) ∧
    (e.delayed_history_change_count = 0 →
      e3.history.index = e1.history.index ∧
      ∃ node, e3.history.nodes[e1.history.index.toNat]? = some (some node) ∧
        node.type = .CHANGE ∧ node.line_start = to_size (firstB - 1) ∧
        node.line_count = kB) := by
  obtain ⟨hA1, hA2, hA3, -⟩ := editor_change_tail e e1 sA kA inA szA hwf hA
  have hinv1 : cursor_inv e1.history := by
    unfold cursor_inv
    omega
  have hinv2 : cursor_inv e2.history := do_command_inv _ _ _ _ _ _ _ _ _ _ hinv1 hU
  unfold do_command at hB
  rw [if_pos rfl] at hB
  simp only [bind_eq_ok, pure_eq_ok, Prod.mk.injEq] at hB
  obtain ⟨fl, hfl, ch, hch, hr, rfl, -⟩ := hB
  obtain ⟨-, hinvf, hdf⟩ := editor_change_history_inv e2 fl.2 fl.1 hinv2 hfl
  have hch' : editor_change fl.2 (to_size (firstB - 1)) kB inB szB = .ok (0, ch.2) := by
    rw [hch, ← hr]
  obtain ⟨hB1, hB2, hB3, hB4⟩ := editor_change_tail _ _ _ _ _ _ hinvf.1 hch'
  have hd3 : ch.2.delayed_history_change_count = 0 := by rw [hB3, hdf]
  refine ⟨⟨hB1, hd3, ?_, editor_change_history_zero _ hd3⟩, ?_⟩
  · unfold do_command
    rw [if_neg (by decide), if_neg (by decide), if_neg (by decide), if_pos rfl]
    dsimp only
    have hnot : ¬ to_size (ch.2.history.index + ch.2.delayed_history_change_count + 1)
        < ch.2.history.count := by
      have := hinvf.1
      unfold to_size
      omega
    rw [if_neg hnot]
    have htail : to_ssize ((ch.2.history.count : Int) - ch.2.history.index - 1)
        = ch.2.delayed_history_change_count := by
      unfold to_ssize
      omega
    rw [htail]
    rfl
  · intro h0
    have he2 : e2 = { e1 with delayed_history_change_count := -1 } := by
      unfold do_command at hU
      rw [if_neg (by decide), if_neg (by decide), if_pos rfl] at hU
      dsimp only at hU
      rw [if_pos (by omega)] at hU
      simp only [pure_eq_ok, Prod.mk.injEq, and_true, true_and] at hU
      rw [← hU, hA3, h0]
      rfl
    subst he2
    have hidx : fl.2.history.index = e1.history.index - 1 := by
      unfold editor_change_history at hfl
      simp only [bind_eq_ok, pure_eq_ok] at hfl
      obtain ⟨rep, hrep, hrep2⟩ := hfl
      rw [if_neg (by decide), if_pos (by decide)] at hrep
      have h1 : to_size (-(-1 : Int)) = 1 := by decide
      simp only [h1] at hrep
      have := editor_undo_one_index _ rep.2 rep.1 (by simp only; omega) hrep
      rw [← hrep2]
      exact this
    obtain ⟨node, hn1, hn2, hn3, hn4⟩ := editor_change_node _ _ _ _ _ _ hinvf.1 hch'
    have hsame : ch.2.history.index = e1.history.index := by omega
    rw [hsame] at hn1
    exact ⟨hsame, node, hn1, hn2, hn3, hn4⟩

/-- Branch truncation at a concrete input: A is `1,1c hello .` on the fresh
editor, B is `1,1c world .`. -/
theorem branch_truncation_witness :
    -1 ≤ editor_init.history.index ∧
    editor_change editor_init 0 1 100 [5] = .ok (0, ed_hello) ∧
    do_command ed_hello 0 0 COMMAND_UNDO 1 0 [] =
      .ok (0, { ed_hello with delayed_history_change_count := -1 }, []) ∧
    do_command { ed_hello with delayed_history_change_count := -1 } 106 1
      COMMAND_CHANGE 1 1 [5] = .ok (0, ed_world, []) ∧
    ((ed_world.history.index = (ed_world.history.count : Int) - 1 ∧
      ed_world.delayed_history_change_count = 0 ∧
      do_command ed_world 0 0 COMMAND_REDO 1 0 [] = .ok (0, ed_world, []) ∧
      editor_change_history ed_world = .ok (0, ed_world)) ∧
    (editor_init.delayed_history_change_count = 0 →
      ed_world.history.index = ed_hello.history.index ∧
      ∃ node, ed_world.history.nodes[ed_hello.history.index.toNat]? = some (some node) ∧
        node.type = .CHANGE ∧ node.line_start = to_size (1 - 1) ∧
        node.line_count = 1)) :=
  ⟨by decide, rfl, rfl, rfl,
    branch_truncation editor_init ed_hello { ed_hello with delayed_history_change_count := -1 }
      ed_world 0 1 100 [5] 106 1 1 1 [5] [] 0 0 0 [] 0 0 0 [] (by decide) rfl rfl rfl⟩

/-! ## Undo clamping (C8) -/

/-- C8, evaluated where it fails.  `ed_hello_world` is reachable (`1,1c hello .`,
`2,2c world .`), has no pending delta and two undoable steps.  The undo request
for 1000 steps is clamped to a delta of -2 and returns 0, but the flush leaves
defined behaviour at the first step: undoing the node of `2,2c` runs
`copy_lines(editor, 1, 1, ..)`, which writes `data_sizes[1]` in a block of one
cell.  No state with `cursor == -1` is returned. -/
theorem undo_clamping_faults :
    Reachable ed_hello_world ∧ ed_hello_world.delayed_history_change_count = 0 ∧
    (1000 : Int) > ed_hello_world.history.index + 1 ∧
    do_command ed_hello_world 0 0 COMMAND_UNDO 1000 0 [] =
      .ok (0, { ed_hello_world with delayed_history_change_count := -2 }, []) ∧
    editor_change_history { ed_hello_world with delayed_history_change_count := -2 } =
      .error .oob ∧
    copy_lines { ed_hello_world with history := { ed_hello_world.history with index := 0 } }
      1 1 = .error .oob :=
  ⟨reachable_ed_hello_world, rfl, by decide, rfl, rfl, rfl⟩

/-! ## The snapshot loop of `copy_lines` -/

/-- The function `copy_lines` never returns when asked for at least one line
from a start above 0: its loop runs `i` from `line_start` to `line_start + lines_count - 1`
and writes cell `i` of blocks that have `lines_count` cells, so the last turn at
the latest is out of bounds. -/
theorem copy_lines_faults (e : editor_t) (s c : Nat) (hs : 1 ≤ s) (hc : 1 ≤ c)
    (hsmall : s + c ≤ 2147483647) (r : Option (List Cell) × Option (List Cell)) :
    copy_lines e s c ≠ .ok r := by
  intro hok
  unfold copy_lines at hok
  rw [if_neg (by omega)] at hok
  simp only [bind_eq_ok, pure_eq_ok] at hok
  obtain ⟨st, hloop, -⟩ := hok
  rw [to_int_natCast s (by omega)] at hloop
  have hadd : size_add s c = s + c := by unfold size_add; omega
  rw [hadd, malloc_cells_small c (by omega)] at hloop
  have key := for_up_ok_nat _ _
    (fun (n : Nat) (st : Option (List Cell) × Option (List Cell)) =>
      (∀ l, st.2 = some l → l.length = c) ∧ (n = s ∨ n ≤ c))
    ?_ LOOP_FUEL s _ st hloop ⟨by simp, Or.inl rfl⟩
  · obtain ⟨m, hm, -, hcases⟩ := key
    simp only [decide_eq_false_iff_not] at hm
    by_cases hmm : m < 18446744073709551616
    · rw [to_size_natCast m hmm] at hm
      omega
    · omega
  · rintro n st' st1 - hb - ⟨hlen, -⟩
    simp only [bind_eq_ok, pure_eq_ok, idx_eq_ok, wrp_eq_ok] at hb
    obtain ⟨v, -, j, ⟨-, hj⟩, ds, ⟨l, hl, hlt, rfl⟩, r', -, d, -, rfl⟩ := hb
    have hjn : j = n := by simpa using hj
    subst hjn
    have hll := hlen l hl
    refine ⟨?_, Or.inr (by omega)⟩
    intro l' hl'
    simp only [Option.some.injEq] at hl'
    subst hl'
    simpa using hll

/-! ## Undo and redo requests (C11, C19) -/

/-- C11: the `COMMAND_UNDO` and the `COMMAND_REDO` branch of `do_command` return
0, write nothing to `stdout` and hand back the editor they were given with at
most `delayed_history_change_count` changed: lines, row_count, capacity and
the whole history are the same. -/
theorem requests_never_flush (e : editor_t) (input lines_count : Nat)
    (n second_index : Int) (input_sizes : List Nat) :
    (∃ d, do_command e input lines_count COMMAND_UNDO n second_index input_sizes =
      .ok (0, { e with delayed_history_change_count := d }, [])) ∧
    (∃ d, do_command e input lines_count COMMAND_REDO n second_index input_sizes =
      .ok (0, { e with delayed_history_change_count := d }, [])) := by
  constructor
  · unfold do_command
    rw [if_neg (by decide), if_neg (by decide), if_pos rfl]
    dsimp only
    split
    · exact ⟨_, rfl⟩
    · exact ⟨_, rfl⟩
  · unfold do_command
    rw [if_neg (by decide), if_neg (by decide), if_neg (by decide), if_pos rfl]
    dsimp only
    split
    · exact ⟨_, rfl⟩
    · exact ⟨_, rfl⟩

/-- The redo request follows the rule of the specification whenever the
prospective cursor `cursor + delta + n` is not negative: the delta grows by `n`
if that cursor is below `count`, and becomes `count - cursor - 1` otherwise. -/
theorem redo_request_rule (e : editor_t) (input lines_count : Nat)
    (n second_index : Int) (input_sizes : List Nat)
    (hrange : history_range e.history) (hint : n ≤ INT_MAX)
    (hnew : 0 ≤ e.history.index + e.delayed_history_change_count + n)
    (hhi : e.history.index + e.delayed_history_change_count ≤ (e.history.count : Int) - 1) :
    do_command e input lines_count COMMAND_REDO n second_index input_sizes =
      .ok (0, { e with delayed_history_change_count :=
        if e.history.index + e.delayed_history_change_count + n < e.history.count then
          e.delayed_history_change_count + n
        else (e.history.count : Int) - e.history.index - 1 }, []) := by
  obtain ⟨hr1, hr2, hr3⟩ := hrange
  simp only [INT_MAX] at hint
  unfold do_command
  rw [if_neg (by decide), if_neg (by decide), if_neg (by decide), if_pos rfl]
  dsimp only
  have hts : (to_size (e.history.index + e.delayed_history_change_count + n) : Int)
      = e.history.index + e.delayed_history_change_count + n :=
    to_size_of_nonneg _ hnew (by omega)
  by_cases hlt : e.history.index + e.delayed_history_change_count + n < e.history.count
  · rw [if_pos (by omega), if_pos hlt]
    rfl
  · rw [if_neg (by omega), if_neg hlt]
    have : to_ssize ((e.history.count : Int) - e.history.index - 1)
        = (e.history.count : Int) - e.history.index - 1 := by
      unfold to_ssize
      omega
    rw [this]
    rfl

/-- C19, evaluated where it fails.  On `ed_undone` (cursor -1, count 1, no
pending delta) the prospective cursor of a redo request for `n = 0` is
`-1 + 0 + 0 = -1 < count`, so the claim keeps the delta at `delta + n = 0`.
The code compares `new_index < editor->history.count` as unsigned numbers, takes
-1 for `2^64 - 1`, and sets the delta to `count - cursor - 1 = 1`: the next
flush replays the undone change. -/
theorem redo_request_zero_at_pristine :
    -1 ≤ ed_undone.history.index + ed_undone.delayed_history_change_count ∧
    ed_undone.history.index + ed_undone.delayed_history_change_count ≤
      (ed_undone.history.count : Int) - 1 ∧
    ed_undone.history.index + ed_undone.delayed_history_change_count + 0 <
      (ed_undone.history.count : Int) ∧
    to_size (ed_undone.history.index + ed_undone.delayed_history_change_count + 0) =
      18446744073709551615 ∧
    do_command ed_undone 0 0 COMMAND_REDO 0 0 [] =
      .ok (0, { ed_undone with delayed_history_change_count := 1 }, []) ∧
    editor_change_history { ed_undone with delayed_history_change_count := 1 } =
      .ok (0, ed_redone) ∧
    ed_redone.row_count = 1 ∧ ed_undone.row_count = 0 :=
  ⟨by decide, by decide, by decide, by decide, rfl, rfl, rfl, rfl⟩

/-! ## End-to-end scenario (C14) -/

/-- C14: from `editor_init`, `editor_change(0, [hello, world])` gives row_count 2;
then `editor_delete(0, 1)` gives the buffer `[world]`; then an undo request for
2 and a flush give the empty buffer (row_count 0); then a redo request for 2
and a flush give the buffer `[world]` with row_count 1.  (`hello` is the 5
bytes at address 100, `world` the 5 bytes at address 106.) -/
theorem scenario_hello_world :
    editor_change editor_init 0 2 100 [5, 5] = .ok (0, ed_two_lines) ∧
    ed_two_lines.row_count = 2 ∧
    buffer ed_two_lines = [(some 100, some 5), (some 106, some 5)] ∧
    editor_delete ed_two_lines 0 1 = .ok (0, ed_deleted) ∧
    buffer ed_deleted = [(some 106, some 5)] ∧
    do_command ed_deleted 0 0 COMMAND_UNDO 2 0 [] =
      .ok (0, { ed_deleted with delayed_history_change_count := -2 }, []) ∧
    editor_change_history { ed_deleted with delayed_history_change_count := -2 } =
      .ok (0, ed_pristine) ∧
    ed_pristine.row_count = 0 ∧ buffer ed_pristine = [] ∧
    do_command ed_pristine 0 0 COMMAND_REDO 2 0 [] =
      .ok (0, { ed_pristine with delayed_history_change_count := 2 }, []) ∧
    editor_change_history { ed_pristine with delayed_history_change_count := 2 } =
      .ok (0, ed_replayed) ∧
    ed_replayed.row_count = 1 ∧ buffer ed_replayed = [(some 106, some 5)] :=
  ⟨rfl, rfl, rfl, rfl, rfl, rfl, rfl, rfl, rfl, rfl, rfl, rfl, rfl⟩

/-! ## Redo after undo of a change (C16) -/

/-- C16, evaluated where it fails.  On the two-line buffer `ed_hello_world` the
change `3,3c foo .` (line_start 2 = row_count, one line) returns 0 and gives
`ed_three`; the undo request for 1 sets the delta to -1; the flush leaves
defined behaviour before any redo can be asked for: undoing the node runs
`copy_lines(editor, 2, 1, ..)` to record the lines that redo is to replay, and
that loop writes `data_sizes[2]` in a block of one cell. -/
theorem redo_after_undo_faults :
    buffer_wf ed_hello_world ∧ cursor_inv ed_hello_world.history ∧
    ed_hello_world.delayed_history_change_count = 0 ∧ 2 ≤ ed_hello_world.row_count ∧
    editor_change ed_hello_world 2 1 112 [3] = .ok (0, ed_three) ∧
    do_command ed_three 0 0 COMMAND_UNDO 1 0 [] =
      .ok (0, { ed_three with delayed_history_change_count := -1 }, []) ∧
    editor_change_history { ed_three with delayed_history_change_count := -1 } =
      .error .oob ∧
    editor_undo ed_three 1 = .error .oob :=
  ⟨by decide, by decide, rfl, by decide, rfl, rfl, rfl, rfl⟩

/-! ## Snapshot capture (C17) -/

/-- C17, evaluated where it fails.  On the three-line buffer `ed_three`,
`copy_lines(editor, 1, 2, ..)` (`c = 2 >= 1`, `s + c = 3 <= row_count`) leaves
defined behaviour: the first turn, `i = 1`, stores `sizes[2]` (the length of
line 2, not of line 1) and `rows[1]` in cell 1 of the two blocks, the second
turn, `i = 2`, reads `sizes[3]` and writes cell 2 of blocks of two cells.  Cell
0 is never written.  With `line_start = 0` the same call returns the two lines,
and with `lines_count = 0` it returns two `NULL` pointers. -/
theorem copy_lines_snapshot_faults :
    buffer_wf ed_three ∧ 1 + 2 ≤ ed_three.row_count ∧
    copy_lines ed_three 1 2 = .error .oob ∧
    copy_lines ed_three 0 2 =
      .ok (some [some 100, some 106], some [some 5, some 5]) ∧
    copy_lines ed_three 1 0 = .ok (none, none) :=
  ⟨by decide, by decide, rfl, rfl, rfl⟩

/-! ## Undo past the pristine state (C18) -/

/-- A direct call with more steps than there are nodes to undo (one that
`do_command` never makes: it clamps the pending delta to `-(cursor + 1)`).  On
`ed_hello` (cursor 0) `editor_undo(editor, 1)` gives `ed_undone`, whose node 0
is the node of the change with the lines for redo stored in it.
`editor_undo(editor, 2)` returns 0 as well, but its second turn gets the zeroed
node from `command_history_back`, takes it for a change without `data`, and
`command_history_update` writes it over node 0 (`ed_clobbered`).  The history
nodes differ, and a redo of one step brings `hello` back after
`editor_undo(editor, 1)` but nothing after `editor_undo(editor, 2)`. -/
theorem undo_past_pristine_overwrites_node :
    buffer_wf ed_hello ∧ cursor_inv ed_hello.history ∧ history_wf ed_hello.history ∧
    (2 : Int) ≥ ed_hello.history.index + 1 ∧
    editor_undo ed_hello 1 = .ok (0, ed_undone) ∧
    editor_undo ed_hello 2 = .ok (0, ed_clobbered) ∧
    ed_undone.history.nodes[0]? = some (some undone_node) ∧
    ed_clobbered.history.nodes[0]? = some (some zero_node) ∧
    ed_clobbered ≠ ed_undone ∧
    editor_redo ed_undone 1 = .ok (0, ed_redone) ∧ ed_redone.row_count = 1 ∧
    editor_redo ed_clobbered 1 =
      .ok (0, { ed_clobbered with history := { ed_clobbered.history with index := 0 } }) ∧
    ({ ed_clobbered with history := { ed_clobbered.history with index := 0 } } :
      editor_t).row_count = 0 :=
  ⟨by decide, by decide, by decide, by decide, rfl, rfl, rfl, rfl, by decide, rfl, rfl, rfl,
    rfl⟩

/-! ## Loops that are known to finish -/

/-- Total-correctness rule for `for_up`: a loop that counts from `n` up to a bound
`b <= INT_MAX`, whose turns all succeed and keep the invariant, returns a state
that satisfies the invariant at `b`. -/
theorem for_up_total {σ : Type} (cond : Int → Bool) (body : Int → σ → Except Fault σ)
    (P : Nat → σ → Prop) (b : Nat) (hb : b ≤ 2147483647)
    (hcond : ∀ n : Nat, n ≤ b → (cond (n : Int) = true ↔ n < b))
    (hstep : ∀ (n : Nat) st, n < b → P n st → ∃ st', body n st = .ok st' ∧ P (n + 1) st') :
    ∀ (k fuel n : Nat) (st : σ), n + k = b → k ≤ fuel → P n st →
      ∃ st', for_up cond body fuel n st = .ok st' ∧ P b st' := by
  intro k
  induction k with
  | zero =>
    intro fuel n st hn _ hP
    have hnb : n = b := by omega
    subst hnb
    have hc : cond (n : Int) = false := by
      have := hcond n (le_refl _)
      cases h : cond (n : Int)
      · rfl
      · exact absurd (this.1 h) (by omega)
    exact ⟨st, for_up_exit cond body fuel n st hc, hP⟩
  | succ k ih =>
    intro fuel n st hn hf hP
    obtain ⟨fuel', rfl⟩ : ∃ f, fuel = f + 1 := ⟨fuel - 1, by omega⟩
    have hlt : n < b := by omega
    have hc : cond (n : Int) = true := (hcond n (by omega)).2 hlt
    obtain ⟨st1, hb1, hP1⟩ := hstep n st hlt hP
    unfold for_up
    rw [if_pos hc, hb1]
    have hne : ¬ ((n : Int) = INT_MAX) := by
      simp only [INT_MAX]
      omega
    simp only [hne, if_false]
    have := ih fuel' (n + 1) st1 (by omega) (by omega) hP1
    simpa using this

theorem history_wf_node (h : history_t) (hwf : history_wf h) (i : Nat) (hi : i < h.count) :
    ∃ node, h.nodes[i]? = some (some node) := by
  have := hwf.2.2.2.2 i hi
  cases hc : h.nodes[i]? with
  | none => simp [hc] at this
  | some c =>
    cases c with
    | none => simp [hc] at this
    | some node => exact ⟨node, rfl⟩

/-! ## Appending to the history (C20, C13) -/

/-- An append that returns leaves every node at or below the old cursor as it
was. -/
theorem command_history_append_kept (h h' : history_t) (node : history_node_t) (r : Int)
    (hinv : cursor_inv h) (hlen : h.nodes.length = h.capacity)
    (hcount : h.count ≤ h.capacity) (hcap : h.capacity ≤ 2147483647)
    (hok : command_history_append h node = .ok (r, h')) :
    ∀ i : Nat, (i : Int) ≤ h.index → h'.nodes[i]? = h.nodes[i]? := by
  obtain ⟨hlo, hhi⟩ := hinv
  intro i hi
  unfold command_history_append at hok
  split at hok
  · cases hok
  · simp only [bind_eq_ok, pure_eq_ok, Prod.mk.injEq, idx_eq_ok, wr_eq_ok] at hok
    obtain ⟨nodes1, hloop, j, ⟨-, hj⟩, nodes', ⟨hlt, rfl⟩, -, rfl⟩ := hok
    have hj' : j = (h.index + 1).toNat := by
      rw [hj]
      split <;> rfl
    subst hj'
    simp only
    rw [List.getElem?_set_ne (by omega)]
    -- the array after the optional growth
    have hgrown : ∀ (nodes0 : List (Option history_node_t)),
        (nodes0 = h.nodes ∨ nodes0 = realloc h.nodes (size_mul h.capacity 2)) →
        nodes0[i]? = h.nodes[i]? := by
      intro nodes0 h0
      rcases h0 with rfl | rfl
      · rfl
      · have hm : size_mul h.capacity 2 = 2 * h.capacity := by unfold size_mul; omega
        rw [hm]
        exact realloc_getElem? h.nodes (2 * h.capacity) i (by omega) (by omega)
    have hloop' : ∀ (nodes0 : List (Option history_node_t)) (cnt : Nat),
        (if to_size (h.index + 1) < cnt then
          for_up (fun i => to_size i < cnt) (fun i ns => free_node_at ns i)
            LOOP_FUEL (to_int (h.index + 1)) nodes0
        else pure nodes0) = .ok nodes1 → nodes1[i]? = nodes0[i]? := by
      intro nodes0 cnt hl
      split at hl
      · have hti : to_int (h.index + 1) = ((h.index + 1).toNat : Int) := by
          unfold to_int
          omega
        rw [hti] at hl
        have key := for_up_ok_nat _ _
          (fun (n : Nat) (ns : List (Option history_node_t)) =>
            (h.index + 1).toNat ≤ n ∧ ns[i]? = nodes0[i]?)
          ?_ LOOP_FUEL _ nodes0 nodes1 hl ⟨le_refl _, rfl⟩
        · exact key.choose_spec.2.2
        · rintro n ns ns1 - hb - ⟨hn, hk⟩
          unfold free_node_at at hb
          simp only [bind_eq_ok, idx_eq_ok, rd_eq_ok] at hb
          obtain ⟨j, ⟨-, hj⟩, cell, -, hm⟩ := hb
          have hjn : j = n := by simpa using hj
          subst hjn
          split at hm
          · cases hm
          · simp only [wr_eq_ok] at hm
            obtain ⟨-, rfl⟩ := hm
            refine ⟨by omega, ?_⟩
            rw [List.getElem?_set_ne (by omega)]
            exact hk
      · simp only [pure_eq_ok] at hl
        rw [← hl]
    split at hloop
    · exact (hloop' _ _ hloop).trans (hgrown _ (Or.inr rfl))
    · exact (hloop' _ _ hloop).trans (hgrown _ (Or.inl rfl))

/-- C20: on a history with `-1 <= index <= count - 1` (in an array of `capacity`
cells that holds the `count` nodes), when `command_history_append` returns, it
returns 0, the given node is stored at index `old index + 1`, the cursor is
`old index + 1`, `count` is `cursor + 1` (so no node above the new one is left
in the history), and every node at an index up to the old cursor is unchanged. -/
theorem command_history_append_truncates (h h' : history_t) (node : history_node_t)
    (r : Int) (hlo : -1 ≤ h.index) (hhi : h.index ≤ (h.count : Int) - 1)
    (hlen : h.nodes.length = h.capacity) (hcount : h.count ≤ h.capacity)
    (hcap : h.capacity ≤ 2147483647)
    (hok : command_history_append h node = .ok (r, h')) :
    r = 0 ∧ h'.nodes[(h.index + 1).toNat]? = some (some node) ∧
    h'.index = h.index + 1 ∧ (h'.count : Int) = h'.index + 1 ∧
    ∀ i : Nat, (i : Int) ≤ h.index → h'.nodes[i]? = h.nodes[i]? := by
  obtain ⟨h1, h2, h3, -⟩ := command_history_append_spec h h' node r hlo hok
  refine ⟨h1, command_history_append_node h h' node r hok, h2, by omega,
    command_history_append_kept h h' node r ⟨hlo, hhi⟩ hlen hcount hcap hok⟩

/-- C20 at a concrete input: a node appended to `hist_stepped_back` (cursor 0,
the delete node ahead of it). -/
theorem command_history_append_truncates_witness :
    -1 ≤ hist_stepped_back.index ∧
    hist_stepped_back.index ≤ (hist_stepped_back.count : Int) - 1 ∧
    hist_stepped_back.nodes.length = hist_stepped_back.capacity ∧
    hist_stepped_back.count ≤ hist_stepped_back.capacity ∧
    hist_stepped_back.capacity ≤ 2147483647 ∧
    command_history_append hist_stepped_back (empty_delete_node 3 4) =
      .ok (0, hist_appended) ∧
    ((0 : Int) = 0 ∧
      hist_appended.nodes[(hist_stepped_back.index + 1).toNat]? =
        some (some (empty_delete_node 3 4)) ∧
      hist_appended.index = hist_stepped_back.index + 1 ∧
      (hist_appended.count : Int) = hist_appended.index + 1 ∧
      ∀ i : Nat, (i : Int) ≤ hist_stepped_back.index →
        hist_appended.nodes[i]? = hist_stepped_back.nodes[i]?) :=
  ⟨by decide, by decide, by decide, by decide, by decide, rfl,
    command_history_append_truncates hist_stepped_back hist_appended
      (empty_delete_node 3 4) 0
      (by decide) (by decide) (by decide) (by decide) (by decide) rfl⟩

/-- On a well-formed history with the cursor in range `command_history_append`
returns, and it returns 0. -/
theorem command_history_append_total (h : history_t) (node : history_node_t)
    (hwf : history_wf h) (hinv : cursor_inv h) :
    ∃ h', command_history_append h node = .ok (0, h') := by
  obtain ⟨hlo, hhi⟩ := hinv
  have hwf' := hwf
  obtain ⟨hlen, hcount, hcap1, hcap, -⟩ := hwf'
  have hts : to_size (h.index + 1) = (h.index + 1).toNat := by
    unfold to_size
    omega
  have hti : to_int (h.index + 1) = ((h.index + 1).toNat : Int) := by
    unfold to_int
    omega
  -- the free loop over any array that still holds the nodes in use
  have hloop : ∀ (nodes0 : List (Option history_node_t)),
      h.capacity ≤ nodes0.length →
      (∀ i, i < h.count → ∃ nd, nodes0[i]? = some (some nd)) →
      ∃ nodes1, (if to_size (h.index + 1) < h.count then
          for_up (fun i => to_size i < h.count) (fun i ns => free_node_at ns i)
            LOOP_FUEL (to_int (h.index + 1)) nodes0
        else pure nodes0) = .ok nodes1 ∧ nodes1.length = nodes0.length := by
    intro nodes0 hl0 hinit
    split
    · rw [hti]
      obtain ⟨nodes1, h1, h2, -⟩ := for_up_total (fun i => decide (to_size i < h.count))
        (fun i ns => free_node_at ns i)
        (fun (_ : Nat) (ns : List (Option history_node_t)) =>
          ns.length = nodes0.length ∧ ∀ i, i < h.count → ∃ nd, ns[i]? = some (some nd))
        h.count (by omega)
        (by
          intro n hn
          dsimp only
          rw [to_size_natCast n (by omega)]
          simp)
        (by
          rintro n ns hn ⟨hl, hi⟩
          obtain ⟨nd, hnd⟩ := hi n hn
          refine ⟨ns.set n (some (free_node_contents nd)), ?_, by simpa using hl, ?_⟩
          · unfold free_node_at
            have h1 : idx (n : Int) = .ok n := by
              rw [idx_eq_ok]
              exact ⟨by omega, by simp⟩
            have h2 : rd ns n = .ok (some nd) := (rd_eq_ok _ _ _).2 hnd
            have h3 : wr ns n (some (free_node_contents nd)) =
                .ok (ns.set n (some (free_node_contents nd))) :=
              (wr_eq_ok _ _ _ _).2 ⟨by omega, rfl⟩
            simp only [h1, h2, bind, Except.bind, h3]
          · intro i hi'
            by_cases hin : i = n
            · subst hin
              exact ⟨_, by rw [List.getElem?_set_self (by omega)]⟩
            · rw [List.getElem?_set_ne (by omega)]
              exact hi i hi')
        (h.count - (h.index + 1).toNat) LOOP_FUEL (h.index + 1).toNat nodes0
        (by omega) (by simp only [LOOP_FUEL]; omega) ⟨rfl, hinit⟩
      exact ⟨nodes1, h1, h2⟩
    · exact ⟨nodes0, rfl, rfl⟩
  have hidx : idx (h.index + 1) = .ok (h.index + 1).toNat := by
    rw [idx_eq_ok]
    exact ⟨by omega, rfl⟩
  unfold command_history_append
  rw [if_neg (by simp only [SSIZE_MAX]; omega)]
  by_cases hgrow : to_size (h.index + 1) ≥ h.capacity
  · have hm : size_mul h.capacity 2 = 2 * h.capacity := by unfold size_mul; omega
    obtain ⟨nodes1, h1, h2⟩ := hloop (realloc h.nodes (size_mul h.capacity 2))
      (by rw [hm]; unfold realloc; simp; omega)
      (by
        intro i hi
        rw [hm, realloc_getElem? h.nodes (2 * h.capacity) i (by omega) (by omega)]
        exact history_wf_node h hwf i hi)
    have hl1 : (h.index + 1).toNat < nodes1.length := by
      rw [h2, hm]
      unfold realloc
      simp
      omega
    have hwr := (wr_eq_ok nodes1 _ (h.index + 1).toNat (some node)).2 ⟨hl1, rfl⟩
    simp only [if_pos hgrow]
    rw [h1]
    simp only [hidx, hwr, bind, Except.bind, pure, Except.pure]
    exact ⟨_, rfl⟩
  · obtain ⟨nodes1, h1, h2⟩ := hloop h.nodes (by omega) (history_wf_node h hwf)
    have hl1 : (h.index + 1).toNat < nodes1.length := by
      rw [h2]
      omega
    have hwr := (wr_eq_ok nodes1 _ (h.index + 1).toNat (some node)).2 ⟨hl1, rfl⟩
    simp only [if_neg hgrow]
    rw [h1]
    simp only [hidx, hwr, bind, Except.bind, pure, Except.pure]
    exact ⟨_, rfl⟩

/-- C13: on an editor with an empty buffer (and a well-formed history with the
cursor in range) `editor_delete` returns 0 for every `line_start` and
`line_count`, leaves row_count at 0 and the two arrays, the capacity and the
pending delta unchanged, and appends one node: the cursor becomes
`old cursor + 1`, `count` becomes `cursor + 1`, every node up to the old cursor
is unchanged, and the node at the cursor has kind Delete, the given
`line_start` and `line_count`, and no captured lines. -/
theorem editor_delete_empty (e : editor_t) (s k : Nat)
    (hwf : history_wf e.history) (hinv : cursor_inv e.history)
    (hempty : e.row_count = 0) :
    ∃ h', editor_delete e s k = .ok (0, { e with history := h' }) ∧
      ({ e with history := h' } : editor_t).row_count = 0 ∧
      h'.index = e.history.index + 1 ∧ (h'.count : Int) = h'.index + 1 ∧
      h'.nodes[h'.index.toNat]? = some (some (empty_delete_node s k)) ∧
      (empty_delete_node s k).type = .DELETE ∧
      (empty_delete_node s k).old_data = none ∧ (empty_delete_node s k).data = none ∧
      ∀ i : Nat, (i : Int) ≤ e.history.index → h'.nodes[i]? = e.history.nodes[i]? := by
  obtain ⟨h', happ⟩ := command_history_append_total e.history (empty_delete_node s k) hwf hinv
  obtain ⟨-, h2, h3, -⟩ := command_history_append_spec _ _ _ _ hinv.1 happ
  have hnode := command_history_append_node _ _ _ _ happ
  have hkept := command_history_append_kept _ _ _ _ hinv hwf.1 hwf.2.1 hwf.2.2.2.1 happ
  refine ⟨h', ?_, hempty, h2, by omega, by rw [h2]; exact hnode, rfl, rfl, rfl, hkept⟩
  unfold editor_delete
  rw [if_pos hempty]
  simp only [bind_eq_ok, pure_eq_ok]
  exact ⟨(0, h'), happ, rfl⟩

/-- C13 at a concrete input: `7,9d` on the emptied buffer `ed_undone`. -/
theorem editor_delete_empty_witness :
    history_wf ed_undone.history ∧ cursor_inv ed_undone.history ∧
    ed_undone.row_count = 0 ∧
    ∃ h', editor_delete ed_undone 6 3 = .ok (0, { ed_undone with history := h' }) ∧
      ({ ed_undone with history := h' } : editor_t).row_count = 0 ∧
      h'.index = ed_undone.history.index + 1 ∧ (h'.count : Int) = h'.index + 1 ∧
      h'.nodes[h'.index.toNat]? = some (some (empty_delete_node 6 3)) ∧
      (empty_delete_node 6 3).type = .DELETE ∧
      (empty_delete_node 6 3).old_data = none ∧ (empty_delete_node 6 3).data = none ∧
      ∀ i : Nat, (i : Int) ≤ ed_undone.history.index →
        h'.nodes[i]? = ed_undone.history.nodes[i]? :=
  ⟨by decide, by decide, rfl,
    editor_delete_empty ed_undone 6 3 (by decide) (by decide) rfl⟩

/-! ## The flush moves the cursor by the pending delta (C15) -/

/-- Undo replay of `n` steps, none of them past the pristine state, moves the
cursor back by `n` when it returns. -/
theorem editor_undo_cursor (n : Nat) : ∀ (e e' : editor_t) (r : Int),
    (n : Int) ≤ e.history.index + 1 → editor_undo e n = .ok (r, e') →
    e'.history.index = e.history.index - n ∧ e'.history.count = e.history.count := by
  induction n with
  | zero =>
    intro e e' r _ hok
    unfold editor_undo at hok
    simp only [pure_eq_ok, Prod.mk.injEq] at hok
    obtain ⟨-, rfl⟩ := hok
    exact ⟨by simp, rfl⟩
  | succ n ih =>
    intro e e' r hn hok
    push_cast at hn
    unfold editor_undo at hok
    simp only [bind_eq_ok] at hok
    obtain ⟨back, hback, hrest⟩ := hok
    have hb : back.1 = 0 ∧ back.2.1.index = e.history.index - 1 ∧
        back.2.1.count = e.history.count := by
      unfold command_history_back at hback
      rw [if_neg (by omega), if_neg (by omega)] at hback
      simp only [bind_eq_ok] at hback
      obtain ⟨j, -, cell, -, hm⟩ := hback
      split at hm
      · cases hm
      · simp only [pure_eq_ok] at hm
        subst hm
        exact ⟨rfl, rfl, rfl⟩
    rw [if_neg (by simp [hb.1])] at hrest
    split at hrest
    · cases hrest
    · simp only [bind_eq_ok] at hrest
      obtain ⟨e1, hstep, hrec⟩ := hrest
      obtain ⟨hi, hc, -⟩ := undo_step_frame _ _ _ hstep
      simp only at hi hc
      obtain ⟨h1, h2⟩ := ih e1 e' r (by rw [hi, hb.2.1]; omega) hrec
      refine ⟨?_, by rw [h2, hc, hb.2.2]⟩
      rw [h1, hi, hb.2.1]
      push_cast
      omega

/-- Redo replay of `n` steps, none of them past the last node, moves the cursor
forward by `n` when it returns. -/
theorem editor_redo_cursor (n : Nat) : ∀ (e e' : editor_t) (r : Int),
    -1 ≤ e.history.index → e.history.index + n ≤ (e.history.count : Int) - 1 →
    e.history.count < 18446744073709551616 → editor_redo e n = .ok (r, e') →
    e'.history.index = e.history.index + n ∧ e'.history.count = e.history.count := by
  induction n with
  | zero =>
    intro e e' r _ _ _ hok
    unfold editor_redo at hok
    simp only [pure_eq_ok, Prod.mk.injEq] at hok
    obtain ⟨-, rfl⟩ := hok
    exact ⟨by simp, rfl⟩
  | succ n ih =>
    intro e e' r hlo hhi hcount hok
    push_cast at hhi
    unfold editor_redo at hok
    simp only [bind_eq_ok] at hok
    obtain ⟨fw, hfw, hrest⟩ := hok
    have hf : fw.1 = 0 ∧ fw.2.1.index = e.history.index + 1 ∧
        fw.2.1.count = e.history.count := by
      unfold command_history_forward at hfw
      split at hfw
      · cases hfw
      · rename_i hmax
        simp only [SSIZE_MAX] at hmax
        have hts := to_size_of_nonneg (e.history.index + 1) (by omega) (by omega)
        rw [if_neg (by omega)] at hfw
        simp only [bind_eq_ok] at hfw
        obtain ⟨j, -, cell, -, hm⟩ := hfw
        split at hm
        · cases hm
        · simp only [pure_eq_ok] at hm
          subst hm
          exact ⟨rfl, rfl, rfl⟩
    rw [if_neg (by simp [hf.1])] at hrest
    split at hrest
    · cases hrest
    · simp only [bind_eq_ok] at hrest
      obtain ⟨e1, hstep, hrec⟩ := hrest
      obtain ⟨hh, -⟩ := redo_step_frame _ _ _ hstep
      simp only at hh
      have hi : e1.history.index = e.history.index + 1 := by rw [hh, hf.2.1]
      have hc : e1.history.count = e.history.count := by rw [hh, hf.2.2]
      obtain ⟨h1, h2⟩ := ih e1 e' r (by omega) (by rw [hi, hc]; omega)
        (by rw [hc]; exact hcount) hrec
      refine ⟨?_, by rw [h2, hc]⟩
      rw [h1, hi]
      push_cast
      omega

/-- What a flush that returns has done: on an editor whose cursor is in range
and whose prospective cursor `cursor + delta` lies in `[-1, count - 1]`, when
`editor_change_history` returns, it returns 0, the pending delta is 0, the
history cursor is `old cursor + old delta` and the node count is the same; when
the delta is already 0 it does return, and the whole editor is unchanged.  A
flush whose undo replay reaches a change made at `line_start >= 1` does not
return (`editor_undo_change_above_zero_faults`). -/
theorem flush_applies_net_steps (e : editor_t)
    (hinv : cursor_inv e.history) (hcount : e.history.count < 18446744073709551616)
    (hlo : -1 ≤ e.history.index + e.delayed_history_change_count)
    (hhi : e.history.index + e.delayed_history_change_count ≤ (e.history.count : Int) - 1) :
    (∀ r e', editor_change_history e = .ok (r, e') →
      r = 0 ∧ e'.delayed_history_change_count = 0 ∧
      e'.history.index = e.history.index + e.delayed_history_change_count ∧
      e'.history.count = e.history.count) ∧
    (e.delayed_history_change_count = 0 → editor_change_history e = .ok (0, e)) := by
  obtain ⟨h1, h2⟩ := hinv
  refine ⟨?_, editor_change_history_zero e⟩
  intro r e' hok
  obtain ⟨hr, -, hd⟩ := editor_change_history_inv e e' r ⟨h1, h2⟩ hok
  refine ⟨hr, hd, ?_⟩
  unfold editor_change_history at hok
  simp only [bind_eq_ok, pure_eq_ok, Prod.mk.injEq] at hok
  obtain ⟨rep, hrep, -, rfl⟩ := hok
  simp only
  split at hrep
  · rename_i hpos
    have hts : to_size e.delayed_history_change_count
        = e.delayed_history_change_count.toNat := by
      unfold to_size
      omega
    rw [hts] at hrep
    obtain ⟨ha, hb⟩ := editor_redo_cursor _ e rep.2 rep.1 h1 (by omega) hcount hrep
    exact ⟨by rw [ha]; omega, hb⟩
  · split at hrep
    · rename_i hneg
      have hts : to_size (-e.delayed_history_change_count)
          = (-e.delayed_history_change_count).toNat := by
        unfold to_size
        omega
      rw [hts] at hrep
      obtain ⟨ha, hb⟩ := editor_undo_cursor _ e rep.2 rep.1 (by omega) hrep
      exact ⟨by rw [ha]; omega, hb⟩
    · simp only [pure_eq_ok] at hrep
      rw [← hrep]
      exact ⟨by simp only; omega, rfl⟩

/-- The flush of `2u` on `ed_deleted` (cursor 1), which returns. -/
theorem flush_applies_net_steps_witness :
    (∀ r e', editor_change_history { ed_deleted with delayed_history_change_count := -2 }
        = .ok (r, e') →
      r = 0 ∧ e'.delayed_history_change_count = 0 ∧
      e'.history.index = ({ ed_deleted with delayed_history_change_count := -2 } :
        editor_t).history.index +
        ({ ed_deleted with delayed_history_change_count := -2 } :
          editor_t).delayed_history_change_count ∧
      e'.history.count = ({ ed_deleted with delayed_history_change_count := -2 } :
        editor_t).history.count) ∧
    (({ ed_deleted with delayed_history_change_count := -2 } :
        editor_t).delayed_history_change_count = 0 →
      editor_change_history { ed_deleted with delayed_history_change_count := -2 } =
        .ok (0, { ed_deleted with delayed_history_change_count := -2 })) ∧
    editor_change_history { ed_deleted with delayed_history_change_count := -2 } =
      .ok (0, ed_pristine) ∧ ed_pristine.history.index = 1 + -2 :=
  ⟨(flush_applies_net_steps { ed_deleted with delayed_history_change_count := -2 }
      (by decide) (by decide) (by decide) (by decide)).1,
    (flush_applies_net_steps { ed_deleted with delayed_history_change_count := -2 }
      (by decide) (by decide) (by decide) (by decide)).2, rfl, rfl⟩

/-- C15, evaluated where it fails.  The editor `ed_world_foo` is reachable
(`1,1c hello .`, `1u`, `1,1c world .`, `2,2c foo .`): two lines, two nodes,
cursor 1.  The undo request for 1 step returns 0 and leaves the pending delta
at -1, so `cursor + delta = 0` lies in `[-1, count - 1] = [-1, 1]`.  The flush
does not bring the cursor to 0 with the delta at 0: `editor_change_history`
calls `editor_undo(editor, 1)`, whose turn undoes the node of `2,2c foo .`
(line_start 1, one line, `data` still `NULL`) and runs
`copy_lines(editor, 1, 1, ..)`, which writes `data_sizes[1]` in a block of one
cell.  No state is returned. -/
theorem flush_in_range_faults :
    Reachable ed_world_foo ∧
    buffer_wf ed_world_foo ∧ history_wf ed_world_foo.history ∧
    cursor_inv ed_world_foo.history ∧
    do_command ed_world_foo 0 0 COMMAND_UNDO 1 0 [] =
      .ok (0, { ed_world_foo with delayed_history_change_count := -1 }, []) ∧
    -1 ≤ ed_world_foo.history.index + -1 ∧
    ed_world_foo.history.index + -1 ≤ (ed_world_foo.history.count : Int) - 1 ∧
    editor_change_history { ed_world_foo with delayed_history_change_count := -1 } =
      .error .oob :=
  ⟨reachable_ed_world_foo, by decide, by decide, by decide, rfl, by decide, by decide, rfl⟩

/-! ## Reading a range (C12) -/

/-- The output of `editor_print` on a well-formed buffer, for a range that an
`int` counter can run through: one entry per requested index, in index order. -/
theorem editor_print_entries (e : editor_t) (s c : Nat) (hwf : buffer_wf e)
    (hsmall : s + c ≤ 2147483647) :
    editor_print e s c = .ok (0, (List.range c).flatMap (fun j => print_entry e (s + j))) := by
  obtain ⟨hrl, hsl, hrc, hcap⟩ := hwf
  have hadd : size_add s c = s + c := by unfold size_add; omega
  obtain ⟨out, hloop, hout, -⟩ := for_up_total
    (fun i => decide (to_size i < size_add s c))
    (fun i (out : List Chunk) =>
      if to_size i ≥ e.row_count then
        pure (out ++ [Chunk.empty_line])
      else do
        let j ← idx i
        let r ← rd e.rows j
        let s ← rd e.sizes j
        pure (out ++ [Chunk.line r s, Chunk.new_line]))
    (fun (n : Nat) (out : List Chunk) =>
      out = (List.range (n - s)).flatMap (fun j => print_entry e (s + j)) ∧ s ≤ n)
    (s + c) hsmall
    (by
      intro n hn
      dsimp only
      rw [to_size_natCast n (by omega), hadd]
      simp)
    (by
      rintro n out hn ⟨hout, hsn⟩
      have hts : to_size (n : Int) = n := to_size_natCast n (by omega)
      have hsucc : n + 1 - s = (n - s) + 1 := by omega
      have hsn' : s + (n - s) = n := by omega
      dsimp only
      rw [hts]
      by_cases hge : n ≥ e.row_count
      · rw [if_pos hge]
        refine ⟨_, rfl, ?_, by omega⟩
        rw [hsucc, List.range_succ, List.flatMap_append, ← hout]
        simp [print_entry, hsn', hge]
      · rw [if_neg hge]
        have hr : ∃ r, e.rows[n]? = some r :=
          ⟨e.rows.get ⟨n, by omega⟩, List.getElem?_eq_getElem (by omega)⟩
        have hs : ∃ w, e.sizes[n]? = some w :=
          ⟨e.sizes.get ⟨n, by omega⟩, List.getElem?_eq_getElem (by omega)⟩
        obtain ⟨r, hr⟩ := hr
        obtain ⟨w, hw⟩ := hs
        have h1 : idx (n : Int) = .ok n := by
          rw [idx_eq_ok]
          exact ⟨by omega, by simp⟩
        have h2 : rd e.rows n = .ok r := (rd_eq_ok _ _ _).2 hr
        have h3 : rd e.sizes n = .ok w := (rd_eq_ok _ _ _).2 hw
        refine ⟨out ++ [Chunk.line r w, Chunk.new_line], ?_, ?_, by omega⟩
        · simp only [h1, h2, h3, bind, Except.bind, pure, Except.pure]
        · rw [hsucc, List.range_succ, List.flatMap_append, ← hout]
          simp [print_entry, hsn', hge, hr, hw])
    c LOOP_FUEL s [] rfl (by simp only [LOOP_FUEL]; omega) ⟨by simp, le_refl _⟩
  unfold editor_print
  rw [to_int_natCast s (by omega), hloop]
  have hc : s + c - s = c := by omega
  rw [hout, hc]
  rfl


/-- C12 fails for a range that wraps.  The command `3,1p` on the two-line buffer
`ed_two_lines` calls `editor_print(editor, 2, lines_count)` with
`lines_count = (size_t)(1 - 3 + 1) = 2^64 - 1`; the loop bound
`line_start + lines_count` wraps to 1, the loop `for (int i = 2; i < 1; ++i)`
does not run, and nothing is emitted, not even the entry of index
`line_start + 0`. -/
theorem editor_print_wrapped_range :
    buffer_wf ed_two_lines ∧ ed_two_lines.delayed_history_change_count = 0 ∧
    to_size (1 - 3 + 1) = 18446744073709551615 ∧
    size_add 2 18446744073709551615 = 1 ∧
    editor_print ed_two_lines 2 18446744073709551615 = .ok (0, []) ∧
    do_command ed_two_lines 0 0 COMMAND_PRINT 3 1 [] = .ok (0, ed_two_lines, []) ∧
    print_entry ed_two_lines (2 + 0) = [Chunk.empty_line] :=
  ⟨by decide, rfl, by decide, by decide, rfl, rfl, rfl⟩

/-- C12, amended: on a well-formed buffer, for every `line_start` `s` and
`line_count` `c` with `s + c <= INT_MAX`, `editor_print(s, c)` returns 0 and
emits exactly the `c` entries of the indices `s, .., s + c - 1`, in this order:
the bytes of buffer line `s + j` and a newline when `s + j < row_count`, the
empty-line marker otherwise.  It has no access to the editor but to read it;
the print command `s+1,s+c p` on an editor with nothing pending returns the
editor it was given. -/
theorem editor_print_range (e : editor_t) (s c : Nat) (input lines_count : Nat)
    (input_sizes : List Nat) (hwf : buffer_wf e) (hsmall : s + c ≤ 2147483647) :
    editor_print e s c = .ok (0, (List.range c).flatMap (fun j => print_entry e (s + j))) ∧
    (∀ j, j < c → s + j < e.row_count →
      ∃ r w, e.rows[s + j]? = some r ∧ e.sizes[s + j]? = some w ∧
        print_entry e (s + j) = [Chunk.line r w, Chunk.new_line]) ∧
    (∀ j, j < c → s + j ≥ e.row_count → print_entry e (s + j) = [Chunk.empty_line]) ∧
    (e.delayed_history_change_count = 0 → 1 ≤ c →
      do_command e input lines_count COMMAND_PRINT (s + 1) (s + c) input_sizes =
        .ok (0, e, (List.range c).flatMap (fun j => print_entry e (s + j)))) := by
  have hprint := editor_print_entries e s c hwf hsmall
  obtain ⟨hrl, hsl, hrc, hcap⟩ := hwf
  refine ⟨hprint, ?_, ?_, ?_⟩
  · intro j _ hlt
    have hr : e.rows[s + j]? = some (e.rows.get ⟨s + j, by omega⟩) :=
      List.getElem?_eq_getElem (by omega)
    have hw : e.sizes[s + j]? = some (e.sizes.get ⟨s + j, by omega⟩) :=
      List.getElem?_eq_getElem (by omega)
    refine ⟨_, _, hr, hw, ?_⟩
    unfold print_entry
    rw [if_neg (by omega), hr, hw]
    rfl
  · intro j _ hge
    unfold print_entry
    rw [if_pos hge]
  · intro hd hc
    have hflush := editor_change_history_zero e hd
    have h1 : to_size (((s : Int) + 1) - 1) = s := by unfold to_size; omega
    have h2 : to_size (((s : Int) + c) - ((s : Int) + 1) + 1) = c := by unfold to_size; omega
    unfold do_command
    rw [if_neg (by decide), if_neg (by decide), if_neg (by decide), if_neg (by decide),
      if_pos rfl, if_neg (by omega)]
    simp only [hflush, h1, h2, hprint, bind, Except.bind, pure, Except.pure]

/-- C12 at a concrete input: `2,4p` on the two-line buffer `ed_two_lines`
(`s = 1`, `c = 3`). -/
theorem editor_print_range_witness :
    buffer_wf ed_two_lines ∧ 1 + 3 ≤ 2147483647 ∧
    (editor_print ed_two_lines 1 3 =
      .ok (0, (List.range 3).flatMap (fun j => print_entry ed_two_lines (1 + j))) ∧
    (∀ j, j < 3 → 1 + j < ed_two_lines.row_count →
      ∃ r w, ed_two_lines.rows[1 + j]? = some r ∧ ed_two_lines.sizes[1 + j]? = some w ∧
        print_entry ed_two_lines (1 + j) = [Chunk.line r w, Chunk.new_line]) ∧
    (∀ j, j < 3 → 1 + j ≥ ed_two_lines.row_count →
      print_entry ed_two_lines (1 + j) = [Chunk.empty_line]) ∧
    (ed_two_lines.delayed_history_change_count = 0 → 1 ≤ 3 →
      do_command ed_two_lines 0 0 COMMAND_PRINT ((1 : Nat) + 1) ((1 : Nat) + (3 : Nat)) [] =
        .ok (0, ed_two_lines,
          (List.range 3).flatMap (fun j => print_entry ed_two_lines (1 + j))))) ∧
    (List.range 3).flatMap (fun j => print_entry ed_two_lines (1 + j)) =
      [Chunk.line (some 106) (some 5), Chunk.new_line, Chunk.empty_line,
        Chunk.empty_line] :=
  ⟨by decide, by decide, editor_print_range ed_two_lines 1 3 0 0 [] (by decide) (by decide),
    rfl⟩

/-! ## The node a change and a delete record (C21, C22) -/

/-- The node `editor_change` appends when it returns 0: the snapshot `copy_lines`
took of the clamped span before the change is in `old_data`, and `data` is
`NULL`. -/
theorem editor_change_record (e e' : editor_t) (s k input : Nat) (sizes : List Nat)
    (hge : -1 ≤ e.history.index)
    (hok : editor_change e s k input sizes = .ok (0, e')) :
    ∃ e1 old e2,
      (if size_add s k ≥ e.row_capacity then expand_buffers e (size_add s k)
        else pure e) = .ok e1 ∧
      copy_lines e1 s
        (if size_add s k > e1.row_count then size_sub e1.row_count s else k) = .ok old ∧
      change_lines2 e1 s k input sizes = .ok e2 ∧
      e'.rows = e2.rows ∧ e'.sizes = e2.sizes ∧
      e'.history.index = e.history.index + 1 ∧
      e'.history.nodes[e'.history.index.toNat]? = some (some
        { type := .CHANGE, line_start := s, line_count := k, row_count := e1.row_count,
          old_data := old.1, old_data_sizes := old.2, data := none, data_sizes := none }) := by
  obtain ⟨-, hidx, -, -⟩ := editor_change_tail e e' s k input sizes hge hok
  unfold editor_change at hok
  split at hok
  · simp [pure_eq_ok, ERROR_INDEX_OUT_OF_BOUNDS] at hok
  · simp only [bind_eq_ok, pure_eq_ok, Prod.mk.injEq, true_and] at hok
    obtain ⟨e1, h1, old, hold, e2, h3, app, happ, rfl⟩ := hok
    have h1' : e1.history = e.history := by
      split at h1
      · exact (expand_buffers_frame _ _ _ h1).1
      · simp only [pure_eq_ok] at h1
        subst h1
        rfl
    obtain ⟨h2a, -⟩ := change_lines2_frame _ _ _ _ _ _ h3
    have hnode := command_history_append_node _ _ _ _ happ
    rw [h2a, h1'] at hnode
    simp only at hidx ⊢
    rw [hidx]
    exact ⟨e1, old, e2, h1, hold, h3, rfl, rfl, rfl, hnode⟩

/-- The node `editor_delete` appends when it returns: a `DELETE` node whose
`data` is `NULL`. -/
theorem editor_delete_record (e e' : editor_t) (s k : Nat) (r : Int)
    (hge : -1 ≤ e.history.index)
    (hok : editor_delete e s k = .ok (r, e')) :
    ∃ node, e'.history.nodes[e'.history.index.toNat]? = some (some node) ∧
      e'.history.index = e.history.index + 1 ∧
      node.type = .DELETE ∧ node.line_start = s ∧ node.row_count = e.row_count ∧
      node.data = none ∧ node.data_sizes = none := by
  unfold editor_delete at hok
  split at hok
  · rename_i h0
    simp only [bind_eq_ok, pure_eq_ok, Prod.mk.injEq] at hok
    obtain ⟨app, happ, -, rfl⟩ := hok
    have hnode := command_history_append_node _ _ _ _ happ
    obtain ⟨-, hi, -, -⟩ := command_history_append_spec _ app.2 _ app.1 hge happ
    simp only
    rw [hi]
    exact ⟨_, hnode, rfl, rfl, rfl, h0.symm, rfl, rfl⟩
  · simp only [bind_eq_ok, pure_eq_ok, Prod.mk.injEq] at hok
    obtain ⟨old, -, e2, hdel, app, happ, -, rfl⟩ := hok
    obtain ⟨ha, -⟩ := delete_lines_frame _ _ _ _ hdel
    have hnode := command_history_append_node _ _ _ _ happ
    obtain ⟨-, hi, -, -⟩ := command_history_append_spec _ app.2 _ app.1 (by rw [ha]; exact hge) happ
    rw [ha] at hnode hi
    simp only
    rw [hi]
    exact ⟨_, hnode, rfl, rfl, rfl, rfl, rfl, rfl⟩

/-- What the first undo of a `CHANGE` node does to the history: with `data`
still `NULL`, the turn copies the lines `[line_start, line_start + line_count)`
it finds in the buffer and writes the node, with the copy as `data`, back to the
cell it was read from. -/
theorem editor_undo_one_change (e e' : editor_t) (r : Int) (node : history_node_t)
    (hge : 0 ≤ e.history.index)
    (hnode : e.history.nodes[e.history.index.toNat]? = some (some node))
    (htype : node.type = .CHANGE) (hdata : node.data = none)
    (hok : editor_undo e 1 = .ok (r, e')) :
    ∃ new, copy_lines e node.line_start node.line_count = .ok new ∧
      e'.history.index = e.history.index - 1 ∧
      e'.history.nodes[e.history.index.toNat]? =
        some (some { node with data := new.1, data_sizes := new.2 }) := by
  unfold editor_undo at hok
  simp only [bind_eq_ok] at hok
  obtain ⟨back, hback, hrest⟩ := hok
  have hb : back = (0, { e.history with index := e.history.index - 1 }, some node) := by
    unfold command_history_back at hback
    rw [if_neg (by omega), if_neg (by omega)] at hback
    simp only [bind_eq_ok, idx_eq_ok, rd_eq_ok] at hback
    obtain ⟨j, ⟨-, rfl⟩, cell, hcell, hm⟩ := hback
    rw [hnode] at hcell
    simp only [Option.some.injEq] at hcell
    subst hcell
    simp only [pure_eq_ok] at hm
    exact hm.symm
  subst hb
  simp only at hrest
  rw [if_neg (by simp)] at hrest
  simp only [bind_eq_ok] at hrest
  obtain ⟨e1, hstep, hrec⟩ := hrest
  unfold editor_undo at hrec
  simp only [pure_eq_ok, Prod.mk.injEq] at hrec
  obtain ⟨-, rfl⟩ := hrec
  unfold undo_step at hstep
  rw [htype] at hstep
  simp only [bind_eq_ok] at hstep
  obtain ⟨st, hst, hfin⟩ := hstep
  rw [if_pos hdata] at hst
  simp only [bind_eq_ok, pure_eq_ok] at hst
  obtain ⟨new, hnew, h, hupd, rfl⟩ := hst
  unfold command_history_update at hupd
  simp only [bind_eq_ok, pure_eq_ok, idx_eq_ok, wr_eq_ok] at hupd
  obtain ⟨j, ⟨-, rfl⟩, nodes, ⟨hlt, rfl⟩, rfl⟩ := hupd
  have hj : (e.history.index - 1 + 1).toNat = e.history.index.toNat := by
    congr 1
    omega
  rw [hj] at hlt
  have hhist : e1.history =
      { e.history with
        index := e.history.index - 1,
        nodes := e.history.nodes.set e.history.index.toNat
          (some { node with data := new.1, data_sizes := new.2 }) } := by
    simp only at hfin
    split at hfin
    · simp only [pure_eq_ok] at hfin
      subst hfin
      simp only [hj, htype]
    · simp only [bind_eq_ok, pure_eq_ok] at hfin
      obtain ⟨e2, hcl, rfl⟩ := hfin
      split at hcl
      · have h2 := (change_lines_frame _ _ _ _ _ _ hcl).1
        simp only
        rw [h2]
        simp only [hj, htype]
      · have h2 := (change_lines_frame _ _ _ _ _ _ hcl).1
        simp only
        rw [h2]
        simp only [hj, htype]
  refine ⟨new, hnew, ?_, ?_⟩
  · rw [hhist]
  · rw [hhist]
    simp only
    rw [List.getElem?_set_self hlt]

/-! ## What the buffer loops keep (lengths, capacity) and how they set `row_count` -/

theorem change_lines2_shape (e e' : editor_t) (s k input : Nat) (sizes : List Nat)
    (hok : change_lines2 e s k input sizes = .ok e') :
    k ≤ 2147483647 ∧ e'.rows.length = e.rows.length ∧ e'.sizes.length = e.sizes.length ∧
    e'.row_capacity = e.row_capacity ∧
    e'.row_count = (if size_add s k > e.row_count then size_add s k else e.row_count) := by
  unfold change_lines2 at hok
  simp only [bind_eq_ok] at hok
  obtain ⟨st, hloop, hfin⟩ := hok
  have key := for_up_ok_nat _ _
    (fun (n : Nat) (st : editor_t × Nat) => n ≤ 2147483647 ∧
      st.1.rows.length = e.rows.length ∧ st.1.sizes.length = e.sizes.length ∧
      st.1.row_capacity = e.row_capacity ∧ st.1.row_count = e.row_count)
    ?_ LOOP_FUEL 0 (e, 0) st (by simpa using hloop) ⟨by omega, rfl, rfl, rfl, rfl⟩
  · obtain ⟨m, hm, hsmall, hr, hs, hcap, hrc⟩ := key
    simp only [decide_eq_false_iff_not] at hm
    rw [to_size_natCast m (by omega)] at hm
    rw [hrc] at hfin
    split at hfin <;> simp only [pure_eq_ok] at hfin <;> subst hfin
    · refine ⟨by omega, hr, hs, hcap, ?_⟩
      rw [if_pos (by assumption)]
    · refine ⟨by omega, hr, hs, hcap, ?_⟩
      rw [if_neg (by assumption)]
      exact hrc
  · rintro n st0 st1 - hb hn ⟨hsmall, hr, hs, hcap, hrc⟩
    simp only [INT_MAX] at hn
    simp only [bind_eq_ok, map_eq_ok, pure_eq_ok, wr_eq_ok] at hb
    obtain ⟨j, -, v, -, ns, ⟨-, rfl⟩, nr, ⟨-, rfl⟩, w, -, rfl⟩ := hb
    exact ⟨by omega, by simpa using hr, by simpa using hs, hcap, hrc⟩

theorem change_lines_shape (e e' : editor_t) (s k : Nat) (data sizes : Option (List Cell))
    (hok : change_lines e s k data sizes = .ok e') :
    k ≤ 2147483647 ∧ e'.rows.length = e.rows.length ∧ e'.sizes.length = e.sizes.length ∧
    e'.row_capacity = e.row_capacity ∧
    e'.row_count = (if size_add s k > e.row_count then size_add s k else e.row_count) := by
  unfold change_lines at hok
  simp only [bind_eq_ok] at hok
  obtain ⟨st, hloop, hfin⟩ := hok
  have key := for_up_ok_nat _ _
    (fun (n : Nat) (st : editor_t) => n ≤ 2147483647 ∧
      st.rows.length = e.rows.length ∧ st.sizes.length = e.sizes.length ∧
      st.row_capacity = e.row_capacity ∧ st.row_count = e.row_count)
    ?_ LOOP_FUEL 0 e st (by simpa using hloop) ⟨by omega, rfl, rfl, rfl, rfl⟩
  · obtain ⟨m, hm, hsmall, hr, hs, hcap, hrc⟩ := key
    simp only [decide_eq_false_iff_not] at hm
    rw [to_size_natCast m (by omega)] at hm
    rw [hrc] at hfin
    split at hfin <;> simp only [pure_eq_ok] at hfin <;> subst hfin
    · refine ⟨by omega, hr, hs, hcap, ?_⟩
      rw [if_pos (by assumption)]
    · refine ⟨by omega, hr, hs, hcap, ?_⟩
      rw [if_neg (by assumption)]
      exact hrc
  · rintro n st0 st1 - hb hn ⟨hsmall, hr, hs, hcap, hrc⟩
    simp only [INT_MAX] at hn
    simp only [bind_eq_ok, map_eq_ok, pure_eq_ok, wr_eq_ok] at hb
    obtain ⟨j, -, v, -, ns, ⟨-, rfl⟩, r, -, nr, ⟨-, rfl⟩, rfl⟩ := hb
    exact ⟨by omega, by simpa using hr, by simpa using hs, hcap, hrc⟩

theorem delete_lines_shape (e e' : editor_t) (s k : Nat)
    (hok : delete_lines e s k = .ok e') :
    e'.rows.length = e.rows.length ∧ e'.sizes.length = e.sizes.length ∧
    e'.row_capacity = e.row_capacity ∧
    e'.row_count = (if k ≥ e.row_count then 0 else size_sub e.row_count k) := by
  unfold delete_lines at hok
  simp only [bind_eq_ok] at hok
  obtain ⟨e1, hloop, hfin⟩ := hok
  obtain ⟨hr, hs, hcap, hrc⟩ := for_up_inv _ _
    (fun st : editor_t => st.rows.length = e.rows.length ∧ st.sizes.length = e.sizes.length ∧
      st.row_capacity = e.row_capacity ∧ st.row_count = e.row_count)
    (by
      rintro i st st' hb ⟨hr, hs, hcap, hrc⟩
      split at hb
      · simp only [bind_eq_ok, map_eq_ok, pure_eq_ok, wr_eq_ok] at hb
        obtain ⟨v, -, ns, ⟨-, rfl⟩, r, -, nr, ⟨-, rfl⟩, rfl⟩ := hb
        exact ⟨by simpa using hr, by simpa using hs, hcap, hrc⟩
      · simp only [pure_eq_ok] at hb
        subst hb
        exact ⟨hr, hs, hcap, hrc⟩) _ _ _ _ hloop ⟨rfl, rfl, rfl, rfl⟩
  rw [hrc] at hfin
  split at hfin <;> simp only [pure_eq_ok] at hfin <;> subst hfin
  · refine ⟨hr, hs, hcap, ?_⟩
    rw [if_pos (by assumption)]
  · refine ⟨hr, hs, hcap, ?_⟩
    rw [if_neg (by assumption)]

/-- Growing the buffer gives both arrays the new capacity, which is twice the
size asked for and within the range of the `int` counter that zeroes the new
lengths. -/
theorem expand_buffers_shape (e e' : editor_t) (n : Nat) (hwf : buffer_wf e)
    (hn : e.row_capacity ≤ n) (hsmall : n < 4294967296)
    (hok : expand_buffers e n = .ok e') :
    e'.row_capacity = 2 * n ∧ e'.rows.length = 2 * n ∧ e'.sizes.length = 2 * n ∧
    2 * n ≤ 2147483647 ∧ e'.row_count = e.row_count := by
  obtain ⟨hrl, hsl, hrc, hcap⟩ := hwf
  unfold expand_buffers at hok
  simp only [bind_eq_ok, pure_eq_ok] at hok
  obtain ⟨sizes', hloop, rfl⟩ := hok
  have hmul : size_mul n 2 = 2 * n := by unfold size_mul; omega
  rw [hmul] at hloop ⊢
  rw [to_int_natCast _ hcap] at hloop
  have hlen : ∀ (a : List Cell), a.length ≤ 2 * n → (realloc a (2 * n)).length = 2 * n := by
    intro a ha
    unfold realloc
    rw [List.length_append, List.length_take, List.length_replicate]
    omega
  have key := for_up_ok_nat _ _
    (fun (m : Nat) (sz : List Cell) => m ≤ 2147483647 ∧ sz.length = 2 * n)
    ?_ LOOP_FUEL e.row_capacity _ sizes' hloop ⟨hcap, hlen _ (by omega)⟩
  · obtain ⟨m, hm, hm2, hl⟩ := key
    simp only [decide_eq_false_iff_not] at hm
    rw [to_size_natCast m (by omega)] at hm
    exact ⟨rfl, hlen _ (by omega), hl, by omega, rfl⟩
  · rintro m sz sz1 - hb hmax ⟨hm, hl⟩
    simp only [INT_MAX] at hmax
    simp only [bind_eq_ok, idx_eq_ok, wr_eq_ok] at hb
    obtain ⟨j, -, -, rfl⟩ := hb
    exact ⟨by omega, by simpa using hl⟩

/-! ## The undo turn right after a change at line 0 returns -/

/-- C22 as stated fails: the new lines are not recorded at creation.  The change
`1,1c hello .` on a fresh editor returns 0 and appends the node
`append_node 0 1 0` at the cursor: kind `CHANGE`, but `data` and `data_sizes`
(what `editor_redo` hands to `change_lines`) are `NULL`, not the line `hello`.
The initialiser of `editor_change` sets `.data = NULL` and the function never
assigns the field. -/
theorem change_node_new_lines_absent :
    editor_change editor_init 0 1 100 [5] = .ok (0, ed_hello) ∧
    ed_hello.history.nodes[ed_hello.history.index.toNat]? =
      some (some (append_node 0 1 0)) ∧
    (append_node 0 1 0).type = .CHANGE ∧
    (append_node 0 1 0).data = none ∧ (append_node 0 1 0).data_sizes = none :=
  ⟨rfl, rfl, rfl, rfl, rfl⟩

/-- C22, amended (the new lines are not recorded at creation).  From an editor
whose cursor is at or above -1: when `editor_change(s, k lines)` with `k >= 1`
returns 0, the node at the history cursor is the one just appended, it has
kind `CHANGE`, start `s` and count `k`, and its `data` and `data_sizes` are
`NULL`; when `editor_delete(s, k)` returns, the node at the history cursor is
the one just appended, it has kind `DELETE`, and its `data` and `data_sizes`
are `NULL`. -/
theorem new_lines_absent_at_creation (e : editor_t) (hge : -1 ≤ e.history.index) :
    (∀ (e' : editor_t) (s k input : Nat) (sizes : List Nat), 1 ≤ k →
      editor_change e s k input sizes = .ok (0, e') →
      ∃ node, e'.history.nodes[e'.history.index.toNat]? = some (some node) ∧
        e'.history.index = e.history.index + 1 ∧
        node.type = .CHANGE ∧ node.line_start = s ∧ node.line_count = k ∧
        node.data = none ∧ node.data_sizes = none) ∧
    (∀ (e' : editor_t) (s k : Nat) (r : Int),
      editor_delete e s k = .ok (r, e') →
      ∃ node, e'.history.nodes[e'.history.index.toNat]? = some (some node) ∧
        e'.history.index = e.history.index + 1 ∧
        node.type = .DELETE ∧ node.data = none ∧ node.data_sizes = none) := by
  constructor
  · intro e' s k input sizes _ hok
    obtain ⟨e1, old, e2, -, -, -, -, -, hidx, hnode⟩ :=
      editor_change_record e e' s k input sizes hge hok
    exact ⟨_, hnode, hidx, rfl, rfl, rfl, rfl, rfl⟩
  · intro e' s k r hok
    obtain ⟨node, hnode, hidx, ht, -, -, hd, hds⟩ := editor_delete_record e e' s k r hge hok
    exact ⟨node, hnode, hidx, ht, hd, hds⟩

/-- C22 (amended) on the two-line buffer `hello`, `world`: the change
`1,1c foo .` and the delete `1,1d` both return. -/
theorem new_lines_absent_at_creation_witness :
    -1 ≤ ed_two_lines.history.index ∧
    (∃ e', editor_change ed_two_lines 0 1 112 [3] = .ok (0, e') ∧
      ∃ node, e'.history.nodes[e'.history.index.toNat]? = some (some node) ∧
        e'.history.index = ed_two_lines.history.index + 1 ∧
        node.type = .CHANGE ∧ node.line_start = 0 ∧ node.line_count = 1 ∧
        node.data = none ∧ node.data_sizes = none) ∧
    editor_delete ed_two_lines 0 1 = .ok (0, ed_deleted) ∧
    ∃ node, ed_deleted.history.nodes[ed_deleted.history.index.toNat]? = some (some node) ∧
      ed_deleted.history.index = ed_two_lines.history.index + 1 ∧
      node.type = .DELETE ∧ node.data = none ∧ node.data_sizes = none :=
  ⟨by decide,
    ⟨_, rfl, (new_lines_absent_at_creation ed_two_lines (by decide)).1 _ 0 1 112 [3]
      (by decide) rfl⟩,
    rfl,
    (new_lines_absent_at_creation ed_two_lines (by decide)).2 ed_deleted 0 1 0 rfl⟩

/-! ## The history array under an append -/

theorem realloc_length {α : Type} (a : List (Option α)) (n : Nat) (h : a.length ≤ n) :
    (realloc a n).length = n := by
  unfold realloc
  rw [List.length_append, List.length_take, List.length_replicate]
  omega

/-- An append that returns, on a history of fewer than `2^63` nodes: the array
still has `capacity` cells and holds the nodes, and every node at or below the
old cursor is as it was. -/
theorem command_history_append_shape (h h' : history_t) (node : history_node_t) (r : Int)
    (hinv : cursor_inv h) (hlen : h.nodes.length = h.capacity)
    (hcount : h.count ≤ h.capacity) (hsmall : h.count < 9223372036854775808)
    (hok : command_history_append h node = .ok (r, h')) :
    h'.nodes.length = h'.capacity ∧ h'.count ≤ h'.capacity ∧
    (∀ i : Nat, (i : Int) ≤ h.index → h'.nodes[i]? = h.nodes[i]?) := by
  obtain ⟨hlo, hhi⟩ := hinv
  unfold command_history_append at hok
  split at hok
  · cases hok
  · simp only [bind_eq_ok, pure_eq_ok, Prod.mk.injEq, idx_eq_ok, wr_eq_ok] at hok
    obtain ⟨nodes1, hloop, j, ⟨-, hj⟩, nodes', ⟨hlt, rfl⟩, -, rfl⟩ := hok
    have hj' : j = (h.index + 1).toNat := by
      rw [hj]
      split <;> rfl
    subst hj'
    have hts : to_size (h.index + 1) = (h.index + 1).toNat := by
      unfold to_size
      omega
    have hts2 : to_size (h.index + 1 + 1) = (h.index + 1).toNat + 1 := by
      unfold to_size
      omega
    have hloop' : ∀ (nodes0 : List (Option history_node_t)),
        (if to_size (h.index + 1) < h.count then
          for_up (fun i => to_size i < h.count) (fun i ns => free_node_at ns i)
            LOOP_FUEL (to_int (h.index + 1)) nodes0
        else pure nodes0) = .ok nodes1 →
        nodes1.length = nodes0.length ∧
        ∀ i : Nat, (i : Int) ≤ h.index → nodes1[i]? = nodes0[i]? := by
      intro nodes0 hl
      split at hl
      · by_cases hint : h.count ≤ 2147483647
        · have hti : to_int (h.index + 1) = ((h.index + 1).toNat : Int) := by
            unfold to_int
            omega
          rw [hti] at hl
          have key := for_up_ok_nat _ _
            (fun (n : Nat) (ns : List (Option history_node_t)) =>
              (h.index + 1).toNat ≤ n ∧ ns.length = nodes0.length ∧
              ∀ i : Nat, (i : Int) ≤ h.index → ns[i]? = nodes0[i]?)
            ?_ LOOP_FUEL _ nodes0 nodes1 hl ⟨le_refl _, rfl, fun _ _ => rfl⟩
          · exact key.choose_spec.2.2
          · rintro n ns ns1 - hb - ⟨hn, hl0, hk⟩
            unfold free_node_at at hb
            simp only [bind_eq_ok, idx_eq_ok, rd_eq_ok] at hb
            obtain ⟨j, ⟨-, hj⟩, cell, -, hm⟩ := hb
            have hjn : j = n := by simpa using hj
            subst hjn
            split at hm
            · cases hm
            · simp only [wr_eq_ok] at hm
              obtain ⟨-, rfl⟩ := hm
              refine ⟨by omega, by simpa using hl0, fun i hi => ?_⟩
              rw [List.getElem?_set_ne (by omega)]
              exact hk i hi
        · -- more nodes than an `int` counts: the loop ends only if it never starts
          have hi0 : to_int (h.index + 1) ≤ 2147483647 := by
            unfold to_int
            omega
          have key := for_up_ok _ _
            (fun (i : Int) (ns : List (Option history_node_t)) =>
              (i = to_int (h.index + 1) ∧ ns = nodes0) ∨ (0 < i ∧ i ≤ 2147483647))
            ?_ LOOP_FUEL _ nodes0 nodes1 hl (Or.inl ⟨rfl, rfl⟩)
          · obtain ⟨j, hj, hP⟩ := key
            rcases hP with ⟨-, rfl⟩ | ⟨hpos, hle⟩
            · exact ⟨rfl, fun _ _ => rfl⟩
            · simp only [decide_eq_false_iff_not] at hj
              have hjs := to_size_of_nonneg j (by omega) (by omega)
              omega
          · rintro i ns ns1 hc - hmax hP
            simp only [INT_MAX] at hmax
            simp only [decide_eq_true_eq] at hc
            have hnn : 0 ≤ i := by
              by_contra hneg
              have hil : -2147483648 ≤ i := by
                rcases hP with ⟨rfl, -⟩ | ⟨hpos, -⟩
                · unfold to_int
                  omega
                · omega
              unfold to_size at hc
              omega
            right
            rcases hP with ⟨rfl, -⟩ | ⟨-, hle⟩
            · omega
            · omega
      · simp only [pure_eq_ok] at hl
        subst hl
        exact ⟨rfl, fun _ _ => rfl⟩
    by_cases hg : to_size (h.index + 1) ≥ h.capacity
    · simp only [if_pos hg] at hloop hlt ⊢
      obtain ⟨hl1, hk1⟩ := hloop' _ hloop
      have hm : size_mul h.capacity 2 = 2 * h.capacity := by unfold size_mul; omega
      rw [hm] at hl1 hk1 ⊢
      rw [realloc_length _ _ (by omega)] at hl1
      refine ⟨by simpa using hl1, by rw [hts2]; omega, fun i hi => ?_⟩
      rw [List.getElem?_set_ne (by omega), hk1 i hi]
      exact realloc_getElem? h.nodes (2 * h.capacity) i (by omega) (by omega)
    · simp only [if_neg hg] at hloop hlt ⊢
      obtain ⟨hl1, hk1⟩ := hloop' _ hloop
      refine ⟨by simpa [hlen] using hl1, by rw [hts2]; omega, fun i hi => ?_⟩
      rw [List.getElem?_set_ne (by omega), hk1 i hi]

/-! ## Row counts along the history -/

theorem rows_at_neg (nodes : List (Option history_node_t)) (i : Int) (h : i < 0) :
    rows_at nodes i = 0 := by
  unfold rows_at
  rw [if_pos h]

theorem rows_at_node (nodes : List (Option history_node_t)) (i : Int) (node : history_node_t)
    (h : 0 ≤ i) (hn : nodes[i.toNat]? = some (some node)) :
    rows_at nodes i = row_count_after node := by
  unfold rows_at
  rw [if_neg (by omega), hn]
  rfl

theorem rows_at_congr (nodes nodes' : List (Option history_node_t)) (i : Int)
    (h : 0 ≤ i → nodes'[i.toNat]? = nodes[i.toNat]?) :
    rows_at nodes' i = rows_at nodes i := by
  unfold rows_at
  split
  · rfl
  · rw [h (by omega)]

theorem node_bounded_mono (node : history_node_t) (c c' : Nat) (hc : c ≤ c')
    (h : node_bounded node c) : node_bounded node c' := by
  obtain ⟨h1, h2, h3, h4⟩ := h
  exact ⟨by omega, h2, fun ht => by have := h3 ht; omega, h4⟩

/-- The nodes invariant after an append of a bounded node that recorded the
current row count. -/
theorem nodes_inv_append (h h' : history_t) (node : history_node_t) (r : Int) (c c' : Nat)
    (hinv : cursor_inv h) (hlen : h.nodes.length = h.capacity)
    (hcount : h.count ≤ h.capacity) (hsmall : h.count < 9223372036854775808)
    (hnodes : nodes_inv h c) (hc : c ≤ c') (hb : node_bounded node c')
    (hrc : node.row_count = rows_at h.nodes h.index)
    (hok : command_history_append h node = .ok (r, h')) :
    cursor_inv h' ∧ h'.nodes.length = h'.capacity ∧ h'.count ≤ h'.capacity ∧
    h'.index = h.index + 1 ∧ nodes_inv h' c' ∧
    rows_at h'.nodes h'.index = row_count_after node := by
  have hinv' := command_history_append_inv h h' node r hinv hok
  obtain ⟨-, hi, hcnt, -⟩ := command_history_append_spec h h' node r hinv.1 hok
  obtain ⟨hl', hc', hkept⟩ := command_history_append_shape h h' node r hinv hlen hcount hsmall hok
  have hnew := command_history_append_node h h' node r hok
  obtain ⟨hlo, hhi⟩ := hinv
  refine ⟨hinv', hl', hc', hi, ?_, ?_⟩
  · intro i hi'
    by_cases hlast : (i : Int) = h.index + 1
    · have hin : i = (h.index + 1).toNat := by omega
      subst hin
      refine ⟨node, hnew, hb, ?_⟩
      rw [hrc]
      have : (((h.index + 1).toNat : Nat) : Int) - 1 = h.index := by omega
      rw [this]
      symm
      apply rows_at_congr
      intro h0
      exact hkept _ (by omega)
    · have hile : (i : Int) ≤ h.index := by omega
      obtain ⟨nd, hnd, hbd, hch⟩ := hnodes i (by omega)
      refine ⟨nd, (hkept i hile).trans hnd, node_bounded_mono nd c c' hc hbd, ?_⟩
      rw [hch]
      symm
      apply rows_at_congr
      intro h0
      exact hkept _ (by omega)
  · rw [hi]
    exact rows_at_node _ _ node (by omega) hnew

/-! ## One undo turn and one redo turn -/

/-- With the cursor at or above 0, `command_history_back` hands out the node
under the cursor and moves the cursor back by one. -/
theorem command_history_back_node (h : history_t)
    (back : Int × history_t × Option history_node_t)
    (hge : 0 ≤ h.index) (hok : command_history_back h = .ok back) :
    ∃ node, h.nodes[h.index.toNat]? = some (some node) ∧
      back = (0, { h with index := h.index - 1 }, some node) := by
  unfold command_history_back at hok
  rw [if_neg (by omega), if_neg (by omega)] at hok
  simp only [bind_eq_ok, idx_eq_ok, rd_eq_ok] at hok
  obtain ⟨j, ⟨-, rfl⟩, cell, hcell, hm⟩ := hok
  split at hm
  · cases hm
  · rename_i node
    simp only [pure_eq_ok] at hm
    exact ⟨node, hcell, hm.symm⟩

/-- What `command_history_forward` does on a history whose cursor is in range
and whose node count is below `2^63`: it reports the end of the history and
leaves it alone, or hands out the node ahead of the cursor and moves the cursor
onto it. -/
theorem command_history_forward_node (h : history_t)
    (fw : Int × history_t × Option history_node_t)
    (hinv : cursor_inv h) (hsmall : h.count < 9223372036854775808)
    (hok : command_history_forward h = .ok fw) :
    (fw.1 ≠ 0 ∧ fw.2.1 = h) ∨
    (h.index + 1 < h.count ∧ ∃ node, h.nodes[(h.index + 1).toNat]? = some (some node) ∧
      fw = (0, { h with index := h.index + 1 }, some node)) := by
  obtain ⟨hlo, hhi⟩ := hinv
  unfold command_history_forward at hok
  split at hok
  · cases hok
  · have hts : to_size (h.index + 1) = (h.index + 1).toNat := by
      unfold to_size
      omega
    rw [hts] at hok
    split at hok
    · simp only [pure_eq_ok] at hok
      subst hok
      exact Or.inl ⟨by simp [ERROR_HISTORY_EMPTY], rfl⟩
    · simp only [bind_eq_ok, idx_eq_ok, rd_eq_ok] at hok
      obtain ⟨j, ⟨-, rfl⟩, cell, hcell, hm⟩ := hok
      split at hm
      · cases hm
      · rename_i node
        simp only [pure_eq_ok] at hm
        exact Or.inr ⟨by omega, node, hcell, hm.symm⟩

/-- The loop of the `DELETE` case of `editor_undo` keeps the lengths of the two
arrays, the capacity and the row count. -/
theorem undo_shift_shape (e e' : editor_t) (s line_end : Nat) (i0 : Int)
    (hok : for_down
      (fun i (ed : editor_t) => do
        let v ← rd ed.sizes (size_add s (to_size i))
        let new_sizes ← wr ed.sizes (size_add line_end (to_size i)) v
        let r ← rd ed.rows (size_add s (to_size i))
        let new_rows ← wr ed.rows (size_add line_end (to_size i)) r
        pure { ed with sizes := new_sizes, rows := new_rows })
      LOOP_FUEL i0 e = .ok e') :
    e'.rows.length = e.rows.length ∧ e'.sizes.length = e.sizes.length ∧
    e'.row_capacity = e.row_capacity ∧ e'.row_count = e.row_count ∧
    e'.history = e.history := by
  exact for_down_inv _
    (fun st : editor_t => st.rows.length = e.rows.length ∧
      st.sizes.length = e.sizes.length ∧ st.row_capacity = e.row_capacity ∧
      st.row_count = e.row_count ∧ st.history = e.history)
    (by
      rintro i st st' hb ⟨hr, hs, hcap, hrc, hh⟩
      simp only [bind_eq_ok, map_eq_ok, pure_eq_ok, wr_eq_ok] at hb
      obtain ⟨v, -, ns, ⟨-, rfl⟩, r, -, nr, ⟨-, rfl⟩, rfl⟩ := hb
      exact ⟨by simpa using hr, by simpa using hs, hcap, hrc, hh⟩)
    _ _ _ _ hok ⟨rfl, rfl, rfl, rfl, rfl⟩

/-- One undo turn: the row count becomes the one the node recorded, the arrays
keep their lengths, and the history is left alone or gets the node back in the
cell ahead of the cursor with `data` and `data_sizes` filled in. -/
theorem undo_step_effect (e e' : editor_t) (node : history_node_t)
    (hok : undo_step e node = .ok e') :
    e'.row_count = node.row_count ∧ e'.rows.length = e.rows.length ∧
    e'.sizes.length = e.sizes.length ∧ e'.row_capacity = e.row_capacity ∧
    (e'.history = e.history ∨
      ∃ x y, (e.history.index + 1).toNat < e.history.nodes.length ∧
        e'.history = { e.history with
          nodes := e.history.nodes.set (e.history.index + 1).toNat
            (some { node with data := x, data_sizes := y }) }) := by
  unfold undo_step at hok
  split at hok
  · simp only [bind_eq_ok] at hok
    obtain ⟨st, hst, hfin⟩ := hok
    have h1 : st.2.row_count = node.row_count ∧ st.1.rows = e.rows ∧
        st.1.sizes = e.sizes ∧ st.1.row_capacity = e.row_capacity ∧
        (st.1.history = e.history ∨
          ∃ x y, (e.history.index + 1).toNat < e.history.nodes.length ∧
            st.1.history = { e.history with
              nodes := e.history.nodes.set (e.history.index + 1).toNat
                (some { node with data := x, data_sizes := y }) }) := by
      split at hst
      · simp only [bind_eq_ok, pure_eq_ok] at hst
        obtain ⟨old, -, h, hupd, rfl⟩ := hst
        unfold command_history_update at hupd
        simp only [bind_eq_ok, pure_eq_ok, idx_eq_ok, wr_eq_ok] at hupd
        obtain ⟨j, ⟨-, rfl⟩, nodes, ⟨hlt, rfl⟩, rfl⟩ := hupd
        exact ⟨rfl, rfl, rfl, rfl, Or.inr ⟨old.1, old.2, hlt, rfl⟩⟩
      · simp only [pure_eq_ok] at hst
        subst hst
        exact ⟨rfl, rfl, rfl, rfl, Or.inl rfl⟩
    obtain ⟨ha, hb, hc, hd, hh⟩ := h1
    split at hfin
    · simp only [pure_eq_ok] at hfin
      subst hfin
      exact ⟨ha, by rw [← hb], by rw [← hc], hd, hh⟩
    · simp only [bind_eq_ok, pure_eq_ok] at hfin
      obtain ⟨e2, hcl, rfl⟩ := hfin
      have h2 : e2.rows.length = st.1.rows.length ∧ e2.sizes.length = st.1.sizes.length ∧
          e2.row_capacity = st.1.row_capacity ∧ e2.history = st.1.history := by
        split at hcl
        · obtain ⟨-, x, y, z, -⟩ := change_lines_shape _ _ _ _ _ _ hcl
          exact ⟨x, y, z, (change_lines_frame _ _ _ _ _ _ hcl).1⟩
        · obtain ⟨-, x, y, z, -⟩ := change_lines_shape _ _ _ _ _ _ hcl
          exact ⟨x, y, z, (change_lines_frame _ _ _ _ _ _ hcl).1⟩
      obtain ⟨hx, hy, hz, hw⟩ := h2
      refine ⟨ha, by rw [← hb]; exact hx, by rw [← hc]; exact hy, hz.trans hd, ?_⟩
      simp only
      rw [hw]
      exact hh
  · simp only [bind_eq_ok] at hok
    obtain ⟨e1, hloop, hfin⟩ := hok
    obtain ⟨hr, hs, hcap, -, hh⟩ := undo_shift_shape _ _ _ _ _ hloop
    split at hfin
    · simp only [pure_eq_ok] at hfin
      subst hfin
      exact ⟨rfl, hr, hs, hcap, Or.inl hh⟩
    · simp only [bind_eq_ok, pure_eq_ok] at hfin
      obtain ⟨e2, hcl, rfl⟩ := hfin
      obtain ⟨-, x, y, z, -⟩ := change_lines_shape _ _ _ _ _ _ hcl
      have hw := (change_lines_frame _ _ _ _ _ _ hcl).1
      exact ⟨rfl, x.trans hr, y.trans hs, z.trans hcap, Or.inl (hw.trans hh)⟩

/-- One redo turn: the arrays keep their lengths and `row_count` is set as
`change_lines` and `delete_lines` set it. -/
theorem redo_step_effect (e e' : editor_t) (node : history_node_t)
    (hok : redo_step e node = .ok e') :
    e'.rows.length = e.rows.length ∧ e'.sizes.length = e.sizes.length ∧
    e'.row_capacity = e.row_capacity ∧ e'.history = e.history ∧
    e'.row_count =
      (match node.type with
      | .CHANGE =>
        if size_add node.line_start node.line_count > e.row_count then
          size_add node.line_start node.line_count
        else e.row_count
      | .DELETE =>
        if e.row_count > 0 then
          (if node.line_count ≥ e.row_count then 0
            else size_sub e.row_count node.line_count)
        else e.row_count) := by
  unfold redo_step at hok
  split at hok
  · obtain ⟨-, x, y, z, w⟩ := change_lines_shape _ _ _ _ _ _ hok
    exact ⟨x, y, z, (change_lines_frame _ _ _ _ _ _ hok).1, w⟩
  · split at hok
    · rename_i hpos
      obtain ⟨x, y, z, w⟩ := delete_lines_shape _ _ _ _ hok
      refine ⟨x, y, z, (delete_lines_frame _ _ _ _ hok).1, ?_⟩
      rw [w, if_pos hpos]
    · rename_i hpos
      simp only [pure_eq_ok] at hok
      subst hok
      refine ⟨rfl, rfl, rfl, rfl, ?_⟩
      rw [if_neg hpos]

/-! ## The replay keeps the invariant -/

theorem rows_at_set (nodes : List (Option history_node_t)) (j : Nat)
    (node node' : history_node_t) (i : Int)
    (hn : nodes[j]? = some (some node))
    (hsame : row_count_after node' = row_count_after node) :
    rows_at (nodes.set j (some node')) i = rows_at nodes i := by
  have hlt : j < nodes.length := by
    by_contra hge
    rw [List.getElem?_eq_none (by omega)] at hn
    cases hn
  unfold rows_at
  split
  · rfl
  · by_cases hij : i.toNat = j
    · subst hij
      rw [List.getElem?_set_self hlt, hn]
      simp only [Option.join]
      exact hsame
    · rw [List.getElem?_set_ne (Ne.symm hij)]

/-- Writing a node back with other `data` and `data_sizes` keeps the nodes
invariant. -/
theorem nodes_inv_set (h : history_t) (c j : Nat) (i' : Int) (node : history_node_t)
    (x y : Option (List Cell)) (hinv : nodes_inv h c)
    (hn : h.nodes[j]? = some (some node)) :
    nodes_inv { h with
      index := i',
      nodes := h.nodes.set j (some { node with data := x, data_sizes := y }) } c := by
  have hlt : j < h.nodes.length := by
    by_contra hge
    rw [List.getElem?_eq_none (by omega)] at hn
    cases hn
  intro i hi
  obtain ⟨nd, hnd, hb, hch⟩ := hinv i hi
  simp only
  rw [rows_at_set h.nodes j node { node with data := x, data_sizes := y } _ hn rfl]
  by_cases hij : i = j
  · subst hij
    rw [hn] at hnd
    simp only [Option.some.injEq] at hnd
    subst hnd
    exact ⟨_, List.getElem?_set_self hlt, hb, hch⟩
  · rw [List.getElem?_set_ne (Ne.symm hij)]
    exact ⟨nd, hnd, hb, hch⟩

/-- One undo turn from a cursor at or above 0 keeps the invariant. -/
theorem undo_turn_log_inv (e e1 : editor_t) (node : history_node_t)
    (hinv : log_inv e) (hge : 0 ≤ e.history.index)
    (hnode : e.history.nodes[e.history.index.toNat]? = some (some node))
    (hok : undo_step { e with history := { e.history with index := e.history.index - 1 } }
      node = .ok e1) :
    log_inv e1 ∧ e1.history.index = e.history.index - 1 ∧
    e1.delayed_history_change_count = e.delayed_history_change_count := by
  obtain ⟨⟨hrl, hsl, hrc, hcap⟩, ⟨hlo, hhi⟩, hlen, hcount, hsmall, hnodes, hcur⟩ := hinv
  obtain ⟨h1, h2, h3, h4, h5⟩ := undo_step_effect _ _ _ hok
  obtain ⟨-, -, hd⟩ := undo_step_frame _ _ _ hok
  simp only at h2 h3 h4 h5 hd
  obtain ⟨nd, hnd, hb, hch⟩ := hnodes e.history.index.toNat (by omega)
  rw [hnode] at hnd
  simp only [Option.some.injEq] at hnd
  subst hnd
  have hb' := hb
  obtain ⟨hb1, -, -, -⟩ := hb'
  have hprev : ((e.history.index.toNat : Nat) : Int) - 1 = e.history.index - 1 := by omega
  rw [hprev] at hch
  have hj : (e.history.index - 1 + 1).toNat = e.history.index.toNat := by
    congr 1
    omega
  rw [hj] at h5
  rcases h5 with h5 | ⟨x, y, hlt, h5⟩
  · refine ⟨⟨⟨by omega, by omega, by omega, by omega⟩, ?_, ?_, ?_, ?_, ?_, ?_⟩, ?_, hd⟩
    · rw [h5]
      exact ⟨by simp only; omega, by simp only; omega⟩
    · rw [h5]
      exact hlen
    · rw [h5]
      exact hcount
    · rw [h5]
      exact hsmall
    · rw [h5, h4]
      exact hnodes
    · rw [h5, h1, hch]
    · rw [h5]
  · refine ⟨⟨⟨by omega, by omega, by omega, by omega⟩, ?_, ?_, ?_, ?_, ?_, ?_⟩, ?_, hd⟩
    · rw [h5]
      exact ⟨by simp only; omega, by simp only; omega⟩
    · rw [h5]
      simpa using hlen
    · rw [h5]
      exact hcount
    · rw [h5]
      exact hsmall
    · rw [h5, h4]
      exact nodes_inv_set e.history _ _ _ node x y hnodes hnode
    · rw [h5, h1]
      simp only
      rw [rows_at_set e.history.nodes _ node { node with data := x, data_sizes := y } _
        hnode rfl]
      exact hch
    · rw [h5]

/-- Undoing at most `cursor + 1` steps keeps the invariant and the pending
delta. -/
theorem editor_undo_log_inv (n : Nat) : ∀ (e e' : editor_t) (r : Int),
    log_inv e → (n : Int) ≤ e.history.index + 1 → editor_undo e n = .ok (r, e') →
    log_inv e' ∧ e'.delayed_history_change_count = e.delayed_history_change_count := by
  induction n with
  | zero =>
    intro e e' r hinv _ hok
    unfold editor_undo at hok
    simp only [pure_eq_ok, Prod.mk.injEq] at hok
    obtain ⟨-, rfl⟩ := hok
    exact ⟨hinv, rfl⟩
  | succ n ih =>
    intro e e' r hinv hn hok
    unfold editor_undo at hok
    simp only [bind_eq_ok] at hok
    obtain ⟨back, hback, hrest⟩ := hok
    obtain ⟨node, hnode, rfl⟩ := command_history_back_node e.history back (by omega) hback
    simp only at hrest
    rw [if_neg (by simp)] at hrest
    simp only [bind_eq_ok] at hrest
    obtain ⟨e1, hstep, hrec⟩ := hrest
    obtain ⟨hinv1, hi1, hd1⟩ := undo_turn_log_inv e e1 node hinv (by omega) hnode hstep
    obtain ⟨ha, hb⟩ := ih e1 e' r hinv1 (by rw [hi1]; push_cast at hn; omega) hrec
    exact ⟨ha, hb.trans hd1⟩

/-- One redo turn keeps the invariant. -/
theorem redo_turn_log_inv (e e1 : editor_t) (node : history_node_t)
    (hinv : log_inv e) (hlt : e.history.index + 1 < e.history.count)
    (hnode : e.history.nodes[(e.history.index + 1).toNat]? = some (some node))
    (hok : redo_step { e with history := { e.history with index := e.history.index + 1 } }
      node = .ok e1) :
    log_inv e1 ∧ e1.history.index = e.history.index + 1 ∧
    e1.delayed_history_change_count = e.delayed_history_change_count := by
  obtain ⟨⟨hrl, hsl, hrc, hcap⟩, ⟨hlo, hhi⟩, hlen, hcount, hsmall, hnodes, hcur⟩ := hinv
  obtain ⟨h2, h3, h4, h5, h1⟩ := redo_step_effect _ _ _ hok
  obtain ⟨-, hd⟩ := redo_step_frame _ _ _ hok
  simp only at h1 h2 h3 h4 h5 hd
  obtain ⟨nd, hnd, hb, hch⟩ := hnodes (e.history.index + 1).toNat (by omega)
  rw [hnode] at hnd
  simp only [Option.some.injEq] at hnd
  subst hnd
  have hprev : (((e.history.index + 1).toNat : Nat) : Int) - 1 = e.history.index := by omega
  rw [hprev, ← hcur] at hch
  obtain ⟨hb1, hb2, hb3, hb4⟩ := hb
  have hafter : e1.row_count = row_count_after node ∧ e1.row_count ≤ e.row_capacity := by
    unfold row_count_after
    cases hty : node.type with
    | CHANGE =>
      have hsk := hb3 hty
      have hadd : size_add node.line_start node.line_count =
          node.line_start + node.line_count := by
        unfold size_add
        omega
      simp only [hty, hadd] at h1 ⊢
      rw [h1]
      split <;> omega
    | DELETE =>
      simp only [hty] at h1 ⊢
      rw [h1]
      split
      · split
        · omega
        · have : size_sub e.row_count node.line_count = e.row_count - node.line_count := by
            unfold size_sub to_size
            omega
          rw [this]
          omega
      · omega
  obtain ⟨hra, hrb⟩ := hafter
  refine ⟨⟨⟨by omega, by omega, by omega, by omega⟩, ?_, ?_, ?_, ?_, ?_, ?_⟩, ?_, hd⟩
  · rw [h5]
    exact ⟨by simp only; omega, by simp only; omega⟩
  · rw [h5]
    exact hlen
  · rw [h5]
    exact hcount
  · rw [h5]
    exact hsmall
  · rw [h5, h4]
    exact hnodes
  · rw [h5, hra]
    simp only
    rw [rows_at_node _ _ node (by omega) hnode]
  · rw [h5]

/-- Redoing any number of steps keeps the invariant and the pending delta. -/
theorem editor_redo_log_inv (n : Nat) : ∀ (e e' : editor_t) (r : Int),
    log_inv e → editor_redo e n = .ok (r, e') →
    log_inv e' ∧ e'.delayed_history_change_count = e.delayed_history_change_count := by
  induction n with
  | zero =>
    intro e e' r hinv hok
    unfold editor_redo at hok
    simp only [pure_eq_ok, Prod.mk.injEq] at hok
    obtain ⟨-, rfl⟩ := hok
    exact ⟨hinv, rfl⟩
  | succ n ih =>
    intro e e' r hinv hok
    unfold editor_redo at hok
    simp only [bind_eq_ok] at hok
    obtain ⟨fw, hfw, hrest⟩ := hok
    rcases command_history_forward_node e.history fw hinv.cursor hinv.hist_small hfw with
      ⟨hne, hsame⟩ | ⟨hlt, node, hnode, rfl⟩
    · rw [if_pos hne] at hrest
      simp only [pure_eq_ok, Prod.mk.injEq] at hrest
      obtain ⟨-, rfl⟩ := hrest
      rw [hsame]
      exact ⟨hinv, rfl⟩
    · simp only at hrest
      rw [if_neg (by simp)] at hrest
      simp only [bind_eq_ok] at hrest
      obtain ⟨e1, hstep, hrec⟩ := hrest
      obtain ⟨hinv1, -, hd1⟩ := redo_turn_log_inv e e1 node hinv hlt hnode hstep
      obtain ⟨ha, hb⟩ := ih e1 e' r hinv1 hrec
      exact ⟨ha, hb.trans hd1⟩

/-! ## The commands keep the invariant -/

theorem log_inv_delta (e : editor_t) (d : Int) (h : log_inv e) :
    log_inv { e with delayed_history_change_count := d } :=
  ⟨h.wf, h.cursor, h.hist_len, h.hist_count, h.hist_small, h.nodes, h.current⟩

/-- A flush keeps the invariant when the pending delta does not ask for more
undo steps than there are nodes below the cursor. -/
theorem editor_change_history_log_inv (e e' : editor_t) (r : Int) (hinv : log_inv e)
    (hpend : -1 ≤ e.history.index + e.delayed_history_change_count)
    (hok : editor_change_history e = .ok (r, e')) :
    log_inv e' ∧ e'.delayed_history_change_count = 0 := by
  have hcur := hinv.cursor
  have hsmall := hinv.hist_small
  obtain ⟨hlo, hhi⟩ := hcur
  unfold editor_change_history at hok
  simp only [bind_eq_ok, pure_eq_ok, Prod.mk.injEq] at hok
  obtain ⟨rep, hrep, -, rfl⟩ := hok
  refine ⟨log_inv_delta _ 0 ?_, rfl⟩
  split at hrep
  · exact (editor_redo_log_inv _ _ _ _ hinv hrep).1
  · split at hrep
    · rename_i hneg
      have hts : ((to_size (-e.delayed_history_change_count) : Nat) : Int) =
          -e.delayed_history_change_count := by
        unfold to_size
        omega
      exact (editor_undo_log_inv _ _ _ _ hinv (by rw [hts]; omega) hrep).1
    · simp only [pure_eq_ok] at hrep
      rw [← hrep]
      exact hinv

/-- A change that returns and leaves fewer than `2^63` nodes keeps the
invariant. -/
theorem editor_change_log_inv (e e' : editor_t) (s k input : Nat) (sizes : List Nat)
    (r : Int) (hinv : log_inv e)
    (hok : editor_change e s k input sizes = .ok (r, e'))
    (hsmall' : e'.history.count < 9223372036854775808) :
    log_inv e' ∧ e'.delayed_history_change_count = e.delayed_history_change_count := by
  have hwf := hinv.wf
  obtain ⟨hrl, hsl, hrc, hcap⟩ := hwf
  unfold editor_change at hok
  split at hok
  · simp only [pure_eq_ok, Prod.mk.injEq] at hok
    obtain ⟨-, rfl⟩ := hok
    exact ⟨hinv, rfl⟩
  · rename_i hs
    simp only [bind_eq_ok, pure_eq_ok, Prod.mk.injEq] at hok
    obtain ⟨e1, h1, old, hold, e2, h3, app, happ, -, rfl⟩ := hok
    obtain ⟨hk, hr2, hs2, hc2, hrc2⟩ := change_lines2_shape _ _ _ _ _ _ h3
    obtain ⟨hh2, hd2⟩ := change_lines2_frame _ _ _ _ _ _ h3
    have hadd : size_add s k = s + k := by unfold size_add; omega
    rw [hadd] at h1 hrc2
    have h1' : e1.rows.length = e1.row_capacity ∧ e1.sizes.length = e1.row_capacity ∧
        e.row_capacity ≤ e1.row_capacity ∧ e1.row_capacity ≤ 2147483647 ∧
        s + k ≤ e1.row_capacity ∧ e1.row_count = e.row_count ∧ e1.history = e.history ∧
        e1.delayed_history_change_count = e.delayed_history_change_count := by
      split at h1
      · rename_i hgecap
        obtain ⟨ha, hb, hc, hd, he⟩ :=
          expand_buffers_shape e e1 (s + k) hinv.wf hgecap (by omega) h1
        obtain ⟨hf, hg⟩ := expand_buffers_frame _ _ _ h1
        exact ⟨by omega, by omega, by omega, by omega, by omega, he, hf, hg⟩
      · simp only [pure_eq_ok] at h1
        subst h1
        exact ⟨hrl, hsl, le_refl _, hcap, by omega, rfl, rfl, rfl⟩
    obtain ⟨ha, hb, hc, hd, he, hf, hg, hdl⟩ := h1'
    have hcur := hinv.current
    have hbound : node_bounded
        { type := .CHANGE, line_start := s, line_count := k, row_count := e1.row_count,
          old_data := old.1, old_data_sizes := old.2, data := none, data_sizes := none }
        e1.row_capacity :=
      ⟨by simp only; omega, by simp only; omega, fun _ => by simp only; omega,
        fun ht => by simp at ht⟩
    obtain ⟨hcur', hlen', hcount', hidx', hnodes', hrows'⟩ :=
      nodes_inv_append e2.history app.2 _ app.1 e.row_capacity e1.row_capacity
        (by rw [hh2, hg]; exact hinv.cursor) (by rw [hh2, hg]; exact hinv.hist_len)
        (by rw [hh2, hg]; exact hinv.hist_count) (by rw [hh2, hg]; exact hinv.hist_small)
        (by rw [hh2, hg]; exact hinv.nodes) hc hbound
        (by rw [hh2, hg]; simp only; rw [hf]; exact hcur) happ
    refine ⟨⟨⟨?_, ?_, ?_, ?_⟩, hcur', hlen', hcount', hsmall', ?_, ?_⟩, ?_⟩
    · simp only
      omega
    · simp only
      omega
    · simp only
      rw [hrc2, hc2]
      split <;> omega
    · simp only
      omega
    · simp only
      rw [hc2]
      exact hnodes'
    · simp only
      rw [hrows', hrc2]
      unfold row_count_after
      simp only
      split <;> omega
    · simp only
      rw [hd2, hdl]

/-- A request for a cell count that is a small negative `int` converted to
`size_t` makes `copy_lines` hand back two `NULL` blocks, if it returns. -/
theorem copy_lines_huge (e : editor_t) (s c : Nat)
    (old : Option (List Cell) × Option (List Cell))
    (hc : 18446744071562067968 ≤ c) (hc2 : c < 18446744073709551616)
    (hok : copy_lines e s c = .ok old) : old = (none, none) := by
  unfold copy_lines at hok
  rw [if_neg (by omega)] at hok
  simp only [bind_eq_ok, pure_eq_ok] at hok
  obtain ⟨st, hloop, rfl⟩ := hok
  rw [malloc_cells_huge c hc hc2] at hloop
  have key := for_up_inv _ _
    (fun (st : Option (List Cell) × Option (List Cell)) => st = (none, none))
    ?_ _ _ _ _ hloop rfl
  · rw [key]
  · rintro i st0 st1 hb rfl
    simp only [bind_eq_ok, pure_eq_ok, wrp_eq_ok] at hb
    obtain ⟨v, -, j, -, ds, ⟨a, ha, -⟩, -⟩ := hb
    cases ha

/-- A delete whose start is within `row_count`, that returns and leaves fewer
than `2^63` nodes, keeps the invariant. -/
theorem editor_delete_log_inv (e e' : editor_t) (s k : Nat) (r : Int) (hinv : log_inv e)
    (hs : s ≤ e.row_count) (hk : k < 18446744073709551616)
    (hok : editor_delete e s k = .ok (r, e'))
    (hsmall' : e'.history.count < 9223372036854775808) :
    log_inv e' ∧ e'.delayed_history_change_count = e.delayed_history_change_count := by
  have hwf := hinv.wf
  obtain ⟨hrl, hsl, hrc, hcap⟩ := hwf
  have hcur := hinv.current
  unfold editor_delete at hok
  split at hok
  · rename_i h0
    simp only [bind_eq_ok, pure_eq_ok, Prod.mk.injEq] at hok
    obtain ⟨app, happ, -, rfl⟩ := hok
    have hbound : node_bounded
        { type := .DELETE, line_start := s, line_count := k, row_count := 0,
          old_data := none, old_data_sizes := none, data := none, data_sizes := none }
        e.row_capacity :=
      ⟨by simp only; omega, by simp only; omega, fun ht => by simp at ht,
        fun _ => Or.inr ⟨rfl, by simp only; omega⟩⟩
    obtain ⟨hcur', hlen', hcount', hidx', hnodes', hrows'⟩ :=
      nodes_inv_append e.history app.2 _ app.1 e.row_capacity e.row_capacity
        hinv.cursor hinv.hist_len hinv.hist_count hinv.hist_small hinv.nodes (le_refl _)
        hbound (by simp only; rw [← hcur, h0]) happ
    refine ⟨⟨⟨hrl, hsl, hrc, hcap⟩, hcur', hlen', hcount', hsmall', hnodes', ?_⟩, rfl⟩
    simp only
    rw [hrows', h0]
    unfold row_count_after
    simp
  · rename_i h0
    simp only [bind_eq_ok, pure_eq_ok, Prod.mk.injEq] at hok
    obtain ⟨old, hold, e2, hdel, app, happ, -, rfl⟩ := hok
    have hsub : size_sub e.row_count s = e.row_count - s := by
      unfold size_sub to_size
      omega
    have hbound : node_bounded
        { type := .DELETE, line_start := s,
          line_count :=
            if size_add s k ≥ e.row_count then size_sub e.row_count s else k,
          row_count := e.row_count,
          old_data := old.1, old_data_sizes := old.2, data := none, data_sizes := none }
        e.row_capacity := by
      refine ⟨hrc, hs, fun ht => by simp at ht, fun _ => ?_⟩
      simp only
      split
      · left
        rw [hsub]
        omega
      · rename_i hlt
        rw [if_neg hlt] at hold
        by_cases hwrap : s + k < 18446744073709551616
        · left
          have : size_add s k = s + k := by unfold size_add; omega
          omega
        · right
          have := copy_lines_huge e s k old (by omega) hk hold
          rw [this]
          exact ⟨rfl, by omega⟩
    generalize (if size_add s k ≥ e.row_count then size_sub e.row_count s else k) = k'
      at hold hdel happ hbound
    obtain ⟨hr2, hs2, hc2, hrc2⟩ := delete_lines_shape _ _ _ _ hdel
    obtain ⟨hh2, hd2⟩ := delete_lines_frame _ _ _ _ hdel
    obtain ⟨hcur', hlen', hcount', hidx', hnodes', hrows'⟩ :=
      nodes_inv_append e2.history app.2 _ app.1 e.row_capacity e.row_capacity
        (by rw [hh2]; exact hinv.cursor) (by rw [hh2]; exact hinv.hist_len)
        (by rw [hh2]; exact hinv.hist_count) (by rw [hh2]; exact hinv.hist_small)
        (by rw [hh2]; exact hinv.nodes) (le_refl _) hbound
        (by rw [hh2]; exact hcur) happ
    have hafter : e2.row_count = e.row_count - k' := by
      rw [hrc2]
      split
      · omega
      · unfold size_sub to_size
        omega
    refine ⟨⟨⟨?_, ?_, ?_, ?_⟩, hcur', hlen', hcount', hsmall', ?_, ?_⟩, ?_⟩
    · simp only
      omega
    · simp only
      omega
    · simp only
      omega
    · simp only
      omega
    · simp only
      rw [hc2]
      exact hnodes'
    · simp only
      rw [hrows', hafter]
      rfl
    · simp only
      rw [hd2]

/-! ## The invariant holds in every guarded reachable state -/

theorem to_size_lt (x : Int) : to_size x < 18446744073709551616 := by
  unfold to_size
  omega

theorem log_inv_init : log_inv editor_init :=
  ⟨by decide, by decide, by decide, by decide, by decide,
    fun i hi => absurd hi (Nat.not_lt_zero i), (rows_at_neg _ _ (by decide)).symm⟩

/-- Every guarded reachable state satisfies the invariant, and its pending
delta never asks for an undo below the pristine state. -/
theorem reachable_guarded_log_inv (e : editor_t) (h : ReachableGuarded e) :
    log_inv e ∧ -1 ≤ e.history.index + e.delayed_history_change_count := by
  induction h with
  | init => exact ⟨log_inv_init, by decide⟩
  | change e e' input lines_count first_index second_index input_sizes r out _ hok hsmall ih =>
    obtain ⟨hinv, hpend⟩ := ih
    unfold do_command at hok
    rw [if_pos rfl] at hok
    simp only [bind_eq_ok, pure_eq_ok, Prod.mk.injEq] at hok
    obtain ⟨fl, hfl, ch, hch, -, rfl, -⟩ := hok
    obtain ⟨h1, hd1⟩ := editor_change_history_log_inv e fl.2 fl.1 hinv hpend hfl
    obtain ⟨h2, hd2⟩ := editor_change_log_inv fl.2 ch.2 _ _ _ _ ch.1 h1 hch hsmall
    refine ⟨h2, ?_⟩
    have := h2.cursor.1
    rw [hd2, hd1]
    omega
  | delete e flushed e' input lines_count first_index second_index input_sizes r0 r out _
      hflush hguard hok hsmall ih =>
    obtain ⟨hinv, hpend⟩ := ih
    unfold do_command at hok
    rw [if_neg (by decide), if_pos rfl] at hok
    simp only [bind_eq_ok, pure_eq_ok, Prod.mk.injEq] at hok
    obtain ⟨fl, hfl, de, hde, -, rfl, -⟩ := hok
    rw [hflush] at hfl
    simp only [Except.ok.injEq] at hfl
    subst hfl
    obtain ⟨h1, hd1⟩ := editor_change_history_log_inv e flushed r0 hinv hpend hflush
    obtain ⟨h2, hd2⟩ := editor_delete_log_inv flushed de.2 _ _ de.1 h1 hguard
      (to_size_lt _) hde hsmall
    refine ⟨h2, ?_⟩
    have := h2.cursor.1
    rw [hd2, hd1]
    omega
  | undo e e' input lines_count first_index second_index input_sizes r out _ hlo hhi hok ih =>
    obtain ⟨hinv, hpend⟩ := ih
    have hcur := hinv.cursor.1
    unfold do_command at hok
    rw [if_neg (by decide), if_neg (by decide), if_pos rfl] at hok
    dsimp only at hok
    split at hok
    · rename_i hge
      simp only [pure_eq_ok, Prod.mk.injEq] at hok
      obtain ⟨-, rfl, -⟩ := hok
      refine ⟨log_inv_delta _ _ hinv, ?_⟩
      simp only
      omega
    · simp only [pure_eq_ok, Prod.mk.injEq] at hok
      obtain ⟨-, rfl, -⟩ := hok
      refine ⟨log_inv_delta _ _ hinv, ?_⟩
      simp only
      omega
  | redo e e' input lines_count first_index second_index input_sizes r out _ hlo hhi hok ih =>
    obtain ⟨hinv, hpend⟩ := ih
    have hcur := hinv.cursor
    have hsm := hinv.hist_small
    obtain ⟨hc1, hc2⟩ := hcur
    unfold do_command at hok
    rw [if_neg (by decide), if_neg (by decide), if_neg (by decide), if_pos rfl] at hok
    dsimp only at hok
    split at hok
    · rename_i hlt
      simp only [pure_eq_ok, Prod.mk.injEq] at hok
      obtain ⟨-, rfl, -⟩ := hok
      refine ⟨log_inv_delta _ _ hinv, ?_⟩
      simp only
      unfold to_size at hlt
      omega
    · simp only [pure_eq_ok, Prod.mk.injEq] at hok
      obtain ⟨-, rfl, -⟩ := hok
      refine ⟨log_inv_delta _ _ hinv, ?_⟩
      simp only
      unfold to_ssize
      omega
  | flush e e' r _ hok ih =>
    obtain ⟨hinv, hpend⟩ := ih
    obtain ⟨h1, hd1⟩ := editor_change_history_log_inv e e' r hinv hpend hok
    refine ⟨h1, ?_⟩
    have := h1.cursor.1
    rw [hd1]
    omega

/-! ## The indices the buffer loops write (C23) -/

theorem change_lines_writes_lt (s k c : Nat) (hs : s ≤ 2147483647) (hk : k ≤ 2147483647)
    (h : s + k ≤ c) : ∀ j, j ∈ change_lines_writes s k → j < c := by
  intro j hj
  simp only [change_lines_writes, List.mem_map, List.mem_range] at hj
  obtain ⟨i, hi, rfl⟩ := hj
  rw [to_size_natCast i (by omega)]
  unfold size_add
  omega

/-- The start `row_count - line_start - 1` of the loop of the `DELETE` case of
`editor_undo`, as an `int`, when no row is at or above `line_start`: it is
negative, and the loop does not run. -/
theorem undo_shift_start_neg (rc s : Nat) (h : rc ≤ s) (hs : s ≤ 2147483647) :
    to_int (size_sub (size_sub rc s) 1) + 1 ≤ 0 := by
  unfold size_sub to_size to_int
  omega

/-- The start of that loop when rows are at or above `line_start`. -/
theorem undo_shift_start_pos (rc s : Nat) (h : s < rc) (hrc : rc ≤ 2147483647) :
    to_int (size_sub (size_sub rc s) 1) = ((rc - s - 1 : Nat) : Int) := by
  unfold size_sub to_size to_int
  omega

/-- The indices the loop of the `DELETE` case of `editor_undo` writes are below
`cap` when the rows and the gap to re-open fit in `cap`. -/
theorem undo_shift_writes_lt (rc s k cap j : Nat) (hs : s ≤ 2147483647)
    (hrc : rc ≤ 2147483647) (hq : s < rc → rc + k ≤ cap)
    (hj : j ∈ (List.range (to_int (size_sub (size_sub rc s) 1) + 1).toNat).map
      (fun (i : Nat) => size_add (size_add s k) (to_size i))) : j < cap := by
  by_cases hgt : s < rc
  · have hk := hq hgt
    rw [undo_shift_start_pos rc s hgt hrc] at hj
    simp only [List.mem_map, List.mem_range] at hj
    obtain ⟨i, hi, rfl⟩ := hj
    rw [to_size_natCast i (by omega)]
    unfold size_add
    omega
  · rw [Int.toNat_eq_zero.mpr (undo_shift_start_neg rc s (Nat.le_of_not_lt hgt) hs)] at hj
    simp at hj

/-- The indices the loop of `delete_lines` writes are below the row count. -/
theorem delete_lines_writes_lt (e : editor_t) (s k j : Nat) (hs : s ≤ e.row_count)
    (hrc : e.row_count ≤ 2147483647) (hj : j ∈ delete_lines_writes e s k) :
    j < e.row_count := by
  simp only [delete_lines_writes, List.mem_map, List.mem_filter, List.mem_range] at hj
  obtain ⟨i, ⟨hi, -⟩, rfl⟩ := hj
  have hsub : size_sub e.row_count s = e.row_count - s := by
    unfold size_sub to_size
    omega
  rw [hsub] at hi
  rw [to_size_natCast i (by omega)]
  unfold size_add
  omega

/-- In a state that satisfies the invariant the capacity bounds every index
the next change, undo turn and redo turn write. -/
theorem capacity_bounds_of_log_inv (e : editor_t) (hinv : log_inv e) :
    capacity_bounds e := by
  obtain ⟨hwf, ⟨hlo, hhi⟩, hlen, hcount, hsmall, hnodes, hcur⟩ := hinv
  have hwf' := hwf
  obtain ⟨hrl, hsl, hrc, hcap⟩ := hwf'
  refine ⟨hrc, hrl, hsl, ?_, ?_, ?_⟩
  · intro s k e1 hs hk h1
    have hadd : size_add s k = s + k := by unfold size_add; omega
    rw [hadd] at h1
    split at h1
    · rename_i hge
      obtain ⟨ha, hb, hc, -, -⟩ := expand_buffers_shape e e1 (s + k) hwf hge (by omega) h1
      exact ⟨by omega, by omega,
        change_lines_writes_lt s k _ (by omega) hk (by omega)⟩
    · simp only [pure_eq_ok] at h1
      subst h1
      exact ⟨hrl, hsl, change_lines_writes_lt s k _ (by omega) hk (by omega)⟩
  · intro node hge hnode
    obtain ⟨nd, hnd, hb, -⟩ := hnodes e.history.index.toNat (by omega)
    rw [hnode] at hnd
    simp only [Option.some.injEq] at hnd
    subst hnd
    rw [rows_at_node _ _ node hge hnode] at hcur
    obtain ⟨hb1, hb2, hb3, hb4⟩ := hb
    have hs31 : node.line_start ≤ 2147483647 := by omega
    have hrc31 : e.row_count ≤ 2147483647 := by omega
    clear hnodes hnode hlen hcount hsmall hlo hhi hge hwf
    cases hty : node.type with
    | CHANGE =>
      have hsk := hb3 hty
      have hadd : size_add node.line_start node.line_count = node.line_start + node.line_count := by
        unfold size_add
        omega
      have hsub : size_sub node.row_count node.line_start = node.row_count - node.line_start := by
        unfold size_sub to_size
        omega
      intro j hj
      unfold undo_step_writes at hj
      simp only [hty, hadd, hsub] at hj
      split at hj
      · simp at hj
      · split at hj
        · exact change_lines_writes_lt _ _ _ hs31 (by omega) (by omega) j hj
        · exact change_lines_writes_lt _ _ _ hs31 (by omega) (by omega) j hj
    | DELETE =>
      have hcur' : e.row_count = node.row_count - node.line_count := by
        rw [hcur]
        unfold row_count_after
        rw [hty]
      have hq : node.line_start < e.row_count →
          e.row_count + node.line_count ≤ e.row_capacity := by
        intro hlt
        rcases hb4 hty with hfit | ⟨-, hall⟩
        · omega
        · omega
      have hr : ¬ node.old_data = none →
          node.line_count ≤ 2147483647 ∧ node.line_start + node.line_count ≤ e.row_capacity := by
        intro hne
        rcases hb4 hty with hfit | ⟨hnone, -⟩
        · omega
        · exact absurd hnone hne
      intro j hj
      unfold undo_step_writes at hj
      simp only [hty] at hj
      rw [List.mem_append] at hj
      rcases hj with hj | hj
      · exact undo_shift_writes_lt _ _ _ _ j hs31 hrc31 hq hj
      · split at hj
        · simp at hj
        · rename_i hne
          exact change_lines_writes_lt _ _ _ hs31 (hr hne).1 (hr hne).2 j hj
  · intro node hlt hnode
    obtain ⟨nd, hnd, hb, hch⟩ := hnodes (e.history.index + 1).toNat (by omega)
    rw [hnode] at hnd
    simp only [Option.some.injEq] at hnd
    subst hnd
    have hprev : (((e.history.index + 1).toNat : Nat) : Int) - 1 = e.history.index := by omega
    rw [hprev, ← hcur] at hch
    obtain ⟨hb1, hb2, hb3, hb4⟩ := hb
    have hs31 : node.line_start ≤ 2147483647 := by omega
    have hrc31 : e.row_count ≤ 2147483647 := by omega
    have hsrc : node.line_start ≤ e.row_count := by omega
    clear hnodes hnode hlen hcount hsmall hlo hhi hwf hprev hlt
    cases hty : node.type with
    | CHANGE =>
      have hsk := hb3 hty
      intro j hj
      unfold redo_step_writes at hj
      simp only [hty] at hj
      exact change_lines_writes_lt _ _ _ hs31 (by omega) (by omega) j hj
    | DELETE =>
      intro j hj
      unfold redo_step_writes at hj
      simp only [hty] at hj
      split at hj
      · exact Nat.lt_of_lt_of_le (delete_lines_writes_lt e _ _ j hsrc hrc31 hj) hrc
      · simp at hj

/-! ## The listed indices are all the loops write -/

/-- A property kept by every turn of `for_down` whose counter is in
`[0, i0]` holds after the loop started at `i0`. -/
theorem for_down_range {σ : Type} (body : Int → σ → Except Fault σ)
    (P : σ → Prop) (i0 : Int)
    (hstep : ∀ i st st', 0 ≤ i → i ≤ i0 → body i st = .ok st' → P st → P st') :
    ∀ (fuel : Nat) (i : Int) (st st' : σ), i ≤ i0 →
      for_down body fuel i st = .ok st' → P st → P st' := by
  intro fuel
  induction fuel with
  | zero =>
    intro i st st' _ h hP
    unfold for_down at h
    split at h
    · cases h
    · cases h
      exact hP
  | succ fuel ih =>
    intro i st st' hi h hP
    unfold for_down at h
    split at h
    · rename_i h0
      split at h
      · cases h
      · rename_i st1 hb
        exact ih (i - 1) st1 st' (by omega) h (hstep i st st1 h0 hi hb hP)
    · cases h
      exact hP

/-- Cells of the two arrays outside `change_lines_writes` are as they were when
`change_lines` returns. -/
theorem change_lines_touches (e e' : editor_t) (s k : Nat) (data sizes : Option (List Cell))
    (hok : change_lines e s k data sizes = .ok e') :
    ∀ j, j ∉ change_lines_writes s k →
      e'.rows[j]? = e.rows[j]? ∧ e'.sizes[j]? = e.sizes[j]? := by
  unfold change_lines at hok
  simp only [bind_eq_ok] at hok
  obtain ⟨st, hloop, hfin⟩ := hok
  have key := for_up_ok_nat _ _
    (fun (n : Nat) (st : editor_t) => n ≤ 2147483647 ∧
      ∀ j, j ∉ change_lines_writes s k →
        st.rows[j]? = e.rows[j]? ∧ st.sizes[j]? = e.sizes[j]?)
    ?_ LOOP_FUEL 0 e st (by simpa using hloop) ⟨by omega, fun _ _ => ⟨rfl, rfl⟩⟩
  · obtain ⟨m, -, -, hkeep⟩ := key
    split at hfin <;> simp only [pure_eq_ok] at hfin <;> subst hfin <;> exact hkeep
  · rintro n st0 st1 hc hb hn ⟨hsmall, hkeep⟩
    simp only [INT_MAX] at hn
    have hts : to_size (n : Int) = n := to_size_natCast n (by omega)
    simp only [hts, decide_eq_true_eq] at hc
    simp only [bind_eq_ok, map_eq_ok, pure_eq_ok, wr_eq_ok] at hb
    obtain ⟨j', -, v, -, ns, ⟨-, rfl⟩, r, -, nr, ⟨-, rfl⟩, rfl⟩ := hb
    refine ⟨by omega, fun j hj => ?_⟩
    have hne : size_add s (to_size (n : Int)) ≠ j := by
      intro heq
      apply hj
      rw [← heq]
      exact List.mem_map.mpr ⟨n, List.mem_range.mpr hc, rfl⟩
    simp only
    rw [List.getElem?_set_ne hne, List.getElem?_set_ne hne]
    exact hkeep j hj

/-- Cells of the two arrays outside `change_lines_writes` are as they were when
`change_lines2` returns. -/
theorem change_lines2_touches (e e' : editor_t) (s k input : Nat) (sizes : List Nat)
    (hok : change_lines2 e s k input sizes = .ok e') :
    ∀ j, j ∉ change_lines_writes s k →
      e'.rows[j]? = e.rows[j]? ∧ e'.sizes[j]? = e.sizes[j]? := by
  unfold change_lines2 at hok
  simp only [bind_eq_ok] at hok
  obtain ⟨st, hloop, hfin⟩ := hok
  have key := for_up_ok_nat _ _
    (fun (n : Nat) (st : editor_t × Nat) => n ≤ 2147483647 ∧
      ∀ j, j ∉ change_lines_writes s k →
        st.1.rows[j]? = e.rows[j]? ∧ st.1.sizes[j]? = e.sizes[j]?)
    ?_ LOOP_FUEL 0 (e, 0) st (by simpa using hloop) ⟨by omega, fun _ _ => ⟨rfl, rfl⟩⟩
  · obtain ⟨m, -, -, hkeep⟩ := key
    split at hfin <;> simp only [pure_eq_ok] at hfin <;> subst hfin <;> exact hkeep
  · rintro n st0 st1 hc hb hn ⟨hsmall, hkeep⟩
    simp only [INT_MAX] at hn
    have hts : to_size (n : Int) = n := to_size_natCast n (by omega)
    simp only [hts, decide_eq_true_eq] at hc
    simp only [bind_eq_ok, map_eq_ok, pure_eq_ok, wr_eq_ok] at hb
    obtain ⟨j', -, v, -, ns, ⟨-, rfl⟩, nr, ⟨-, rfl⟩, w, -, rfl⟩ := hb
    refine ⟨by omega, fun j hj => ?_⟩
    have hne : size_add s (to_size (n : Int)) ≠ j := by
      intro heq
      apply hj
      rw [← heq]
      exact List.mem_map.mpr ⟨n, List.mem_range.mpr hc, rfl⟩
    simp only
    rw [List.getElem?_set_ne hne, List.getElem?_set_ne hne]
    exact hkeep j hj

/-- Cells of the two arrays outside `delete_lines_writes` are as they were when
`delete_lines` returns. -/
theorem delete_lines_touches (e e' : editor_t) (s k : Nat)
    (hok : delete_lines e s k = .ok e') :
    ∀ j, j ∉ delete_lines_writes e s k →
      e'.rows[j]? = e.rows[j]? ∧ e'.sizes[j]? = e.sizes[j]? := by
  unfold delete_lines at hok
  simp only [bind_eq_ok] at hok
  obtain ⟨st, hloop, hfin⟩ := hok
  have key := for_up_ok_nat _ _
    (fun (n : Nat) (st : editor_t) => n ≤ 2147483647 ∧ st.row_count = e.row_count ∧
      ∀ j, j ∉ delete_lines_writes e s k →
        st.rows[j]? = e.rows[j]? ∧ st.sizes[j]? = e.sizes[j]?)
    ?_ LOOP_FUEL 0 e st (by simpa using hloop) ⟨by omega, rfl, fun _ _ => ⟨rfl, rfl⟩⟩
  · obtain ⟨m, -, -, -, hkeep⟩ := key
    split at hfin <;> simp only [pure_eq_ok] at hfin <;> subst hfin <;> exact hkeep
  · rintro n st0 st1 hc hb hn ⟨hsmall, hrc, hkeep⟩
    simp only [INT_MAX] at hn
    have hts : to_size (n : Int) = n := to_size_natCast n (by omega)
    simp only [hts, decide_eq_true_eq] at hc
    split at hb
    · rename_i hlt
      rw [hrc] at hlt
      simp only [bind_eq_ok, map_eq_ok, pure_eq_ok, wr_eq_ok] at hb
      obtain ⟨v, -, ns, ⟨-, rfl⟩, r, -, nr, ⟨-, rfl⟩, rfl⟩ := hb
      refine ⟨by omega, hrc, fun j hj => ?_⟩
      have hne : size_add s (to_size (n : Int)) ≠ j := by
        intro heq
        apply hj
        rw [← heq]
        unfold delete_lines_writes
        refine List.mem_map.mpr ⟨n, List.mem_filter.mpr ⟨List.mem_range.mpr hc, ?_⟩, rfl⟩
        simpa using hlt
      simp only
      rw [List.getElem?_set_ne hne, List.getElem?_set_ne hne]
      exact hkeep j hj
    · simp only [pure_eq_ok] at hb
      subst hb
      exact ⟨by omega, hrc, hkeep⟩

/-- Cells of the two arrays outside `undo_step_writes` are as they were when
the undo turn returns. -/
theorem undo_step_touches (e e' : editor_t) (node : history_node_t)
    (hok : undo_step e node = .ok e') :
    ∀ j, j ∉ undo_step_writes e node →
      e'.rows[j]? = e.rows[j]? ∧ e'.sizes[j]? = e.sizes[j]? := by
  intro j hj
  unfold undo_step_writes at hj
  unfold undo_step at hok
  cases hty : node.type with
  | CHANGE =>
    simp only [hty] at hj
    simp only [hty, bind_eq_ok] at hok
    obtain ⟨st, hst, hfin⟩ := hok
    have h1 : st.2.old_data = node.old_data ∧ st.2.old_data_sizes = node.old_data_sizes ∧
        st.2.line_start = node.line_start ∧ st.2.line_count = node.line_count ∧
        st.2.row_count = node.row_count ∧ st.1.rows = e.rows ∧ st.1.sizes = e.sizes := by
      split at hst
      · simp only [bind_eq_ok, pure_eq_ok] at hst
        obtain ⟨old, -, h, -, rfl⟩ := hst
        exact ⟨rfl, rfl, rfl, rfl, rfl, rfl, rfl⟩
      · simp only [pure_eq_ok] at hst
        subst hst
        exact ⟨rfl, rfl, rfl, rfl, rfl, rfl, rfl⟩
    obtain ⟨ha, hb, hc, hd, he, hf, hg⟩ := h1
    simp only [ha, hb, hc, hd, he] at hfin
    split at hfin
    · simp only [pure_eq_ok] at hfin
      subst hfin
      exact ⟨by rw [← hf], by rw [← hg]⟩
    · rename_i hne
      rw [if_neg hne] at hj
      simp only [bind_eq_ok, pure_eq_ok] at hfin
      obtain ⟨e2, hcl, rfl⟩ := hfin
      rw [← hf, ← hg]
      split at hcl
      · rename_i hge
        rw [if_pos hge] at hj
        exact change_lines_touches _ _ _ _ _ _ hcl j hj
      · rename_i hge
        rw [if_neg hge] at hj
        exact change_lines_touches _ _ _ _ _ _ hcl j hj
  | DELETE =>
    simp only [hty] at hj
    simp only [hty, bind_eq_ok] at hok
    rw [List.mem_append, not_or] at hj
    obtain ⟨hj1, hj2⟩ := hj
    obtain ⟨e1, hloop, hfin⟩ := hok
    have h1 := for_down_range _
      (fun st : editor_t => st.rows[j]? = e.rows[j]? ∧ st.sizes[j]? = e.sizes[j]?)
      (to_int (size_sub (size_sub e.row_count node.line_start) 1))
      (by
        rintro i st st' h0 hi hb ⟨hr, hs⟩
        simp only [bind_eq_ok, map_eq_ok, pure_eq_ok, wr_eq_ok] at hb
        obtain ⟨v, -, ns, ⟨-, rfl⟩, r, -, nr, ⟨-, rfl⟩, rfl⟩ := hb
        have hne : size_add (size_add node.line_start node.line_count) (to_size i) ≠ j := by
          intro heq
          apply hj1
          rw [← heq]
          refine List.mem_map.mpr ⟨i.toNat, List.mem_range.mpr ?_, ?_⟩
          · exact (Int.toNat_lt_toNat (by linarith)).mpr (by linarith)
          · rw [Int.toNat_of_nonneg h0]
        simp only
        rw [List.getElem?_set_ne hne, List.getElem?_set_ne hne]
        exact ⟨hr, hs⟩)
      _ _ _ _ (le_refl _) hloop ⟨rfl, rfl⟩
    split at hfin
    · simp only [pure_eq_ok] at hfin
      subst hfin
      exact h1
    · rename_i hne
      rw [if_neg hne] at hj2
      simp only [bind_eq_ok, pure_eq_ok] at hfin
      obtain ⟨e2, hcl, rfl⟩ := hfin
      obtain ⟨hx, hy⟩ := change_lines_touches _ _ _ _ _ _ hcl j hj2
      exact ⟨hx.trans h1.1, hy.trans h1.2⟩

/-- Cells of the two arrays outside `redo_step_writes` are as they were when
the redo turn returns. -/
theorem redo_step_touches (e e' : editor_t) (node : history_node_t)
    (hok : redo_step e node = .ok e') :
    ∀ j, j ∉ redo_step_writes e node →
      e'.rows[j]? = e.rows[j]? ∧ e'.sizes[j]? = e.sizes[j]? := by
  intro j hj
  unfold redo_step_writes at hj
  unfold redo_step at hok
  cases hty : node.type with
  | CHANGE =>
    simp only [hty] at hj hok
    exact change_lines_touches _ _ _ _ _ _ hok j hj
  | DELETE =>
    simp only [hty] at hj hok
    split at hok
    · rename_i hpos
      rw [if_pos hpos] at hj
      exact delete_lines_touches _ _ _ _ hok j hj
    · simp only [pure_eq_ok] at hok
      subst hok
      exact ⟨rfl, rfl⟩

/-- C23: in every state reachable from `editor_init` by change commands,
delete commands whose `line_start` is within `row_count`, undo requests, redo
requests and flushes (with fewer than `2^63` nodes in the history),
`row_count <= row_capacity`, both buffer arrays have `row_capacity` cells, and
every index written by the next `editor_change` (whose `line_start` passes the
guard and whose line count is an `int`), by the next undo turn and by the next
redo turn is below the capacity the arrays have when it is written.  The same
holds between the turns of a replay: in every state that an undo of at most
`cursor + 1` steps or a redo of any number of steps returns from such a
state. -/
theorem capacity_bounds_buffer (e : editor_t) (h : ReachableGuarded e) :
    capacity_bounds e ∧
    (∀ (n : Nat) (r : Int) (e' : editor_t), (n : Int) ≤ e.history.index + 1 →
      editor_undo e n = .ok (r, e') → capacity_bounds e') ∧
    (∀ (n : Nat) (r : Int) (e' : editor_t),
      editor_redo e n = .ok (r, e') → capacity_bounds e') := by
  obtain ⟨hinv, -⟩ := reachable_guarded_log_inv e h
  refine ⟨capacity_bounds_of_log_inv e hinv, ?_, ?_⟩
  · intro n r e' hn hok
    exact capacity_bounds_of_log_inv e' (editor_undo_log_inv n e e' r hinv hn hok).1
  · intro n r e' hok
    exact capacity_bounds_of_log_inv e' (editor_redo_log_inv n e e' r hinv hok).1

/-- C23 at the state after `1,2c hello world .` and `1,1d`: the state is
reachable, the undo turn on the delete node writes the indices 1 and 0, and an
undo of two steps returns. -/
theorem capacity_bounds_buffer_witness :
    ReachableGuarded ed_deleted ∧
    undo_step_writes ed_deleted delete_node = [1, 0] ∧
    editor_undo ed_deleted 2 = .ok (0, ed_pristine) ∧
    (capacity_bounds ed_deleted ∧
    (∀ (n : Nat) (r : Int) (e' : editor_t), (n : Int) ≤ ed_deleted.history.index + 1 →
      editor_undo ed_deleted n = .ok (r, e') → capacity_bounds e') ∧
    (∀ (n : Nat) (r : Int) (e' : editor_t),
      editor_redo ed_deleted n = .ok (r, e') → capacity_bounds e')) :=
  ⟨ReachableGuarded.delete ed_two_lines ed_two_lines ed_deleted 0 0 1 1 [] 0 0 []
      (ReachableGuarded.change editor_init ed_two_lines 100 2 1 2 [5, 5] 0 []
        ReachableGuarded.init rfl (by decide))
      rfl (by decide) rfl (by decide),
    rfl, rfl,
    capacity_bounds_buffer ed_deleted
      (ReachableGuarded.delete ed_two_lines ed_two_lines ed_deleted 0 0 1 1 [] 0 0 []
        (ReachableGuarded.change editor_init ed_two_lines 100 2 1 2 [5, 5] 0 []
          ReachableGuarded.init rfl (by decide))
        rfl (by decide) rfl (by decide))⟩

/-! ## Where the snapshot loop strikes -/

/-- A change that overwrites a line above line 0 never returns: for
`1 <= line_start < row_count` and at least one line, `editor_change` passes its
guard and runs `copy_lines(editor, line_start, n, ..)` with `n >= 1` lines to
snapshot, and that loop writes outside its blocks. -/
theorem editor_change_overwrite_no_return (e : editor_t) (s k input : Nat)
    (sizes : List Nat) (hwf : buffer_wf e) (hs : 1 ≤ s) (hlt : s < e.row_count)
    (hk : 1 ≤ k) (r : Int × editor_t) :
    editor_change e s k input sizes ≠ .ok r := by
  intro hok
  have hwf' := hwf
  obtain ⟨hrl, hsl, hrc, hcap⟩ := hwf'
  unfold editor_change at hok
  rw [if_neg (by omega)] at hok
  simp only [bind_eq_ok, pure_eq_ok] at hok
  obtain ⟨e1, h1, old, hold, e2, h3, -⟩ := hok
  obtain ⟨hk2, -, -, -, -⟩ := change_lines2_shape _ _ _ _ _ _ h3
  have hadd : size_add s k = s + k := by unfold size_add; omega
  rw [hadd] at h1 hold
  have hrc1 : e1.row_count = e.row_count := by
    split at h1
    · rename_i hgecap
      exact (expand_buffers_spec e e1 (s + k) hwf hgecap (by omega) h1).1
    · simp only [pure_eq_ok] at h1
      subst h1
      rfl
  have hcount : (if s + k > e1.row_count then size_sub e1.row_count s else k) =
      min k (e.row_count - s) := by
    rw [hrc1]
    split
    · have : size_sub e.row_count s = e.row_count - s := by
        unfold size_sub to_size
        omega
      rw [this]
      omega
    · omega
  rw [hcount] at hold
  exact copy_lines_faults e1 s _ hs (by omega) (by omega) old hold

/-- The first undo of a change made above line 0 never returns: the node under
the cursor is a `CHANGE` node with `line_start >= 1`, at least one line and
`data` still `NULL`, so the turn calls `copy_lines(editor, line_start,
line_count, ..)`, which writes outside its blocks. -/
theorem editor_undo_change_above_zero_faults (e : editor_t) (node : history_node_t)
    (hge : 0 ≤ e.history.index)
    (hnode : e.history.nodes[e.history.index.toNat]? = some (some node))
    (htype : node.type = .CHANGE) (hdata : node.data = none)
    (hs : 1 ≤ node.line_start) (hk : 1 ≤ node.line_count)
    (hsmall : node.line_start + node.line_count ≤ 2147483647) (r : Int × editor_t) :
    editor_undo e 1 ≠ .ok r := by
  intro hok
  obtain ⟨new, hnew, -, -⟩ := editor_undo_one_change e r.2 r.1 node hge hnode htype hdata hok
  exact copy_lines_faults e _ _ hs hk hsmall new hnew

/-! ## Turns at the pristine state -/

/-- A turn of `editor_undo` at the pristine state (cursor -1) is not idle:
`command_history_back` hands out the zeroed node and returns 0, the turn takes
it for a change whose `data` is `NULL`, `copy_lines(editor, 0, 0, ..)` yields
two `NULL` pointers, and `command_history_update` writes the node to cell
`index + 1 = 0` of the history; `row_count` becomes the 0 of the zeroed node. -/
theorem editor_undo_pristine_turn (e : editor_t) (k : Nat)
    (hidx : e.history.index = -1) (hlen : 1 ≤ e.history.nodes.length) :
    editor_undo e (k + 1) = editor_undo { e with
      row_count := 0,
      history := { e.history with nodes := e.history.nodes.set 0 (some zero_node) } } k := by
  have hback : command_history_back e.history = .ok (0, e.history, some zero_node) := by
    unfold command_history_back
    rw [if_neg (by omega), if_pos hidx]
    rfl
  have hstep : undo_step { e with history := e.history } zero_node = .ok { e with
      row_count := 0,
      history := { e.history with nodes := e.history.nodes.set 0 (some zero_node) } } := by
    have hupd : command_history_update e.history zero_node =
        .ok { e.history with nodes := e.history.nodes.set 0 (some zero_node) } := by
      unfold command_history_update idx wr
      rw [hidx]
      simp only [bind, Except.bind]
      rw [if_pos (by decide)]
      simp only [bind, Except.bind]
      rw [if_pos (by simpa using hlen)]
      simp [pure, Except.pure, hidx]
    unfold undo_step
    simp only [zero_node, copy_lines] at hupd ⊢
    simp only [if_true, bind, Except.bind, pure, Except.pure, hupd]
  rw [editor_undo, hback]
  simp only [bind, Except.bind, ne_eq, not_true_eq_false, if_false, hstep]

/-- Any number of turns (at least one) at the pristine state returns 0 and
leaves the state of one such turn: node 0 of the history is the zeroed node,
`row_count` is 0, everything else is as before. -/
theorem editor_undo_pristine (k : Nat) : ∀ (e : editor_t),
    e.history.index = -1 → 1 ≤ e.history.nodes.length →
    editor_undo e (k + 1) = .ok (0, { e with
      row_count := 0,
      history := { e.history with nodes := e.history.nodes.set 0 (some zero_node) } }) := by
  induction k with
  | zero =>
    intro e hidx hlen
    rw [editor_undo_pristine_turn e 0 hidx hlen]
    rfl
  | succ k ih =>
    intro e hidx hlen
    have h2 := ih { e with
      row_count := 0,
      history := { e.history with nodes := e.history.nodes.set 0 (some zero_node) } }
      hidx (by simpa using hlen)
    rw [editor_undo_pristine_turn e (k + 1) hidx hlen, h2]
    simp only [List.set_set]

/-- A replay of `m + k` steps, the first `m` of them not past the pristine
state, is the replay of `m` steps followed by the replay of `k` steps, faults
included. -/
theorem editor_undo_add (m : Nat) : ∀ (e : editor_t) (k : Nat),
    (m : Int) ≤ e.history.index + 1 →
    editor_undo e (m + k) = editor_undo e m >>= fun p => editor_undo p.2 k := by
  induction m with
  | zero =>
    intro e k _
    rw [Nat.zero_add]
    rfl
  | succ m ih =>
    intro e k hm
    push_cast at hm
    have hmk : m + 1 + k = (m + k) + 1 := by omega
    rw [hmk, editor_undo, editor_undo]
    cases hback : command_history_back e.history with
    | error f => rfl
    | ok back =>
      have hb : back.1 = 0 ∧ back.2.1.index = e.history.index - 1 := by
        unfold command_history_back at hback
        rw [if_neg (by omega), if_neg (by omega)] at hback
        simp only [bind_eq_ok] at hback
        obtain ⟨j, -, cell, -, hm⟩ := hback
        split at hm
        · cases hm
        · simp only [pure_eq_ok] at hm
          subst hm
          exact ⟨rfl, rfl⟩
      simp only [bind, Except.bind, hb.1, ne_eq, not_true_eq_false, if_false]
      cases hnode : back.2.2 with
      | none => rfl
      | some node =>
        simp only
        cases hstep : undo_step { e with history := back.2.1 } node with
        | error f => rfl
        | ok e2 =>
          simp only
          obtain ⟨hi, -, -⟩ := undo_step_frame _ _ _ hstep
          simp only at hi
          have := ih e2 k (by rw [hi, hb.2]; omega)
          simpa only [bind, Except.bind] using this

/-- A replay that stays within the nodes to undo keeps the number of cells of
the history array. -/
theorem editor_undo_nodes_length (n : Nat) : ∀ (e e' : editor_t) (r : Int),
    (n : Int) ≤ e.history.index + 1 → editor_undo e n = .ok (r, e') →
    e'.history.nodes.length = e.history.nodes.length := by
  induction n with
  | zero =>
    intro e e' r _ hok
    unfold editor_undo at hok
    simp only [pure_eq_ok, Prod.mk.injEq] at hok
    obtain ⟨-, rfl⟩ := hok
    rfl
  | succ n ih =>
    intro e e' r hn hok
    push_cast at hn
    unfold editor_undo at hok
    simp only [bind_eq_ok] at hok
    obtain ⟨back, hback, hrest⟩ := hok
    have hb : back.1 = 0 ∧ back.2.1.index = e.history.index - 1 ∧
        back.2.1.nodes = e.history.nodes := by
      unfold command_history_back at hback
      rw [if_neg (by omega), if_neg (by omega)] at hback
      simp only [bind_eq_ok] at hback
      obtain ⟨j, -, cell, -, hm⟩ := hback
      split at hm
      · cases hm
      · simp only [pure_eq_ok] at hm
        subst hm
        exact ⟨rfl, rfl, rfl⟩
    rw [if_neg (by simp [hb.1])] at hrest
    split at hrest
    · cases hrest
    · simp only [bind_eq_ok] at hrest
      obtain ⟨e1, hstep, hrec⟩ := hrest
      obtain ⟨hi, -, -⟩ := undo_step_frame _ _ _ hstep
      obtain ⟨-, -, -, -, hh⟩ := undo_step_effect _ _ _ hstep
      simp only at hi hh
      have hlen : e1.history.nodes.length = e.history.nodes.length := by
        rcases hh with hh | ⟨x, y, -, hh⟩
        · rw [hh, hb.2.2]
        · rw [hh]
          simp only [List.length_set]
          rw [hb.2.2]
      rw [ih e1 e' r (by rw [hi, hb.2.1]; omega) hrec, hlen]

/-- What a direct call of `editor_undo` with more steps than there are nodes to
undo does (a call `do_command` never makes: it clamps the pending delta).  For
`n > cursor + 1` on an editor with `cursor >= -1` whose history array has at
least one cell, `editor_undo(n)` faults where `editor_undo(cursor + 1)` faults;
where that call returns a state, the cursor of the state is -1 and
`editor_undo(n)` returns 0 with that state except for node 0 of the history,
which is the zeroed node, and `row_count`, which is 0. -/
theorem editor_undo_past_pristine (e : editor_t) (n : Nat)
    (hge : -1 ≤ e.history.index) (hlen : 1 ≤ e.history.nodes.length)
    (hn : e.history.index + 1 < (n : Int)) :
    (∀ f, editor_undo e (e.history.index + 1).toNat = .error f →
      editor_undo e n = .error f) ∧
    (∀ r1 e1, editor_undo e (e.history.index + 1).toNat = .ok (r1, e1) →
      e1.history.index = -1 ∧
      editor_undo e n = .ok (0, { e1 with
        row_count := 0,
        history := { e1.history with
          nodes := e1.history.nodes.set 0 (some zero_node) } })) := by
  obtain ⟨k, hk⟩ : ∃ k, n = (e.history.index + 1).toNat + (k + 1) :=
    ⟨n - (e.history.index + 1).toNat - 1, by omega⟩
  have hadd := editor_undo_add (e.history.index + 1).toNat e (k + 1) (by omega)
  rw [← hk] at hadd
  refine ⟨?_, ?_⟩
  · intro f hf
    rw [hadd, hf]
    rfl
  · intro r1 e1 hok
    obtain ⟨hi, -⟩ := editor_undo_cursor _ e e1 r1 (by omega) hok
    have hl := editor_undo_nodes_length _ e e1 r1 (by omega) hok
    have hidx : e1.history.index = -1 := by omega
    refine ⟨hidx, ?_⟩
    rw [hadd, hok]
    exact editor_undo_pristine k e1 hidx (by omega)

end EditorEd
